import Mathlib

/-!
Verification development for the sandbox compiler core
(src/packages/app/src/sandbox/compile.js): the TranspiledModule graph
vertex with its four bidirectional edge sets, the transpile / evaluate /
reset lifecycle, the serializer, and the compile-request queue.

The mutable JS object graph is embedded as an association list from node
ids (module.path followed by a colon and the query, as in getId) to node
records; JS Sets of node objects become insertion-ordered duplicate-free
lists of ids.  Recursive graph walks (resetTranspilation,
resetCompilation, reset, transpile, evaluate) take an explicit fuel
argument because the JS recursions have no visited set and can diverge on
cyclic edge sets.  External collaborators that are not part of the source
file under scrutiny (the manager's path resolver, the preset aliases, the
concrete transpilers, the evaluator's interpretation of compiled code,
the dependency downloader) are oracle parameters gathered in an Env
record; the transpiler chain of a node is its observable interaction
trace with the loader context plus its returned code or thrown error.
-/

set_option maxHeartbeats 2000000
set_option maxRecDepth 10000

namespace Sandbox

/-- Node identifier: module path, a colon, then the query (getId). -/
abbrev NodeId := String

/-- Module: the immutable input unit (path, code, optional precomputed
requires, optional parent path for loader-emitted child modules). -/
structure Module where
  path : String
  code : String
  requires : Option (List String) := none
  parent : Option String := none
deriving DecidableEq

/-- ModuleSource: post-transform output of one loader-chain run. -/
structure ModuleSource where
  fileName : String
  compiledCode : String
  sourceMap : Option String := none
deriving DecidableEq

/-- Error record: message plus the fileName / tModule tags that
compile.js attaches to thrown errors. -/
structure TError where
  msg : String
  fileName : Option String := none
  tModule : Option NodeId := none
deriving DecidableEq

/-- Exports record of an evaluated unit: a keyed list of numeric values
standing for whatever the unit assigned to module.exports. -/
abbrev Exports := List (String × Nat)

/-- Compilation: the cached evaluation record of a node. -/
structure Compilation where
  exports : Exports
deriving DecidableEq

/-- hmrEnabled is absent, true (self-accept), or a callback registered by
an external consumer; modelled as a three-valued tag. -/
inductive Hmr where
  | off
  | selfAccept
  | callback
deriving DecidableEq

/-- A settled async dependency promise: resolved to a node id or
rejected. -/
inductive AsyncDep where
  | resolved (t : NodeId)
  | rejected
deriving DecidableEq

/-- TranspiledModule state (the graph vertex of compile.js). -/
structure TMNode where
  module : Module
  query : String := ""
  source : Option ModuleSource := none
  compilation : Option Compilation := none
  isEntry : Bool := false
  hmrEnabled : Hmr := .off
  changed : Bool := false
  errors : List TError := []
  warnings : List String := []
  assets : List (String × ModuleSource) := []
  emittedAssets : List ModuleSource := []
  childModules : List NodeId := []
  dependencies : List NodeId := []
  initiators : List NodeId := []
  transpilationDependencies : List NodeId := []
  transpilationInitiators : List NodeId := []
  asyncDependencies : List AsyncDep := []
deriving DecidableEq

/-- The manager's table of transpiled modules, keyed by node id. -/
abbrev Graph := List (NodeId × TMNode)

/-- Lookup of a node by id (first matching key). -/
def getN : Graph → NodeId → Option TMNode
  | [], _ => none
  | p :: t, x => if p.1 = x then some p.2 else getN t x

/-- Does the graph hold a node with this id? -/
def hasN (g : Graph) (x : NodeId) : Bool := (getN g x).isSome

/-- In-place mutation of the node with the given id (all matches). -/
def modifyN : Graph → NodeId → (TMNode → TMNode) → Graph
  | [], _, _ => []
  | p :: t, x, f =>
    (if p.1 = x then (p.1, f p.2) else p) :: modifyN t x f

/-- JS Set.add on an insertion-ordered duplicate-free list. -/
def lsAdd (l : List NodeId) (x : NodeId) : List NodeId :=
  if x ∈ l then l else l ++ [x]

/-- JS Set.delete on an insertion-ordered duplicate-free list. -/
def lsDel (l : List NodeId) (x : NodeId) : List NodeId :=
  l.filter (fun y => y ≠ x)

/-- Node id of a module/query pair, as TranspiledModule.getId builds it. -/
def mkId (path query : String) : NodeId := path ++ ":" ++ query

/-- Does the node with this id have a non-null source? (the t.source
filter used by resetTranspilation). -/
def srcSet (g : Graph) (x : NodeId) : Bool :=
  ((getN g x).bind (fun n => n.source)).isSome

/-- Does the node with this id have a non-null compilation? (the
t.compilation filter used by resetCompilation). -/
def compSet (g : Graph) (x : NodeId) : Bool :=
  ((getN g x).bind (fun n => n.compilation)).isSome

/-- TranspiledModule.resetTranspilation.  When hmrEnabled is unset it
first recursively resets every transpilation initiator whose source is
set (the filtered array is snapshotted before the recursion starts),
then clears source, errors and warnings, removes itself from the
initiators of each current dependency, and finally clears dependencies
and asyncDependencies.  With hmrEnabled set, both the recursion and the
initiator removal are skipped but dependencies are still cleared.  The
JS recursion has no visited set, hence the fuel argument. -/
def resetTranspilation : Nat → Graph → NodeId → Graph
  | 0, g, _ => g
  | fuel+1, g, x =>
    match getN g x with
    | none => g
    | some n =>
      let g1 :=
        if n.hmrEnabled = .off then
          (n.transpilationInitiators.filter (fun t => srcSet g t)).foldl
            (fun acc t => resetTranspilation fuel acc t) g
        else g
      let g2 := modifyN g1 x (fun m =>
        { m with source := none, errors := [], warnings := [] })
      let deps := ((getN g2 x).map (fun m => m.dependencies)).getD []
      let g3 :=
        if n.hmrEnabled = .off then
          deps.foldl (fun acc t =>
            modifyN acc t (fun m => { m with initiators := lsDel m.initiators x })) g2
        else g2
      modifyN g3 x (fun m => { m with dependencies := [], asyncDependencies := [] })

/-- TranspiledModule.resetCompilation.  If a compilation is cached:
outside HMR it is dropped and every initiator holding a compilation is
reset recursively; under HMR the node is only marked changed.  Then,
outside HMR, every transpilation initiator holding a compilation is
reset recursively as well (this second walk runs irrespective of whether
the node itself held a compilation). -/
def resetCompilation : Nat → Graph → NodeId → Graph
  | 0, g, _ => g
  | fuel+1, g, x =>
    match getN g x with
    | none => g
    | some n =>
      let g1 :=
        if n.compilation.isSome then
          if n.hmrEnabled = .off then
            let gc := modifyN g x (fun m => { m with compilation := none })
            (n.initiators.filter (fun t => compSet gc t)).foldl
              (fun acc t => resetCompilation fuel acc t) gc
          else
            modifyN g x (fun m => { m with changed := true })
        else g
      if n.hmrEnabled = .off then
        (((getN g1 x).map (fun m => m.transpilationInitiators)).getD []).filter
            (fun t => compSet g1 t) |>.foldl
          (fun acc t => resetCompilation fuel acc t) g1
      else g1

/-- TranspiledModule.reset: reset the children, clear childModules and
emittedAssets, then resetCompilation, resetTranspilation, and drop the
entry mark. -/
def reset : Nat → Graph → NodeId → Graph
  | 0, g, _ => g
  | fuel+1, g, x =>
    match getN g x with
    | none => g
    | some n =>
      let g1 := n.childModules.foldl (fun acc c => reset fuel acc c) g
      let g2 := modifyN g1 x (fun m =>
        { m with childModules := [], emittedAssets := [] })
      let g3 := resetCompilation (fuel+1) g2 x
      let g4 := resetTranspilation (fuel+1) g3 x
      modifyN g4 x (fun m => { m with isEntry := false })

/-- TranspiledModule.update: swap the underlying module then reset. -/
def update (fuel : Nat) (g : Graph) (x : NodeId) (m : Module) : Graph :=
  match getN g x with
  | none => g
  | some _ => reset fuel (modifyN g x (fun n => { n with module := m })) x

/-- TranspiledModule.setIsEntry. -/
def setIsEntry (g : Graph) (x : NodeId) (b : Bool) : Graph :=
  modifyN g x (fun n => { n with isEntry := b })

/-- Semantics of a compiled unit, as interpreted by the external
evaluator: assignments to the export record, require calls (with or
without using the result), module.hot.accept registrations, and thrown
errors. -/
inductive Instr where
  | setExport (k : String) (v : Nat)
  | requireInto (k : String) (spec : String) (field : String)
  | requireDiscard (spec : String)
  | acceptSelf
  | acceptPath (p : String)
  | throwErr (m : String)
deriving DecidableEq

/-- Loader-context calls a transpiler makes while it runs, in order. -/
inductive CtxAction where
  | emitModuleA (path code : String) (dirPath : Option String)
  | emitFileA (name content : String) (sourceMap : Option String)
  | addDependencyA (depPath : String) (isAbsolute : Bool)
  | addTranspilationDependencyA (depPath : String) (isAbsolute : Bool)
  | addDependenciesInDirectoryA (dir : String) (isAbsolute : Bool)
  | emitWarningA (w : String)
  | emitErrorA (e : String)
deriving DecidableEq

/-- Observable behaviour of one transpiler in the chain: its loader
context interactions followed by its returned transpiled code (with
source map) or its thrown error. -/
structure TStep where
  actions : List CtxAction
  result : Except String String
  sourceMap : Option String := none

/-- Result of Manager.resolveTranspiledModule: a node, a module-not-found
failure carrying the isDependency marker (demoted to a download during
transpile), or another resolution failure. -/
inductive Resolution where
  | found (t : NodeId)
  | notFoundDependency (pkgPath : String)
  | otherError (msg : String)
deriving DecidableEq

/-- Oracle record for every external collaborator of the code under
scrutiny: the manager's resolver and directory resolver, the preset
aliases, the meaning the evaluator gives to compiled code, each node's
transpiler chain behaviour, the settled outcome of dependency downloads,
and the export records of host-provided externals. -/
structure Env where
  resolve : String → String → Resolution
  resolveDir : String → String → List NodeId
  aliasOf : String → String
  sem : String → List Instr
  steps : NodeId → List TStep
  download : String → String → AsyncDep
  externalVal : String → Exports

/-- Modelled from the spec: pathUtils.dirname of common/utils/path, which
is not under src; the directory part of a slash-separated path. -/
def dirname (p : String) : String :=
  String.intercalate "/" (p.splitOn "/").dropLast

/-- Modelled from the spec: pathUtils.join of common/utils/path, which is
not under src; joins a directory with a path component. -/
def pathJoin (a b : String) : String :=
  if b.startsWith "/" then b else a ++ "/" ++ b

/-- Modelled from the spec: Manager.addTranspiledModule (the manager
source is not under src): create or look up the node keyed by the module
path and query. -/
def addTranspiledModule (g : Graph) (m : Module) (query : String) :
    Graph × NodeId :=
  let x := mkId m.path query
  match getN g x with
  | some _ => (g, x)
  | none => (g ++ [(x, { module := m, query := query })], x)

/-- Add a runtime edge in both directions: b into the dependencies of a,
a into the initiators of b. -/
def addDepEdge (g : Graph) (a b : NodeId) : Graph :=
  let g1 := modifyN g a (fun n =>
    { n with dependencies := lsAdd n.dependencies b })
  modifyN g1 b (fun n => { n with initiators := lsAdd n.initiators a })

/-- Add a compile-time edge in both directions: b into the
transpilationDependencies of a, a into the transpilationInitiators of
b. -/
def addTranspEdge (g : Graph) (a b : NodeId) : Graph :=
  let g1 := modifyN g a (fun n =>
    { n with transpilationDependencies := lsAdd n.transpilationDependencies b })
  modifyN g1 b (fun n =>
    { n with transpilationInitiators := lsAdd n.transpilationInitiators a })

/-- getLoaderContext.emitModule: synthesise a child module under the
current (or given) directory, create or look up its node, register it as
a child, and link it as a dependency in both directions. -/
def emitModule (g : Graph) (self : NodeId) (path code : String)
    (directoryPath : Option String) : Graph × NodeId :=
  match getN g self with
  | none => (g, self)
  | some n =>
    let dir := directoryPath.getD (dirname n.module.path)
    let queryPath := path.splitOn "!"
    let modulePath := queryPath.getLastD ""
    let query := String.intercalate "!" queryPath.dropLast
    let moduleCopy : Module :=
      { n.module with
        path := pathJoin dir modulePath
        parent := some n.module.path
        code := code }
    let r := addTranspiledModule g moduleCopy query
    let g2 := modifyN r.1 self (fun m =>
      { m with childModules := m.childModules ++ [r.2] })
    (addDepEdge g2 self r.2, r.2)

/-- getLoaderContext.emitFile: store an auxiliary asset under its name. -/
def emitFile (g : Graph) (self : NodeId) (name content : String)
    (sm : Option String) : Graph :=
  modifyN g self (fun n =>
    { n with assets :=
        if (n.assets.map Prod.fst).contains name then
          n.assets.map (fun p => if p.1 = name then (name, ⟨name, content, sm⟩) else p)
        else n.assets ++ [(name, (⟨name, content, sm⟩ : ModuleSource))] })

/-- getLoaderContext.addDependency: specifiers for the runtime helpers
return null without linking; a resolved specifier is linked in both
directions; a module-not-found failure carrying isDependency enqueues a
download into asyncDependencies; any other failure is swallowed. -/
def addDependency (env : Env) (g : Graph) (self : NodeId)
    (depPath : String) (isAbsolute : Bool) : Graph :=
  if depPath.startsWith "babel-runtime" || depPath.startsWith "codesandbox-api" then g
  else
    match getN g self with
    | none => g
    | some n =>
      match env.resolve depPath (if isAbsolute then "/" else n.module.path) with
      | .found t => addDepEdge g self t
      | .notFoundDependency pkg =>
        modifyN g self (fun m =>
          { m with asyncDependencies :=
              m.asyncDependencies ++ [env.download pkg n.module.path] })
      | .otherError _ => g

/-- getLoaderContext.addTranspilationDependency: resolve and link a
compile-time dependency in both directions; a resolution failure
propagates (there is no try/catch around this resolve). -/
def addTranspilationDependency (env : Env) (g : Graph) (self : NodeId)
    (depPath : String) (isAbsolute : Bool) : Graph × Option TError :=
  match getN g self with
  | none => (g, none)
  | some n =>
    match env.resolve depPath (if isAbsolute then "/" else n.module.path) with
    | .found t => (addTranspEdge g self t, none)
    | .notFoundDependency pk => (g, some { msg := "module-not-found " ++ pk })
    | .otherError m => (g, some { msg := m })

/-- getLoaderContext.addDependenciesInDirectory: link every module the
manager resolves under the directory, in both directions. -/
def addDependenciesInDirectory (env : Env) (g : Graph) (self : NodeId)
    (folderPath : String) (isAbsolute : Bool) : Graph :=
  match getN g self with
  | none => g
  | some n =>
    (env.resolveDir folderPath (if isAbsolute then "/" else n.module.path)).foldl
      (fun acc t => addDepEdge acc self t) g

/-- One loader-context call made by a running transpiler. -/
def applyCtxAction (env : Env) (g : Graph) (self : NodeId) :
    CtxAction → Graph × Option TError
  | .emitModuleA p c d => ((emitModule g self p c d).1, none)
  | .emitFileA n c sm => (emitFile g self n c sm, none)
  | .addDependencyA p abs => (addDependency env g self p abs, none)
  | .addTranspilationDependencyA p abs => addTranspilationDependency env g self p abs
  | .addDependenciesInDirectoryA d abs =>
    (addDependenciesInDirectory env g self d abs, none)
  | .emitWarningA w =>
    (modifyN g self (fun n => { n with warnings := n.warnings ++ [w] }), none)
  | .emitErrorA e =>
    (modifyN g self (fun n =>
      { n with errors := n.errors ++ [(⟨e, none, none⟩ : TError)] }), none)

/-- The loader-context calls of one transpiler run, stopping at the
first thrown error. -/
def applyCtxActions (env : Env) (self : NodeId) :
    Graph → List CtxAction → Graph × Option TError
  | g, [] => (g, none)
  | g, a :: rest =>
    match applyCtxAction env g self a with
    | (g1, some e) => (g1, some e)
    | (g1, none) => applyCtxActions env self g1 rest

/-- The transpiler loop of TranspiledModule.transpile: run each
transpiler of the chain left to right, feeding the code through; after a
transpiler returns, flush warnings and throw the first emitted error if
any; a throw from the transpiler (or from a loader-context call it
makes) exits the loop.  Returns the mutated graph, the number of
transpiler invocations, and the final code and source map or the thrown
error. -/
def runChain (env : Env) (self : NodeId) :
    Graph → String → Option String → List TStep →
      Graph × Nat × Except TError (String × Option String)
  | g, code, sm, [] => (g, 0, .ok (code, sm))
  | g, _, _, step :: rest =>
    match applyCtxActions env self g step.actions with
    | (g1, some e) => (g1, 1, .error e)
    | (g1, none) =>
      match step.result with
      | .error m => (g1, 1, .error (⟨m, none, none⟩ : TError))
      | .ok tc =>
        match ((getN g1 self).map (fun n => n.errors)).getD [] with
        | e :: _ => (g1, 1, .error e)
        | [] =>
          let r := runChain env self g1 tc step.sourceMap rest
          (r.1, r.2.1 + 1, r.2.2)

/-- The origin the sourceURL trailer is built from (location.origin of
the host document). -/
def locationOrigin : String := "http://localhost"

/-- Result of a transpile walk: the graph, the error that aborted the
walk if any, and the number of transpiler invocations performed. -/
structure TranspileRes where
  g : Graph
  err : Option TError
  work : Nat
deriving DecidableEq

/-- The async-dependency stage at the tail of TranspiledModule.transpile:
append the sourceURL trailer, store the new ModuleSource, link each
settled async dependency in both directions (rejections are left for
evaluation), then clear the pending list. -/
def transpileAsyncStage (gf : Graph) (x : NodeId) (path code : String)
    (sm : Option String) : Graph :=
  let code1 := code ++ "\n//# sourceURL=" ++ locationOrigin ++ path
  let gs := modifyN gf x (fun m =>
    { m with source := some ⟨path, code1, sm⟩ })
  let asyncs := ((getN gs x).map (fun m => m.asyncDependencies)).getD []
  let ga := asyncs.foldl (fun acc d =>
    match d with
    | AsyncDep.resolved t => addDepEdge acc x t
    | AsyncDep.rejected => acc) gs
  modifyN ga x (fun m => { m with asyncDependencies := [] })

/-- The tail stage of TranspiledModule.transpile, after the transpiler
chain succeeded: the async stage, then transpile every transpilation
initiator and dependency through the given recursion (the concurrent
fan-out of the source, sequentialised; the first error of the fan-out
propagates). -/
def transpileFinish (rec : Graph → NodeId → TranspileRes) (gf : Graph)
    (x : NodeId) (path code : String) (sm : Option String)
    (w : Nat) : TranspileRes :=
  let gb := transpileAsyncStage gf x path code sm
  let targets :=
    ((getN gb x).map (fun m =>
      m.transpilationInitiators ++ m.dependencies)).getD []
  targets.foldl (fun acc t =>
    let r := rec acc.g t
    (⟨r.g, acc.err <|> r.err, acc.work + r.work⟩ : TranspileRes))
    (⟨gb, none, w⟩ : TranspileRes)

/-- TranspiledModule.transpile.  Returns immediately while source is
set.  Otherwise: clear the old outgoing runtime edges, then either
register the precomputed requires (server-transpiled modules) or run the
transpiler chain; a chain error is tagged with fileName and tModule, the
node's transpilation is reset, and the error is returned (rethrown).  On
success the transpileFinish stage stores the source and fans out. -/
def transpile : Nat → Env → Graph → NodeId → TranspileRes
  | 0, _, g, _ => ⟨g, some ⟨"transpile out of fuel", none, none⟩, 0⟩
  | fuel+1, env, g, x =>
    match getN g x with
    | none => ⟨g, none, 0⟩
    | some n =>
      if n.source.isSome then ⟨g, none, 0⟩
      else
        let g1 := n.dependencies.foldl (fun acc t =>
          modifyN acc t (fun m => { m with initiators := lsDel m.initiators x })) g
        let g2 := modifyN g1 x (fun m =>
          { m with dependencies := [], errors := [], warnings := [] })
        match n.module.requires with
        | some reqs =>
          let g3 := reqs.foldl (fun acc r => addDependency env acc x r false) g2
          transpileFinish (transpile fuel env) g3 x n.module.path
            n.module.code none 0
        | none =>
          match runChain env x g2 n.module.code none (env.steps x) with
          | (g3, w, .error e) =>
            let e1 := { e with fileName := some n.module.path, tModule := some x }
            ⟨resetTranspilation fuel g3 x, some e1, w⟩
          | (g3, w, .ok (code, sm)) =>
            transpileFinish (transpile fuel env) g3 x n.module.path code sm w

/-- Manager-level state an evaluation walk threads through: the graph,
the manager's webpackHMR flag, the full-page reloads requested so far
(location.reload calls), and the number of evaluator invocations. -/
structure EvalState where
  g : Graph
  webpackHMR : Bool := false
  reloads : List NodeId := []
  evalWork : Nat := 0
deriving DecidableEq

/-- Word characters of the bare-specifier test in require. -/
def isWordChar (c : Char) : Bool := c.isAlphanum || c = '_'

/-- The regular expression test of require for a bare package specifier:
the aliased path starts with a word character or an at sign followed by
a word character. -/
def bareSpec (s : String) : Bool :=
  match s.data with
  | [] => false
  | c :: rest =>
    if c = '@' then
      match rest with
      | [] => false
      | d :: _ => isWordChar d
    else isWordChar c

/-- Assignment to one key of an export record. -/
def setKV (ex : Exports) (k : String) (v : Nat) : Exports :=
  if (ex.map Prod.fst).contains k then
    ex.map (fun p => if p.1 = k then (k, v) else p)
  else ex ++ [(k, v)]

/-- Run the instructions of a compiled unit against the in-place
compilation record of the node, calling back into the given require
closure; the hot.accept registrations mark nodes HMR-accepting and raise
the manager's webpackHMR flag. -/
def runInstrs (env : Env)
    (req : String → EvalState → EvalState × Except TError Exports)
    (self : NodeId) : EvalState → List Instr → EvalState × Except TError Unit
  | s, [] => (s, .ok ())
  | s, i :: rest =>
    match i with
    | .setExport k v =>
      let s1 := { s with g := modifyN s.g self (fun n =>
        { n with compilation := n.compilation.map (fun c =>
            (⟨setKV c.exports k v⟩ : Compilation)) }) }
      runInstrs env req self s1 rest
    | .requireInto k spec field =>
      match req spec s with
      | (s1, .error e) => (s1, .error e)
      | (s1, .ok ex) =>
        let v := (((ex.find? (fun p => p.1 = field)).map Prod.snd)).getD 0
        let s2 := { s1 with g := modifyN s1.g self (fun n =>
          { n with compilation := n.compilation.map (fun c =>
              (⟨setKV c.exports k v⟩ : Compilation)) }) }
        runInstrs env req self s2 rest
    | .requireDiscard spec =>
      match req spec s with
      | (s1, .error e) => (s1, .error e)
      | (s1, .ok _) => runInstrs env req self s1 rest
    | .acceptSelf =>
      let g1 := modifyN s.g self (fun n => { n with hmrEnabled := .selfAccept })
      let s1 := { s with webpackHMR := true, g := g1 }
      runInstrs env req self s1 rest
    | .acceptPath p =>
      match getN s.g self with
      | none => (s, .error ⟨"unknown module", none, none⟩)
      | some n =>
        match env.resolve p n.module.path with
        | .found t =>
          let g1 := modifyN s.g t (fun m => { m with hmrEnabled := .callback })
          let s1 := { s with webpackHMR := true, g := g1 }
          runInstrs env req self s1 rest
        | .notFoundDependency pk =>
          (s, .error ⟨"module-not-found " ++ pk, none, none⟩)
        | .otherError m => (s, .error ⟨m, none, none⟩)
    | .throwErr m => (s, .error ⟨m, none, none⟩)

/-- TranspiledModule.evaluate.  A node without source throws (before the
try block, so that error carries no tModule tag).  Under the manager's
webpackHMR flag, an entry without compilation that is not HMR-accepting
requests a full page reload and returns an empty export record.  A
cached compilation with changed unset is returned as is.  Otherwise the
compilation record is created if absent, the unit runs with a require
closure that aliases the specifier, resolves runtime helpers through the
externals, rejects self-imports, and recurses; any error thrown during
the run is tagged with tModule (keeping an inner tag) and rethrown,
leaving the compilation record in place. -/
def evaluate : Nat → Env → EvalState → NodeId → List NodeId →
    EvalState × Except TError Exports
  | 0, _, s, _, _ => (s, .error ⟨"evaluate out of fuel", none, none⟩)
  | fuel+1, env, s, x, parentModules =>
    match getN s.g x with
    | none => (s, .error ⟨"unknown module", none, none⟩)
    | some n =>
      match n.source with
      | none =>
        (s, .error ⟨n.module.path ++ " hasn't been transpiled yet.", none, none⟩)
      | some src =>
        if s.webpackHMR && n.compilation.isNone && n.isEntry &&
            n.hmrEnabled = .off then
          ({ s with reloads := s.reloads ++ [x] }, .ok [])
        else if n.compilation.isSome && !n.changed then
          (s, .ok (((n.compilation.map (fun c => c.exports))).getD []))
        else
          let comp := n.compilation.getD ⟨[]⟩
          let s1 := { s with
            g := modifyN s.g x (fun m => { m with compilation := some comp })
            evalWork := s.evalWork + 1 }
          let req : String → EvalState → EvalState × Except TError Exports :=
            fun spec st =>
              let aliasedPath := env.aliasOf spec
              if bareSpec aliasedPath && !(aliasedPath.contains '!') &&
                  (aliasedPath.startsWith "babel-runtime" ||
                   aliasedPath.startsWith "codesandbox-api") then
                (st, .ok (env.externalVal aliasedPath))
              else
                match env.resolve aliasedPath n.module.path with
                | .found t =>
                  match getN st.g t with
                  | none => (st, .error ⟨"unknown module", none, none⟩)
                  | some tn =>
                    if tn.module = n.module then
                      (st, .error ⟨n.module.path ++ " is importing itself",
                        none, none⟩)
                    else evaluate fuel env st t (parentModules ++ [x])
                | .notFoundDependency pk =>
                  (st, .error ⟨"module-not-found " ++ pk, none, none⟩)
                | .otherError m => (st, .error ⟨m, none, none⟩)
          match runInstrs env req x s1 (env.sem src.compiledCode) with
          | (s2, .error e) =>
            (s2, .error { e with tModule := some (e.tModule.getD x) })
          | (s2, .ok _) =>
            let ex := (((getN s2.g x).bind (fun m => m.compilation)).map
              (fun c => c.exports)).getD []
            (s2, .ok ex)

/-- The id-referenced plain record serialize produces for one node. -/
structure SerializedTranspiledModule where
  module : Module
  query : String
  source : Option ModuleSource
  assets : List (String × ModuleSource)
  isEntry : Bool
  childModules : List NodeId
  emittedAssets : List ModuleSource
  initiators : List NodeId
  dependencies : List NodeId
  asyncDependencies : List NodeId
  transpilationDependencies : List NodeId
  transpilationInitiators : List NodeId
deriving DecidableEq

/-- TranspiledModule.serialize.  Every edge set is written as an array
of ids.  The pushes into asyncDependencies happen inside then-callbacks
on the pending promises, which run only in later microtasks, after
serialize has returned; the record therefore leaves serialize with an
empty asyncDependencies array, and the ids of the resolved targets (a
rejected promise never runs its fulfillment callback) arrive later.
The first component is the record as returned; the second lists the ids
the deferred callbacks push. -/
def serialize (n : TMNode) : SerializedTranspiledModule × List NodeId :=
  (⟨n.module, n.query, n.source, n.assets, n.isEntry, n.childModules,
    n.emittedAssets, n.initiators, n.dependencies, [],
    n.transpilationDependencies, n.transpilationInitiators⟩,
   n.asyncDependencies.filterMap (fun d =>
     match d with
     | .resolved t => some t
     | .rejected => none))

/-- The serialized record once the deferred then-callbacks have run. -/
def serializeSettled (n : TMNode) : SerializedTranspiledModule :=
  { (serialize n).1 with asyncDependencies := (serialize n).2 }

/-- TranspiledModule.load: restore the scalar fields from the record and
add the edge targets found in the state table by id lookup (an id the
table misses is skipped).  The source restores dependencies,
childModules, initiators, transpilationDependencies and
asyncDependencies; it has no loop for transpilationInitiators, which
therefore stay as they were (empty on a freshly created node). -/
def load (g : Graph) (x : NodeId) (data : SerializedTranspiledModule)
    (state : List NodeId) : Graph :=
  modifyN g x (fun n =>
    { n with
      query := data.query
      assets := data.assets
      module := data.module
      emittedAssets := data.emittedAssets
      isEntry := data.isEntry
      source := data.source
      dependencies :=
        (data.dependencies.filter (fun d => state.contains d)).foldl lsAdd
          n.dependencies
      childModules :=
        n.childModules ++ data.childModules.filter (fun d => state.contains d)
      initiators :=
        (data.initiators.filter (fun d => state.contains d)).foldl lsAdd
          n.initiators
      transpilationDependencies :=
        (data.transpilationDependencies.filter (fun d => state.contains d)).foldl
          lsAdd n.transpilationDependencies
      asyncDependencies :=
        n.asyncDependencies ++
          (data.asyncDependencies.filter (fun d => state.contains d)).map
            .resolved })

/-- Modelled from the spec: the manager's graph restore (the manager
source is not under src): create an empty node for every id of the blob,
then populate each one by TranspiledModule.load with id lookup over the
blob's ids. -/
def deserialize (blob : List (NodeId × SerializedTranspiledModule)) : Graph :=
  let ids := blob.map Prod.fst
  let init : Graph :=
    blob.map (fun p => (p.1, { module := p.2.module, query := p.2.query }))
  blob.foldl (fun g p => load g p.1 p.2 ids) init

/-- Serialize the whole node table (blob contents after the deferred
pushes have settled, the most faithful state the storage collaborator
can observe). -/
def serializeGraph (g : Graph) : List (NodeId × SerializedTranspiledModule) :=
  g.map (fun p => (p.1, serializeSettled p.2))

/-- Round trip through the serializer. -/
def roundTrip (g : Graph) : Graph := deserialize (serializeGraph g)

/-- State of the compile-request pipeline at the foot of compile.js: the
tasks array and the runningTask flag. -/
structure PipelineState where
  tasks : List Nat
  runningTask : Bool
deriving DecidableEq

/-- The assignment tasks[0] = data: overwrite slot zero, extending an
empty array to length one. -/
def setSlotZero (l : List Nat) (t : Nat) : List Nat :=
  match l with
  | [] => [t]
  | _ :: rest => t :: rest

/-- tasks.pop(): remove and return the last element. -/
def popTask (l : List Nat) : List Nat × Option Nat := (l.dropLast, l.getLast?)

/-- executeTaskIfAvailable at its entry: when tasks exist, pop one, set
runningTask, and hand the popped task to compile (returned as the
started task). -/
def executeTaskIfAvailable (s : PipelineState) : PipelineState × Option Nat :=
  match s.tasks with
  | [] => (s, none)
  | _ :: _ =>
    let pr := popTask s.tasks
    (⟨pr.1, true⟩, pr.2)

/-- queueTask: write the request into slot zero and start execution only
when nothing is running. -/
def queueTask (s : PipelineState) (t : Nat) : PipelineState × Option Nat :=
  let s1 : PipelineState := ⟨setSlotZero s.tasks t, s.runningTask⟩
  if s1.runningTask then (s1, none) else executeTaskIfAvailable s1

/-- The continuation of executeTaskIfAvailable after the awaited compile
settles: clear runningTask and recurse, which may start the next task. -/
def finishTask (s : PipelineState) : PipelineState × Option Nat :=
  if s.runningTask then executeTaskIfAvailable ⟨s.tasks, false⟩ else (s, none)

/-- External stimuli of the pipeline: an editor request arriving, or the
in-flight compile settling. -/
inductive PEvent where
  | enqueue (t : Nat)
  | settle
deriving DecidableEq

/-- One pipeline transition, returning the task started by it, if any. -/
def pstep (s : PipelineState) : PEvent → PipelineState × Option Nat
  | .enqueue t => queueTask s t
  | .settle => finishTask s

/-- Run the pipeline from its initial state over a stimulus sequence. -/
def runPipeline (evs : List PEvent) : PipelineState :=
  evs.foldl (fun s e => (pstep s e).1) ⟨[], false⟩

/-- Symmetry of the runtime edge pair: b lies in the dependencies of a
exactly when a lies in the initiators of b, for all nodes present. -/
def DepSym (g : Graph) : Prop :=
  ∀ a b na nb, getN g a = some na → getN g b = some nb →
    (b ∈ na.dependencies ↔ a ∈ nb.initiators)

/-- Symmetry of the compile-time edge pair: b lies in the
transpilationDependencies of a exactly when a lies in the
transpilationInitiators of b, for all nodes present. -/
def TranspSym (g : Graph) : Prop :=
  ∀ a b na nb, getN g a = some na → getN g b = some nb →
    (b ∈ na.transpilationDependencies ↔ a ∈ nb.transpilationInitiators)

/-- Every edge of every node (including resolved async dependencies)
points at a node the graph holds. -/
def Closed (g : Graph) : Prop :=
  ∀ a na, getN g a = some na →
    (∀ b ∈ na.dependencies, hasN g b = true) ∧
    (∀ b ∈ na.initiators, hasN g b = true) ∧
    (∀ b ∈ na.transpilationDependencies, hasN g b = true) ∧
    (∀ b ∈ na.transpilationInitiators, hasN g b = true) ∧
    (∀ t, AsyncDep.resolved t ∈ na.asyncDependencies → hasN g t = true)

/-- The node table has no duplicate ids. -/
def KeysOk (g : Graph) : Prop := (g.map Prod.fst).Nodup

/-- The well-formedness bundle of the graph: both edge-pair symmetries,
closedness of the edges, and unique ids. -/
def GInv (g : Graph) : Prop := DepSym g ∧ TranspSym g ∧ Closed g ∧ KeysOk g

/-- No node of the graph has hmrEnabled set. -/
def allOff (g : Graph) : Prop :=
  ∀ a na, getN g a = some na → na.hmrEnabled = .off

/-- The invariant of claim C2: a node without source holds no
compilation. -/
def SrcCompInv (g : Graph) : Prop :=
  ∀ a na, getN g a = some na → na.source = none → na.compilation = none

/-- No node of the graph holds a compilation. -/
def NoComp (g : Graph) : Prop :=
  ∀ a na, getN g a = some na → na.compilation = none

/-- The resolver, directory resolver and downloader of the oracle only
ever return nodes the graph holds. -/
def EnvValid (env : Env) (g : Graph) : Prop :=
  (∀ s f t, env.resolve s f = .found t → hasN g t = true) ∧
  (∀ d f t, t ∈ env.resolveDir d f → hasN g t = true) ∧
  (∀ p f t, env.download p f = .resolved t → hasN g t = true)

/-- Executable check of DepSym over the pairs of the node table. -/
def DepSymB (g : Graph) : Bool :=
  g.all (fun p => g.all (fun q =>
    decide (q.1 ∈ p.2.dependencies ↔ p.1 ∈ q.2.initiators)))

/-- Executable check of TranspSym over the pairs of the node table. -/
def TranspSymB (g : Graph) : Bool :=
  g.all (fun p => g.all (fun q =>
    decide (q.1 ∈ p.2.transpilationDependencies ↔
      p.1 ∈ q.2.transpilationInitiators)))

/-- Executable check of Closed over the node table. -/
def ClosedB (g : Graph) : Bool :=
  g.all (fun p =>
    p.2.dependencies.all (fun b => hasN g b) &&
    p.2.initiators.all (fun b => hasN g b) &&
    p.2.transpilationDependencies.all (fun b => hasN g b) &&
    p.2.transpilationInitiators.all (fun b => hasN g b) &&
    p.2.asyncDependencies.all (fun d =>
      match d with
      | .resolved t => hasN g t
      | .rejected => true))

/-- Executable check of allOff over the node table. -/
def allOffB (g : Graph) : Bool :=
  g.all (fun p => p.2.hmrEnabled = .off)

/-- Executable check of SrcCompInv over the node table. -/
def SrcCompInvB (g : Graph) : Bool :=
  g.all (fun p => p.2.source.isNone → p.2.compilation.isNone)

/-- Executable check of NoComp over the node table. -/
def NoCompB (g : Graph) : Bool :=
  g.all (fun p => p.2.compilation.isNone)

/-- The public operations on the graph named by the symmetry claim, as
one stimulus type: the TranspiledModule lifecycle operations and the
linking operations of the loader context. -/
inductive PublicOp where
  | transpileOp (x : NodeId)
  | evaluateOp (x : NodeId) (parents : List NodeId) (hmrFlag : Bool)
  | resetOp (x : NodeId)
  | resetTranspilationOp (x : NodeId)
  | resetCompilationOp (x : NodeId)
  | updateOp (x : NodeId) (m : Module)
  | emitModuleOp (self : NodeId) (path code : String) (dir : Option String)
  | addDependencyOp (self : NodeId) (dep : String) (abs : Bool)
  | addTranspilationDependencyOp (self : NodeId) (dep : String) (abs : Bool)
  | addDependenciesInDirectoryOp (self : NodeId) (dir : String) (abs : Bool)

/-- Apply one public operation to the graph, discarding the non-graph
outputs. -/
def applyOp (fuel : Nat) (env : Env) (g : Graph) : PublicOp → Graph
  | .transpileOp x => (transpile fuel env g x).g
  | .evaluateOp x parents hmrFlag =>
    (evaluate fuel env { g := g, webpackHMR := hmrFlag } x parents).1.g
  | .resetOp x => reset fuel g x
  | .resetTranspilationOp x => resetTranspilation fuel g x
  | .resetCompilationOp x => resetCompilation fuel g x
  | .updateOp x m => update fuel g x m
  | .emitModuleOp self p c d => (emitModule g self p c d).1
  | .addDependencyOp self dep abs => addDependency env g self dep abs
  | .addTranspilationDependencyOp self dep abs =>
    (addTranspilationDependency env g self dep abs).1
  | .addDependenciesInDirectoryOp self dir abs =>
    addDependenciesInDirectory env g self dir abs

/-- The edge-set fields of a node, as one projection. -/
def edgeProj (m : TMNode) :
    List NodeId × List NodeId × List NodeId × List NodeId × List AsyncDep :=
  (m.dependencies, m.initiators, m.transpilationDependencies,
    m.transpilationInitiators, m.asyncDependencies)

/-- A trivial oracle: resolution always fails, chains are empty, units
are empty programs. -/
def envTriv : Env where
  resolve := fun _ _ => .otherError "unresolved"
  resolveDir := fun _ _ => []
  aliasOf := fun s => s
  sem := fun _ => []
  steps := fun _ => []
  download := fun _ _ => .rejected
  externalVal := fun _ => []

/-- A node that already carries a transpiled source. -/
def nSrc : TMNode :=
  { module := { path := "/s.js", code := "s" }
    source := some ⟨"/s.js", "s", none⟩ }

/-- One-node graph whose node is already transpiled. -/
def gSrc : Graph := [("/s.js:", nSrc)]

/-- Oracle whose transpiler chain for the node throws. -/
def envErr : Env :=
  { envTriv with
    steps := fun x =>
      if x = "/e.js:" then [⟨[], .error "boom", none⟩] else [] }

/-- A fresh untranspiled node. -/
def nErr : TMNode := { module := { path := "/e.js", code := "e" } }

/-- One-node graph holding the fresh node. -/
def gErr : Graph := [("/e.js:", nErr)]

/-- Does a unit's program perform no require calls? -/
def noRequireB (instrs : List Instr) : Bool :=
  instrs.all (fun i =>
    match i with
    | Instr.requireInto _ _ _ => false
    | Instr.requireDiscard _ => false
    | _ => true)

/-- Cyclic two-module oracle: /a.js requires ./b and /b.js requires ./a;
each unit sets one export of its own before requiring the other. -/
def envA : Env where
  resolve := fun s f =>
    if s = "./b" && f = "/a.js" then .found "/b.js:"
    else if s = "./a" && f = "/b.js" then .found "/a.js:"
    else .otherError "unresolved"
  resolveDir := fun _ _ => []
  aliasOf := fun s => s
  sem := fun c =>
    if c = "A\n//# sourceURL=http://localhost/a.js" then
      [.setExport "a" 1, .requireInto "b" "./b" "b"]
    else if c = "B\n//# sourceURL=http://localhost/b.js" then
      [.setExport "b" 2, .requireInto "a" "./a" "a"]
    else []
  steps := fun x =>
    if x = "/a.js:" then [⟨[.addDependencyA "./b" false], .ok "A", none⟩]
    else [⟨[], .ok "B", none⟩]
  download := fun _ _ => .rejected
  externalVal := fun _ => []

/-- The two modules of the cycle, untranspiled, entry marked. -/
def gA : Graph :=
  [("/a.js:", { module := { path := "/a.js", code := "a" }, isEntry := true }),
   ("/b.js:", { module := { path := "/b.js", code := "b" } })]

/-- Evaluation state over the transpiled cyclic graph. -/
def sA : EvalState := { g := (transpile 5 envA gA "/a.js:").g }

/-- A node holding one resolved and one rejected async dependency. -/
def nAsync : TMNode :=
  { module := { path := "/a.js", code := "a" }
    asyncDependencies := [.resolved "/dep.js:", .rejected] }

/-- Two-node graph with one runtime edge and one compile-time edge, the
target transpiled and marked entry (round-trip fixture). -/
def gRT : Graph :=
  [("/a.js:",
    { module := { path := "/a.js", code := "a" }
      transpilationDependencies := ["/b.js:"]
      dependencies := ["/b.js:"] }),
   ("/b.js:",
    { module := { path := "/b.js", code := "b" }
      transpilationInitiators := ["/a.js:"]
      initiators := ["/a.js:"]
      source := some ⟨"/b.js", "bb", none⟩
      isEntry := true })]

/-- Two-node graph with one compile-time edge only (symmetry fixture). -/
def gC1 : Graph :=
  [("/p.js:",
    { module := { path := "/p.js", code := "p" }
      transpilationDependencies := ["/q.js:"] }),
   ("/q.js:",
    { module := { path := "/q.js", code := "q" }
      transpilationInitiators := ["/p.js:"] })]

/-- An untranspiled node whose transpilation initiator is evaluated. -/
def nA2 : TMNode :=
  { module := { path := "/a2.js", code := "a" }
    transpilationInitiators := ["/b2.js:"] }

/-- A transpiled and evaluated node that depends on nA2 at compile
time. -/
def nB2 : TMNode :=
  { module := { path := "/b2.js", code := "b" }
    source := some ⟨"/b2.js", "bb", none⟩
    compilation := some ⟨[("k", 7)]⟩
    transpilationDependencies := ["/a2.js:"] }

/-- Graph pairing nA2 and nB2. -/
def gC2 : Graph := [("/a2.js:", nA2), ("/b2.js:", nB2)]

/-- Oracle whose transpiler chain for nA2 throws. -/
def envC2 : Env :=
  { envTriv with
    steps := fun x =>
      if x = "/a2.js:" then [⟨[], .error "boom", none⟩] else [] }

/-- The node at x carries a source, a compilation record and no changed
mark (the shape the evaluate cache path serves). -/
def PcAt (x : NodeId) (st : EvalState) : Prop :=
  ∃ m, getN st.g x = some m ∧ m.source.isSome = true ∧
    m.compilation.isSome = true ∧ m.changed = false

def n5w : TMNode :=
  { module := { path := "/w.js", code := "w" }
    source := some ⟨"/w.js", "w", none⟩
    compilation := some ⟨[("w", 3)]⟩ }

def s5w : EvalState := { g := [("/w.js:", n5w)] }

def n7 : TMNode :=
  { module := { path := "/m7.js", code := "m" }
    source := some ⟨"/m7.js", "m", none⟩
    isEntry := true }

def s7 : EvalState := { g := [("/m7.js:", n7)], webpackHMR := true }

def n7b : TMNode :=
  { module := { path := "/m7b.js", code := "m" }
    source := some ⟨"/m7b.js", "m", none⟩
    compilation := some ⟨[]⟩ }

def s7b : EvalState := { g := [("/m7b.js:", n7b)], webpackHMR := true }

def n10 : TMNode :=
  { module := { path := "/x10.js", code := "x" }
    source := some ⟨"/x10.js", "X", none⟩ }

def env10 : Env :=
  { envTriv with
    sem := fun c =>
      if c = "X" then [.setExport "a" 1, .throwErr "boom"] else [] }

def s10 : EvalState := { g := [("/x10.js:", n10)] }

/-- The bundle every graph step of transpile maintains: the
well-formedness invariant, no HMR-accepting node, and an oracle whose
resolutions stay inside the graph. -/
def SInv (env : Env) (g : Graph) : Prop :=
  GInv g ∧ allOff g ∧ EnvValid env g

/-- The node transformation TranspiledModule.load applies (load is
modifyN with this modifier). -/
def loadF (data : SerializedTranspiledModule) (state : List NodeId) :
    TMNode → TMNode := fun n =>
  { n with
    query := data.query
    assets := data.assets
    module := data.module
    emittedAssets := data.emittedAssets
    isEntry := data.isEntry
    source := data.source
    dependencies :=
      (data.dependencies.filter (fun d => state.contains d)).foldl lsAdd
        n.dependencies
    childModules :=
      n.childModules ++ data.childModules.filter (fun d => state.contains d)
    initiators :=
      (data.initiators.filter (fun d => state.contains d)).foldl lsAdd
        n.initiators
    transpilationDependencies :=
      (data.transpilationDependencies.filter (fun d => state.contains d)).foldl
        lsAdd n.transpilationDependencies
    asyncDependencies :=
      n.asyncDependencies ++
        (data.asyncDependencies.filter (fun d => state.contains d)).map
          .resolved }

/-! Basic lemmas about the graph primitives. -/

@[simp] theorem getN_nil (x : NodeId) : getN [] x = none := rfl

theorem getN_cons (p : NodeId × TMNode) (t : Graph) (x : NodeId) :
    getN (p :: t) x = if p.1 = x then some p.2 else getN t x := rfl

theorem getN_modifyN (g : Graph) (x y : NodeId) (f : TMNode → TMNode) :
    getN (modifyN g x f) y =
      if y = x then (getN g y).map f else getN g y := by
  induction g with
  | nil => by_cases h : y = x <;> simp [modifyN, h]
  | cons p t ih =>
    by_cases hpx : p.1 = x <;> by_cases hpy : p.1 = y
    · subst hpx; subst hpy
      simp [modifyN, getN_cons]
    · subst hpx
      have hyx : ¬ (y = p.1) := fun h => hpy h.symm
      simp [modifyN, getN_cons, hpy, hyx, ih]
    · subst hpy
      simp [modifyN, getN_cons, hpx]
    · simp [modifyN, getN_cons, hpx, hpy, ih]

theorem getN_modifyN_self (g : Graph) (x : NodeId) (f : TMNode → TMNode) :
    getN (modifyN g x f) x = (getN g x).map f := by
  simp [getN_modifyN]

theorem getN_modifyN_ne (g : Graph) (x y : NodeId) (f : TMNode → TMNode)
    (h : y ≠ x) : getN (modifyN g x f) y = getN g y := by
  simp [getN_modifyN, h]

theorem getN_append_left (g h : Graph) (x : NodeId) (n : TMNode)
    (hx : getN g x = some n) : getN (g ++ h) x = some n := by
  induction g with
  | nil => simp [getN] at hx
  | cons p t ih =>
    by_cases hp : p.1 = x
    · simp [getN_cons, hp] at hx ⊢; exact hx
    · simp [getN_cons, hp] at hx ⊢; exact ih hx

theorem getN_append_right (g h : Graph) (x : NodeId)
    (hx : getN g x = none) : getN (g ++ h) x = getN h x := by
  induction g with
  | nil => simp
  | cons p t ih =>
    by_cases hp : p.1 = x
    · simp [getN_cons, hp] at hx
    · simp [getN_cons, hp] at hx ⊢; exact ih hx

theorem hasN_modifyN (g : Graph) (x y : NodeId) (f : TMNode → TMNode) :
    hasN (modifyN g x f) y = hasN g y := by
  by_cases h : y = x
  · subst h; simp [hasN, getN_modifyN_self]
  · simp [hasN, getN_modifyN_ne _ _ _ _ h]

theorem mem_lsAdd (l : List NodeId) (x y : NodeId) :
    y ∈ lsAdd l x ↔ y ∈ l ∨ y = x := by
  by_cases h : x ∈ l
  · simp only [lsAdd, if_pos h]
    constructor
    · exact Or.inl
    · rintro (hy | rfl)
      · exact hy
      · exact h
  · simp [lsAdd, if_neg h]

theorem mem_lsDel (l : List NodeId) (x y : NodeId) :
    y ∈ lsDel l x ↔ y ∈ l ∧ y ≠ x := by
  simp [lsDel]

theorem lsDel_idem (l : List NodeId) (x : NodeId) :
    lsDel (lsDel l x) x = lsDel l x := by
  simp [lsDel, List.filter_filter]

theorem getN_mem (g : Graph) (a : NodeId) (n : TMNode)
    (h : getN g a = some n) : (a, n) ∈ g := by
  induction g with
  | nil => simp [getN] at h
  | cons p t ih =>
    by_cases hp : p.1 = a
    · rw [getN_cons, if_pos hp] at h
      cases h
      cases p
      cases hp
      exact List.mem_cons_self _ _
    · rw [getN_cons, if_neg hp] at h
      exact List.mem_cons_of_mem _ (ih h)

theorem DepSym_of_B (g : Graph) (h : DepSymB g = true) : DepSym g := by
  intro a b na nb ha hb
  have h1 := List.all_eq_true.mp h _ (getN_mem g a na ha)
  have h2 := List.all_eq_true.mp h1 _ (getN_mem g b nb hb)
  simpa using h2

theorem TranspSym_of_B (g : Graph) (h : TranspSymB g = true) : TranspSym g := by
  intro a b na nb ha hb
  have h1 := List.all_eq_true.mp h _ (getN_mem g a na ha)
  have h2 := List.all_eq_true.mp h1 _ (getN_mem g b nb hb)
  simpa using h2

theorem Closed_of_B (g : Graph) (h : ClosedB g = true) : Closed g := by
  intro a na ha
  have h1 := List.all_eq_true.mp h _ (getN_mem g a na ha)
  simp only [Bool.and_eq_true, List.all_eq_true] at h1
  obtain ⟨⟨⟨⟨hd, hi⟩, htd⟩, hti⟩, hasy⟩ := h1
  refine ⟨fun b hb => hd b hb, fun b hb => hi b hb,
    fun b hb => htd b hb, fun b hb => hti b hb, fun t ht => ?_⟩
  have := hasy _ ht
  simpa using this

theorem allOff_of_B (g : Graph) (h : allOffB g = true) : allOff g := by
  intro a na ha
  have h1 := List.all_eq_true.mp h _ (getN_mem g a na ha)
  simpa using h1

theorem SrcCompInv_of_B (g : Graph) (h : SrcCompInvB g = true) :
    SrcCompInv g := by
  intro a na ha hs
  have h1 := List.all_eq_true.mp h _ (getN_mem g a na ha)
  simp only [decide_eq_true_eq] at h1
  have := h1 (by simp [hs])
  simpa using this

theorem NoComp_of_B (g : Graph) (h : NoCompB g = true) : NoComp g := by
  intro a na ha
  have h1 := List.all_eq_true.mp h _ (getN_mem g a na ha)
  simpa using h1

theorem foldl_pres {α β : Type} (P : β → Prop) (step : β → α → β)
    (h : ∀ b t, P b → P (step b t)) :
    ∀ (l : List α) (b : β), P b → P (l.foldl step b) := by
  intro l
  induction l with
  | nil => intro b hb; simpa
  | cons t rest ih => intro b hb; exact ih _ (h _ _ hb)

/-! The compile-request pipeline (claim C9). -/

theorem setSlotZero_single (l : List Nat) (t : Nat) (h : l.length ≤ 1) :
    setSlotZero l t = [t] := by
  match l with
  | [] => rfl
  | [a] => rfl
  | a :: b :: r => simp at h

theorem pstep_len (s : PipelineState) (e : PEvent)
    (h : s.tasks.length ≤ 1) : (pstep s e).1.tasks.length ≤ 1 := by
  cases e with
  | enqueue t =>
    simp only [pstep, queueTask]
    have hz : (setSlotZero s.tasks t).length ≤ 1 := by
      match hl : s.tasks with
      | [] => simp [setSlotZero]
      | [a] => simp [setSlotZero]
      | a :: b :: r => rw [hl] at h; simp at h
    by_cases hr : s.runningTask
    · simp [hr, hz]
    · simp only [hr, if_false, Bool.false_eq_true, ite_false]
      match hz2 : setSlotZero s.tasks t with
      | [] => simp [executeTaskIfAvailable]
      | a :: r =>
        simp only [executeTaskIfAvailable, popTask]
        have : (a :: r).length ≤ 1 := hz2 ▸ hz
        simp at this
        simp [this]
  | settle =>
    simp only [pstep, finishTask]
    by_cases hr : s.runningTask
    · simp only [hr, if_pos]
      match hl : s.tasks with
      | [] => simp [executeTaskIfAvailable]
      | a :: r =>
        simp only [executeTaskIfAvailable, popTask]
        have : (a :: r).length ≤ 1 := hl ▸ h
        simp at this
        simp [this]
    · simp [hr, h]

/-- C9: the compile-request pipeline holds at most one pending slot: over
every stimulus sequence the tasks array never holds more than one entry; a
request arriving while a compile is running replaces the pending slot and
starts nothing; and a compile run is started only from a non-running state
or by the settling of the previous run, so runs never overlap. -/
theorem c9_queue_single_slot :
    (∀ evs : List PEvent, (runPipeline evs).tasks.length ≤ 1) ∧
    (∀ (s : PipelineState) (t : Nat), s.tasks.length ≤ 1 →
      s.runningTask = true →
      (pstep s (.enqueue t)).1 = ⟨[t], true⟩ ∧
        (pstep s (.enqueue t)).2 = none) ∧
    (∀ (s : PipelineState) (e : PEvent) (t : Nat), (pstep s e).2 = some t →
      s.runningTask = false ∨ e = .settle) := by
  refine ⟨?_, ?_, ?_⟩
  · intro evs
    exact foldl_pres (fun s : PipelineState => s.tasks.length ≤ 1)
      (fun s e => (pstep s e).1) (fun s e hs => pstep_len s e hs) evs
      ⟨[], false⟩ (by simp)
  · intro s t hlen hrun
    cases s with
    | mk tasks running =>
      simp only at hrun
      subst hrun
      constructor
      · simp [pstep, queueTask, setSlotZero_single _ _ hlen]
      · simp [pstep, queueTask]
  · intro s e t h
    cases e with
    | enqueue t2 =>
      by_cases hr : s.runningTask
      · simp [pstep, queueTask, hr] at h
      · left; simpa using hr
    | settle => right; rfl

/-- Witness for C9 at a concrete pipeline state. -/
theorem c9_queue_single_slot_witness :
    ([(5 : Nat)].length ≤ 1) ∧
      ((pstep ⟨[5], true⟩ (.enqueue 7)).1 = ⟨[7], true⟩ ∧
        (pstep ⟨[5], true⟩ (.enqueue 7)).2 = none) :=
  ⟨by decide, c9_queue_single_slot.2.1 ⟨[5], true⟩ 7 (by decide) rfl⟩

/-! Pointwise shape lemmas for the recursive reset walks. -/

theorem getN_map_modifyN {α : Type} (proj : TMNode → α) (g : Graph)
    (x : NodeId) (f : TMNode → TMNode) (hf : ∀ m, proj (f m) = proj m)
    (y : NodeId) :
    (getN (modifyN g x f) y).map proj = (getN g y).map proj := by
  rw [getN_modifyN]
  by_cases h : y = x
  · subst h; cases getN g y <;> simp [hf]
  · simp [h]

theorem SrcCompInv_modifyN_relax (g : Graph) (x : NodeId)
    (f : TMNode → TMNode)
    (hf : ∀ m, (f m).source = m.source ∧
      ((f m).compilation = m.compilation ∨ (f m).compilation = none))
    (h : SrcCompInv g) : SrcCompInv (modifyN g x f) := by
  intro a na ha hs
  rw [getN_modifyN] at ha
  by_cases hax : a = x
  · rw [if_pos hax] at ha
    cases hm : getN g a with
    | none => rw [hm] at ha; simp at ha
    | some m =>
      rw [hm] at ha
      simp only [Option.map_some'] at ha
      cases ha
      rcases hf m with ⟨hfs, hfc⟩
      rw [hfs] at hs
      rcases hfc with hc | hc
      · rw [hc]; exact h a m hm hs
      · exact hc
  · rw [if_neg hax] at ha
    exact h a na ha hs

theorem SrcCompInv_modifyN_at (g : Graph) (x : NodeId) (f : TMNode → TMNode)
    (hx : ∀ m, getN g x = some m → (f m).source = none → (f m).compilation = none)
    (h : SrcCompInv g) : SrcCompInv (modifyN g x f) := by
  intro a na ha hs
  rw [getN_modifyN] at ha
  by_cases hax : a = x
  · rw [if_pos hax] at ha
    subst hax
    cases hm : getN g a with
    | none => rw [hm] at ha; simp at ha
    | some m =>
      rw [hm] at ha
      simp only [Option.map_some'] at ha
      cases ha
      exact hx m hm hs
  · rw [if_neg hax] at ha
    exact h a na ha hs

theorem foldl_hasN (step : Graph → NodeId → Graph)
    (hstep : ∀ h t y, hasN (step h t) y = hasN h y) :
    ∀ (l : List NodeId) (h : Graph) (y : NodeId),
      hasN (l.foldl step h) y = hasN h y := by
  intro l
  induction l with
  | nil => intro h y; rfl
  | cons t rest ih => intro h y; rw [List.foldl_cons, ih, hstep]

theorem foldl_getN_map {α : Type} (proj : TMNode → α)
    (step : Graph → NodeId → Graph)
    (hstep : ∀ h t y, (getN (step h t) y).map proj = (getN h y).map proj) :
    ∀ (l : List NodeId) (h : Graph) (y : NodeId),
      (getN (l.foldl step h) y).map proj = (getN h y).map proj := by
  intro l
  induction l with
  | nil => intro h y; rfl
  | cons t rest ih => intro h y; rw [List.foldl_cons, ih, hstep]

theorem resetTranspilation_hasN (fuel : Nat) :
    ∀ (g : Graph) (x y : NodeId),
      hasN (resetTranspilation fuel g x) y = hasN g y := by
  induction fuel with
  | zero => intro g x y; rfl
  | succ fuel ih =>
    intro g x y
    cases hx : getN g x with
    | none => simp [resetTranspilation, hx]
    | some n =>
      by_cases hmr : n.hmrEnabled = Hmr.off
      · simp only [resetTranspilation, hx, hmr, if_pos]
        rw [hasN_modifyN]
        rw [foldl_hasN _ (fun h t y => hasN_modifyN h t y _)]
        rw [hasN_modifyN]
        rw [foldl_hasN _ (fun h t y => ih h t y)]
      · simp only [resetTranspilation, hx, hmr, if_neg, ite_false]
        rw [hasN_modifyN]
        rw [hasN_modifyN]

theorem resetTranspilation_pointwise {α : Type} (proj : TMNode → α)
    (hclear : ∀ m, proj { m with source := none, errors := [], warnings := [] } =
      proj m)
    (hdel : ∀ (t : NodeId) (m : TMNode),
      proj { m with initiators := lsDel m.initiators t } = proj m)
    (hfin : ∀ m, proj { m with dependencies := [], asyncDependencies := [] } =
      proj m)
    (fuel : Nat) :
    ∀ (g : Graph) (x y : NodeId),
      (getN (resetTranspilation fuel g x) y).map proj = (getN g y).map proj := by
  induction fuel with
  | zero => intro g x y; rfl
  | succ fuel ih =>
    intro g x y
    cases hx : getN g x with
    | none => simp [resetTranspilation, hx]
    | some n =>
      by_cases hmr : n.hmrEnabled = Hmr.off
      · simp only [resetTranspilation, hx, hmr, if_pos]
        rw [getN_map_modifyN proj _ x
          (fun m => { m with dependencies := [], asyncDependencies := [] }) hfin]
        rw [foldl_getN_map proj
          (fun acc t => modifyN acc t
            (fun m => { m with initiators := lsDel m.initiators x }))
          (fun h t y => getN_map_modifyN proj h t
            (fun m => { m with initiators := lsDel m.initiators x })
            (hdel x) y)]
        rw [getN_map_modifyN proj _ x
          (fun m => { m with source := none, errors := [], warnings := [] })
          hclear]
        rw [foldl_getN_map proj
          (fun acc t => resetTranspilation fuel acc t)
          (fun h t y => ih h t y)]
      · simp only [resetTranspilation, hx, hmr, if_neg, ite_false]
        rw [getN_map_modifyN proj _ x
          (fun m => { m with dependencies := [], asyncDependencies := [] }) hfin]
        rw [getN_map_modifyN proj _ x
          (fun m => { m with source := none, errors := [], warnings := [] })
          hclear]

theorem resetTranspilation_comp (fuel : Nat) (g : Graph) (x y : NodeId) :
    (getN (resetTranspilation fuel g x) y).map (fun m => m.compilation) =
      (getN g y).map (fun m => m.compilation) :=
  resetTranspilation_pointwise (fun m => m.compilation)
    (fun _ => rfl) (fun _ _ => rfl) (fun _ => rfl) fuel g x y

theorem resetTranspilation_hmr (fuel : Nat) (g : Graph) (x y : NodeId) :
    (getN (resetTranspilation fuel g x) y).map (fun m => m.hmrEnabled) =
      (getN g y).map (fun m => m.hmrEnabled) :=
  resetTranspilation_pointwise (fun m => m.hmrEnabled)
    (fun _ => rfl) (fun _ _ => rfl) (fun _ => rfl) fuel g x y

theorem resetCompilation_pointwise {α : Type} (proj : TMNode → α)
    (hcn : ∀ m, proj { m with compilation := none } = proj m)
    (hch : ∀ m, proj { m with changed := true } = proj m)
    (fuel : Nat) :
    ∀ (g : Graph) (x y : NodeId),
      (getN (resetCompilation fuel g x) y).map proj = (getN g y).map proj := by
  induction fuel with
  | zero => intro g x y; rfl
  | succ fuel ih =>
    intro g x y
    cases hx : getN g x with
    | none => simp [resetCompilation, hx]
    | some n =>
      by_cases hmr : n.hmrEnabled = Hmr.off <;>
        by_cases hc : n.compilation.isSome
      · simp only [resetCompilation, hx, hmr, hc, if_pos, ite_true]
        rw [foldl_getN_map proj (fun acc t => resetCompilation fuel acc t)
          (fun h t y => ih h t y)]
        rw [foldl_getN_map proj (fun acc t => resetCompilation fuel acc t)
          (fun h t y => ih h t y)]
        rw [getN_map_modifyN proj _ x
          (fun m => { m with compilation := none }) hcn]
      · simp only [resetCompilation, hx, hmr, hc, ite_true, Bool.false_eq_true,
          ite_false]
        rw [foldl_getN_map proj (fun acc t => resetCompilation fuel acc t)
          (fun h t y => ih h t y)]
      · simp only [resetCompilation, hx, hmr, hc, ite_true, ite_false]
        rw [getN_map_modifyN proj _ x
          (fun m => { m with changed := true }) hch]
      · simp only [resetCompilation, hx, hmr, hc, Bool.false_eq_true, ite_false]

theorem resetCompilation_source (fuel : Nat) (g : Graph) (x y : NodeId) :
    (getN (resetCompilation fuel g x) y).map (fun m => m.source) =
      (getN g y).map (fun m => m.source) :=
  resetCompilation_pointwise (fun m => m.source)
    (fun _ => rfl) (fun _ => rfl) fuel g x y

theorem resetCompilation_hmr (fuel : Nat) (g : Graph) (x y : NodeId) :
    (getN (resetCompilation fuel g x) y).map (fun m => m.hmrEnabled) =
      (getN g y).map (fun m => m.hmrEnabled) :=
  resetCompilation_pointwise (fun m => m.hmrEnabled)
    (fun _ => rfl) (fun _ => rfl) fuel g x y

theorem resetCompilation_edges (fuel : Nat) (g : Graph) (x y : NodeId) :
    (getN (resetCompilation fuel g x) y).map edgeProj =
      (getN g y).map edgeProj :=
  resetCompilation_pointwise edgeProj
    (fun _ => rfl) (fun _ => rfl) fuel g x y

theorem modifyN_keys (g : Graph) (x : NodeId) (f : TMNode → TMNode) :
    (modifyN g x f).map Prod.fst = g.map Prod.fst := by
  induction g with
  | nil => rfl
  | cons p t ih =>
    by_cases hp : p.1 = x <;> simp [modifyN, hp, ih]

theorem foldl_keys (step : Graph → NodeId → Graph)
    (hstep : ∀ h t, (step h t).map Prod.fst = h.map Prod.fst) :
    ∀ (l : List NodeId) (h : Graph),
      (l.foldl step h).map Prod.fst = h.map Prod.fst := by
  intro l
  induction l with
  | nil => intro h; rfl
  | cons t rest ih => intro h; rw [List.foldl_cons, ih, hstep]

theorem resetTranspilation_keys (fuel : Nat) :
    ∀ (g : Graph) (x : NodeId),
      (resetTranspilation fuel g x).map Prod.fst = g.map Prod.fst := by
  induction fuel with
  | zero => intro g x; rfl
  | succ fuel ih =>
    intro g x
    cases hx : getN g x with
    | none => simp [resetTranspilation, hx]
    | some n =>
      by_cases hmr : n.hmrEnabled = Hmr.off
      · simp only [resetTranspilation, hx, hmr, if_pos]
        rw [modifyN_keys]
        rw [foldl_keys _ (fun h t => modifyN_keys h t _)]
        rw [modifyN_keys]
        rw [foldl_keys _ (fun h t => ih h t)]
      · simp only [resetTranspilation, hx, hmr, if_neg, ite_false]
        rw [modifyN_keys, modifyN_keys]

theorem resetCompilation_keys (fuel : Nat) :
    ∀ (g : Graph) (x : NodeId),
      (resetCompilation fuel g x).map Prod.fst = g.map Prod.fst := by
  induction fuel with
  | zero => intro g x; rfl
  | succ fuel ih =>
    intro g x
    cases hx : getN g x with
    | none => simp [resetCompilation, hx]
    | some n =>
      by_cases hmr : n.hmrEnabled = Hmr.off <;>
        by_cases hc : n.compilation.isSome
      · simp only [resetCompilation, hx, hmr, hc, if_pos, ite_true]
        rw [foldl_keys _ (fun h t => ih h t)]
        rw [foldl_keys _ (fun h t => ih h t)]
        rw [modifyN_keys]
      · simp only [resetCompilation, hx, hmr, hc, ite_true, Bool.false_eq_true,
          ite_false]
        rw [foldl_keys _ (fun h t => ih h t)]
      · simp only [resetCompilation, hx, hmr, hc, ite_true, ite_false]
        rw [modifyN_keys]
      · simp only [resetCompilation, hx, hmr, hc, Bool.false_eq_true, ite_false]

theorem hasN_eq_contains (g : Graph) (x : NodeId) :
    hasN g x = (g.map Prod.fst).contains x := by
  induction g with
  | nil => rfl
  | cons p t ih =>
    by_cases hp : p.1 = x
    · simp [hasN, getN_cons, hp]
    · simp only [hasN, getN_cons, hp, ite_false, List.map_cons, List.contains_cons]
      rw [← hasN]
      rw [ih]
      have : (x == p.1) = false := by
        simp only [beq_eq_false_iff_ne, ne_eq]
        intro h
        exact hp h.symm
      simp [this]

theorem hasN_eq_of_keys (g g2 : Graph)
    (h : g2.map Prod.fst = g.map Prod.fst) (x : NodeId) :
    hasN g2 x = hasN g x := by
  rw [hasN_eq_contains, hasN_eq_contains, h]

theorem getN_edge_ex (g g2 : Graph)
    (hedge : ∀ y, (getN g2 y).map edgeProj = (getN g y).map edgeProj)
    (a : NodeId) (na2 : TMNode) (ha : getN g2 a = some na2) :
    ∃ na, getN g a = some na ∧
      na.dependencies = na2.dependencies ∧
      na.initiators = na2.initiators ∧
      na.transpilationDependencies = na2.transpilationDependencies ∧
      na.transpilationInitiators = na2.transpilationInitiators ∧
      na.asyncDependencies = na2.asyncDependencies := by
  have he := hedge a
  rw [ha] at he
  cases hg : getN g a with
  | none => rw [hg] at he; simp at he
  | some na =>
    rw [hg] at he
    simp only [Option.map_some', Option.some.injEq, edgeProj,
      Prod.mk.injEq] at he
    exact ⟨na, rfl, he.1.symm, he.2.1.symm, he.2.2.1.symm, he.2.2.2.1.symm,
      he.2.2.2.2.symm⟩

theorem GInv_of_edges_eq (g g2 : Graph)
    (hkeys : g2.map Prod.fst = g.map Prod.fst)
    (hedge : ∀ y, (getN g2 y).map edgeProj = (getN g y).map edgeProj)
    (h : GInv g) : GInv g2 := by
  obtain ⟨hd, ht, hc, hk⟩ := h
  have hdom := hasN_eq_of_keys g g2 hkeys
  refine ⟨?_, ?_, ?_, ?_⟩
  · intro a b na2 nb2 ha hb
    obtain ⟨na, hga, hda, hia, _, _, _⟩ := getN_edge_ex g g2 hedge a na2 ha
    obtain ⟨nb, hgb, hdb, hib, _, _, _⟩ := getN_edge_ex g g2 hedge b nb2 hb
    rw [← hda, ← hib]
    exact hd a b na nb hga hgb
  · intro a b na2 nb2 ha hb
    obtain ⟨na, hga, _, _, htda, htia, _⟩ := getN_edge_ex g g2 hedge a na2 ha
    obtain ⟨nb, hgb, _, _, htdb, htib, _⟩ := getN_edge_ex g g2 hedge b nb2 hb
    rw [← htda, ← htib]
    exact ht a b na nb hga hgb
  · intro a na2 ha
    obtain ⟨na, hga, hda, hia, htda, htia, hasa⟩ :=
      getN_edge_ex g g2 hedge a na2 ha
    obtain ⟨c1, c2, c3, c4, c5⟩ := hc a na hga
    rw [← hda, ← hia, ← htda, ← htia, ← hasa]
    exact ⟨fun b hb => (hdom b).trans (c1 b hb),
      fun b hb => (hdom b).trans (c2 b hb),
      fun b hb => (hdom b).trans (c3 b hb),
      fun b hb => (hdom b).trans (c4 b hb),
      fun t htm => (hdom t).trans (c5 t htm)⟩
  · unfold KeysOk
    rw [hkeys]
    exact hk

theorem allOff_of_hmr_eq (g g2 : Graph)
    (hh : ∀ y, (getN g2 y).map (fun m => m.hmrEnabled) =
      (getN g y).map (fun m => m.hmrEnabled))
    (h : allOff g) : allOff g2 := by
  intro a na2 ha
  have he := hh a
  rw [ha] at he
  cases hg : getN g a with
  | none => rw [hg] at he; simp at he
  | some na =>
    rw [hg] at he
    simp only [Option.map_some', Option.some.injEq] at he
    rw [he]
    exact h a na hg

theorem resetCompilation_srcComp (fuel : Nat) :
    ∀ (g : Graph) (x : NodeId),
      SrcCompInv g → SrcCompInv (resetCompilation fuel g x) := by
  induction fuel with
  | zero => intro g x h; exact h
  | succ fuel ih =>
    intro g x h
    cases hx : getN g x with
    | none => simpa [resetCompilation, hx] using h
    | some n =>
      by_cases hmr : n.hmrEnabled = Hmr.off <;>
        by_cases hc : n.compilation.isSome
      · simp only [resetCompilation, hx, hmr, hc, if_pos, ite_true]
        apply foldl_pres SrcCompInv (fun acc t => resetCompilation fuel acc t)
          (fun b t hb => ih b t hb)
        apply foldl_pres SrcCompInv (fun acc t => resetCompilation fuel acc t)
          (fun b t hb => ih b t hb)
        exact SrcCompInv_modifyN_relax g x _ (fun m => ⟨rfl, Or.inr rfl⟩) h
      · simp only [resetCompilation, hx, hmr, hc, ite_true, Bool.false_eq_true,
          ite_false]
        exact foldl_pres SrcCompInv (fun acc t => resetCompilation fuel acc t)
          (fun b t hb => ih b t hb) _ _ h
      · simp only [resetCompilation, hx, hmr, hc, ite_true, ite_false]
        exact SrcCompInv_modifyN_relax g x _ (fun m => ⟨rfl, Or.inl rfl⟩) h
      · simpa [resetCompilation, hx, hmr, hc] using h

theorem resetTranspilation_self (fuel : Nat) (g : Graph) (x : NodeId)
    (n : TMNode) (hx : getN g x = some n) :
    (getN (resetTranspilation (fuel+1) g x) x).map
      (fun m => (m.source, m.dependencies, m.asyncDependencies)) =
      some (none, [], []) := by
  have hmain : ∀ g2 : Graph, (getN g2 x).map (fun m => m.source) = some none →
      ∀ l : List NodeId,
      (getN (modifyN (l.foldl (fun acc t => modifyN acc t
          (fun m => { m with initiators := lsDel m.initiators x })) g2) x
        (fun m => { m with dependencies := [], asyncDependencies := [] })) x).map
        (fun m => (m.source, m.dependencies, m.asyncDependencies)) =
        some (none, [], []) := by
    intro g2 hsrc l
    have hfold : (getN (l.foldl (fun acc t => modifyN acc t
        (fun m => { m with initiators := lsDel m.initiators x })) g2) x).map
        (fun m => m.source) = some none := by
      rw [foldl_getN_map (fun m => m.source)
        (fun acc t => modifyN acc t
          (fun m => { m with initiators := lsDel m.initiators x }))
        (fun h t y => getN_map_modifyN (fun m => m.source) h t
          (fun m => { m with initiators := lsDel m.initiators x })
          (fun m => rfl) y)]
      exact hsrc
    cases hm : getN (l.foldl (fun acc t => modifyN acc t
        (fun m => { m with initiators := lsDel m.initiators x })) g2) x with
    | none => rw [hm] at hfold; simp at hfold
    | some m3 =>
      rw [hm] at hfold
      simp only [Option.map_some', Option.some.injEq] at hfold
      rw [getN_modifyN_self, hm]
      simp [hfold]
  have hsrc2 : ∀ g1 : Graph, hasN g1 x = true →
      (getN (modifyN g1 x (fun m =>
        { m with source := none, errors := [], warnings := [] })) x).map
        (fun m => m.source) = some none := by
    intro g1 h1
    rw [getN_modifyN_self]
    cases hg1 : getN g1 x with
    | none => rw [hasN, hg1] at h1; simp at h1
    | some m1 => simp
  by_cases hmr : n.hmrEnabled = Hmr.off
  · simp only [resetTranspilation, hx, hmr, if_pos]
    apply hmain
    apply hsrc2
    rw [foldl_hasN _ (fun h t y => resetTranspilation_hasN fuel h t y)]
    rw [hasN, hx]
    rfl
  · simp only [resetTranspilation, hx, hmr, if_neg, ite_false]
    exact hmain _ (hsrc2 g (by rw [hasN, hx]; rfl)) []

/-! Monotonicity lemmas for the pieces of transpile. -/

theorem hasN_append_mono (g h : Graph) (y : NodeId)
    (hy : hasN g y = true) : hasN (g ++ h) y = true := by
  unfold hasN at hy ⊢
  cases hg : getN g y with
  | none => rw [hg] at hy; simp at hy
  | some n => rw [getN_append_left _ _ _ _ hg]; rfl

theorem srcSet_modifyN_keep (g : Graph) (x : NodeId) (f : TMNode → TMNode)
    (hf : ∀ m, (f m).source = m.source) (y : NodeId) :
    srcSet (modifyN g x f) y = srcSet g y := by
  unfold srcSet
  rw [getN_modifyN]
  by_cases hxy : y = x
  · rw [if_pos hxy]; cases getN g y <;> simp [hf]
  · rw [if_neg hxy]

theorem srcSet_append_fresh (g : Graph) (i : NodeId) (fresh : TMNode)
    (hf : fresh.source = none) (y : NodeId) :
    srcSet (g ++ [(i, fresh)]) y = srcSet g y := by
  cases hg : getN g y with
  | none =>
    unfold srcSet
    rw [getN_append_right _ _ _ hg, hg]
    by_cases hiy : i = y
    · simp [getN, hiy, hf]
    · simp [getN, hiy]
  | some n =>
    unfold srcSet
    rw [getN_append_left _ _ _ _ hg, hg]

theorem SrcCompInv_append_fresh (g : Graph) (i : NodeId) (fresh : TMNode)
    (hf : fresh.source = none → fresh.compilation = none)
    (h : SrcCompInv g) : SrcCompInv (g ++ [(i, fresh)]) := by
  intro a na ha
  cases hg : getN g a with
  | none =>
    rw [getN_append_right _ _ _ hg] at ha
    simp only [getN, getN_nil] at ha
    by_cases hia : i = a
    · rw [if_pos hia] at ha
      injection ha with h2
      subst h2
      exact hf
    · rw [if_neg hia] at ha; cases ha
  | some n =>
    rw [getN_append_left _ _ _ _ hg] at ha
    injection ha with h2
    subst h2
    exact h a n hg

theorem addDepEdge_hasN (g : Graph) (a b y : NodeId) :
    hasN (addDepEdge g a b) y = hasN g y := by
  simp only [addDepEdge]
  rw [hasN_modifyN, hasN_modifyN]

theorem addDepEdge_src (g : Graph) (a b y : NodeId) :
    srcSet (addDepEdge g a b) y = srcSet g y := by
  simp only [addDepEdge]
  rw [srcSet_modifyN_keep, srcSet_modifyN_keep] <;> intro m <;> rfl

theorem addDepEdge_srcComp (g : Graph) (a b : NodeId)
    (h : SrcCompInv g) : SrcCompInv (addDepEdge g a b) := by
  simp only [addDepEdge]
  exact SrcCompInv_modifyN_relax _ _ _ (fun m => ⟨rfl, Or.inl rfl⟩)
    (SrcCompInv_modifyN_relax _ _ _ (fun m => ⟨rfl, Or.inl rfl⟩) h)

theorem addTranspEdge_hasN (g : Graph) (a b y : NodeId) :
    hasN (addTranspEdge g a b) y = hasN g y := by
  simp only [addTranspEdge]
  rw [hasN_modifyN, hasN_modifyN]

theorem addTranspEdge_src (g : Graph) (a b y : NodeId) :
    srcSet (addTranspEdge g a b) y = srcSet g y := by
  simp only [addTranspEdge]
  rw [srcSet_modifyN_keep, srcSet_modifyN_keep] <;> intro m <;> rfl

theorem addTranspEdge_srcComp (g : Graph) (a b : NodeId)
    (h : SrcCompInv g) : SrcCompInv (addTranspEdge g a b) := by
  simp only [addTranspEdge]
  exact SrcCompInv_modifyN_relax _ _ _ (fun m => ⟨rfl, Or.inl rfl⟩)
    (SrcCompInv_modifyN_relax _ _ _ (fun m => ⟨rfl, Or.inl rfl⟩) h)

theorem addTranspiledModule_hasN (g : Graph) (m : Module) (q : String)
    (y : NodeId) (hy : hasN g y = true) :
    hasN (addTranspiledModule g m q).1 y = true := by
  simp only [addTranspiledModule]
  cases h : getN g (mkId m.path q) with
  | some n => exact hy
  | none => exact hasN_append_mono _ _ _ hy

theorem addTranspiledModule_src (g : Graph) (m : Module) (q : String)
    (y : NodeId) :
    srcSet (addTranspiledModule g m q).1 y = srcSet g y := by
  simp only [addTranspiledModule]
  cases h : getN g (mkId m.path q) with
  | some n => rfl
  | none => exact srcSet_append_fresh _ _ _ rfl y

theorem addTranspiledModule_srcComp (g : Graph) (m : Module) (q : String)
    (h : SrcCompInv g) : SrcCompInv (addTranspiledModule g m q).1 := by
  simp only [addTranspiledModule]
  cases hq : getN g (mkId m.path q) with
  | some n => exact h
  | none => exact SrcCompInv_append_fresh _ _ _ (fun _ => rfl) h

theorem emitModule_hasN (g : Graph) (self : NodeId) (p c : String)
    (d : Option String) (y : NodeId) (hy : hasN g y = true) :
    hasN (emitModule g self p c d).1 y = true := by
  cases hs : getN g self with
  | none => simp only [emitModule, hs]; exact hy
  | some n =>
    simp only [emitModule, hs]
    rw [addDepEdge_hasN, hasN_modifyN]
    exact addTranspiledModule_hasN _ _ _ _ hy

theorem emitModule_src (g : Graph) (self : NodeId) (p c : String)
    (d : Option String) (y : NodeId) :
    srcSet (emitModule g self p c d).1 y = srcSet g y := by
  cases hs : getN g self with
  | none => simp only [emitModule, hs]
  | some n =>
    simp only [emitModule, hs]
    rw [addDepEdge_src]
    rw [srcSet_modifyN_keep]
    · exact addTranspiledModule_src _ _ _ _
    · intro m; rfl

theorem emitModule_srcComp (g : Graph) (self : NodeId) (p c : String)
    (d : Option String) (h : SrcCompInv g) :
    SrcCompInv (emitModule g self p c d).1 := by
  cases hs : getN g self with
  | none => simp only [emitModule, hs]; exact h
  | some n =>
    simp only [emitModule, hs]
    exact addDepEdge_srcComp _ _ _
      (SrcCompInv_modifyN_relax _ _ _ (fun m => ⟨rfl, Or.inl rfl⟩)
        (addTranspiledModule_srcComp _ _ _ h))

theorem addDependency_hasN (env : Env) (g : Graph) (self : NodeId)
    (dp : String) (abs : Bool) (y : NodeId) :
    hasN (addDependency env g self dp abs) y = hasN g y := by
  by_cases hb : (dp.startsWith "babel-runtime" ||
    dp.startsWith "codesandbox-api") = true
  · simp [addDependency, hb]
  · cases hs : getN g self with
    | none => simp [addDependency, hb, hs]
    | some n =>
      cases hr : env.resolve dp (if abs then "/" else n.module.path) with
      | found t =>
        simp only [addDependency, hb, hs, hr, Bool.false_eq_true, ite_false]
        exact addDepEdge_hasN _ _ _ _
      | notFoundDependency pk =>
        simp only [addDependency, hb, hs, hr, Bool.false_eq_true, ite_false]
        exact hasN_modifyN _ _ _ _
      | otherError m => simp [addDependency, hb, hs, hr]

theorem addDependency_src (env : Env) (g : Graph) (self : NodeId)
    (dp : String) (abs : Bool) (y : NodeId) :
    srcSet (addDependency env g self dp abs) y = srcSet g y := by
  by_cases hb : (dp.startsWith "babel-runtime" ||
    dp.startsWith "codesandbox-api") = true
  · simp [addDependency, hb]
  · cases hs : getN g self with
    | none => simp [addDependency, hb, hs]
    | some n =>
      cases hr : env.resolve dp (if abs then "/" else n.module.path) with
      | found t =>
        simp only [addDependency, hb, hs, hr, Bool.false_eq_true, ite_false]
        exact addDepEdge_src _ _ _ _
      | notFoundDependency pk =>
        simp only [addDependency, hb, hs, hr, Bool.false_eq_true, ite_false]
        rw [srcSet_modifyN_keep]
        intro m; rfl
      | otherError m => simp [addDependency, hb, hs, hr]

theorem addDependency_srcComp (env : Env) (g : Graph) (self : NodeId)
    (dp : String) (abs : Bool) (h : SrcCompInv g) :
    SrcCompInv (addDependency env g self dp abs) := by
  by_cases hb : (dp.startsWith "babel-runtime" ||
    dp.startsWith "codesandbox-api") = true
  · simpa [addDependency, hb] using h
  · cases hs : getN g self with
    | none => simpa [addDependency, hb, hs] using h
    | some n =>
      cases hr : env.resolve dp (if abs then "/" else n.module.path) with
      | found t =>
        simp only [addDependency, hb, hs, hr, Bool.false_eq_true, ite_false]
        exact addDepEdge_srcComp _ _ _ h
      | notFoundDependency pk =>
        simp only [addDependency, hb, hs, hr, Bool.false_eq_true, ite_false]
        exact SrcCompInv_modifyN_relax _ _ _ (fun m => ⟨rfl, Or.inl rfl⟩) h
      | otherError m => simpa [addDependency, hb, hs, hr] using h

theorem addDependenciesInDirectory_hasN (env : Env) (g : Graph)
    (self : NodeId) (dir : String) (abs : Bool) (y : NodeId) :
    hasN (addDependenciesInDirectory env g self dir abs) y = hasN g y := by
  cases hs : getN g self with
  | none => simp [addDependenciesInDirectory, hs]
  | some n =>
    simp only [addDependenciesInDirectory, hs]
    exact foldl_hasN _ (fun h t y => addDepEdge_hasN h self t y) _ _ _

theorem addDependenciesInDirectory_src (env : Env) (g : Graph)
    (self : NodeId) (dir : String) (abs : Bool) (y : NodeId) :
    srcSet (addDependenciesInDirectory env g self dir abs) y = srcSet g y := by
  cases hs : getN g self with
  | none => simp [addDependenciesInDirectory, hs]
  | some n =>
    simp only [addDependenciesInDirectory, hs]
    have : ∀ (l : List NodeId) (h : Graph),
        srcSet (l.foldl (fun acc t => addDepEdge acc self t) h) y =
          srcSet h y := by
      intro l
      induction l with
      | nil => intro h; rfl
      | cons t rest ih => intro h; rw [List.foldl_cons, ih, addDepEdge_src]
    exact this _ _

theorem addDependenciesInDirectory_srcComp (env : Env) (g : Graph)
    (self : NodeId) (dir : String) (abs : Bool) (h : SrcCompInv g) :
    SrcCompInv (addDependenciesInDirectory env g self dir abs) := by
  cases hs : getN g self with
  | none => simpa [addDependenciesInDirectory, hs] using h
  | some n =>
    simp only [addDependenciesInDirectory, hs]
    exact foldl_pres SrcCompInv (fun acc t => addDepEdge acc self t)
      (fun b t hb => addDepEdge_srcComp _ _ _ hb) _ _ h

theorem addTranspilationDependency_hasN (env : Env) (g : Graph)
    (self : NodeId) (dp : String) (abs : Bool) (y : NodeId) :
    hasN (addTranspilationDependency env g self dp abs).1 y = hasN g y := by
  cases hs : getN g self with
  | none => simp [addTranspilationDependency, hs]
  | some n =>
    cases hr : env.resolve dp (if abs then "/" else n.module.path) with
    | found t =>
      simp only [addTranspilationDependency, hs, hr]
      exact addTranspEdge_hasN _ _ _ _
    | notFoundDependency pk => simp [addTranspilationDependency, hs, hr]
    | otherError m => simp [addTranspilationDependency, hs, hr]

theorem addTranspilationDependency_src (env : Env) (g : Graph)
    (self : NodeId) (dp : String) (abs : Bool) (y : NodeId) :
    srcSet (addTranspilationDependency env g self dp abs).1 y = srcSet g y := by
  cases hs : getN g self with
  | none => simp [addTranspilationDependency, hs]
  | some n =>
    cases hr : env.resolve dp (if abs then "/" else n.module.path) with
    | found t =>
      simp only [addTranspilationDependency, hs, hr]
      exact addTranspEdge_src _ _ _ _
    | notFoundDependency pk => simp [addTranspilationDependency, hs, hr]
    | otherError m => simp [addTranspilationDependency, hs, hr]

theorem addTranspilationDependency_srcComp (env : Env) (g : Graph)
    (self : NodeId) (dp : String) (abs : Bool) (h : SrcCompInv g) :
    SrcCompInv (addTranspilationDependency env g self dp abs).1 := by
  cases hs : getN g self with
  | none => simpa [addTranspilationDependency, hs] using h
  | some n =>
    cases hr : env.resolve dp (if abs then "/" else n.module.path) with
    | found t =>
      simp only [addTranspilationDependency, hs, hr]
      exact addTranspEdge_srcComp _ _ _ h
    | notFoundDependency pk =>
      simpa [addTranspilationDependency, hs, hr] using h
    | otherError m => simpa [addTranspilationDependency, hs, hr] using h

theorem emitFile_hasN (g : Graph) (self : NodeId) (nm c : String)
    (sm : Option String) (y : NodeId) :
    hasN (emitFile g self nm c sm) y = hasN g y := hasN_modifyN _ _ _ _

theorem emitFile_src (g : Graph) (self : NodeId) (nm c : String)
    (sm : Option String) (y : NodeId) :
    srcSet (emitFile g self nm c sm) y = srcSet g y := by
  simp only [emitFile]
  rw [srcSet_modifyN_keep]
  intro m; rfl

theorem emitFile_srcComp (g : Graph) (self : NodeId) (nm c : String)
    (sm : Option String) (h : SrcCompInv g) :
    SrcCompInv (emitFile g self nm c sm) := by
  simp only [emitFile]
  exact SrcCompInv_modifyN_relax _ _ _ (fun m => ⟨rfl, Or.inl rfl⟩) h

theorem applyCtxAction_hasN (env : Env) (g : Graph) (self : NodeId)
    (a : CtxAction) (y : NodeId) (hy : hasN g y = true) :
    hasN (applyCtxAction env g self a).1 y = true := by
  cases a with
  | emitModuleA p c d => exact emitModule_hasN _ _ _ _ _ _ hy
  | emitFileA nm c sm => rw [applyCtxAction, emitFile_hasN]; exact hy
  | addDependencyA p abs => rw [applyCtxAction, addDependency_hasN]; exact hy
  | addTranspilationDependencyA p abs =>
    rw [applyCtxAction, addTranspilationDependency_hasN]; exact hy
  | addDependenciesInDirectoryA d abs =>
    rw [applyCtxAction, addDependenciesInDirectory_hasN]; exact hy
  | emitWarningA w => rw [applyCtxAction, hasN_modifyN]; exact hy
  | emitErrorA e => rw [applyCtxAction, hasN_modifyN]; exact hy

theorem applyCtxAction_src (env : Env) (g : Graph) (self : NodeId)
    (a : CtxAction) (y : NodeId) :
    srcSet (applyCtxAction env g self a).1 y = srcSet g y := by
  cases a with
  | emitModuleA p c d => exact emitModule_src _ _ _ _ _ _
  | emitFileA nm c sm => rw [applyCtxAction, emitFile_src]
  | addDependencyA p abs => rw [applyCtxAction, addDependency_src]
  | addTranspilationDependencyA p abs =>
    rw [applyCtxAction, addTranspilationDependency_src]
  | addDependenciesInDirectoryA d abs =>
    rw [applyCtxAction, addDependenciesInDirectory_src]
  | emitWarningA w =>
    rw [applyCtxAction, srcSet_modifyN_keep] ; intro m; rfl
  | emitErrorA e =>
    rw [applyCtxAction, srcSet_modifyN_keep] ; intro m; rfl

theorem applyCtxAction_srcComp (env : Env) (g : Graph) (self : NodeId)
    (a : CtxAction) (h : SrcCompInv g) :
    SrcCompInv (applyCtxAction env g self a).1 := by
  cases a with
  | emitModuleA p c d => exact emitModule_srcComp _ _ _ _ _ h
  | emitFileA nm c sm => exact emitFile_srcComp _ _ _ _ _ h
  | addDependencyA p abs =>
    simp only [applyCtxAction]
    exact addDependency_srcComp env g self p abs h
  | addTranspilationDependencyA p abs =>
    exact addTranspilationDependency_srcComp _ _ _ _ _ h
  | addDependenciesInDirectoryA d abs =>
    exact addDependenciesInDirectory_srcComp _ _ _ _ _ h
  | emitWarningA w =>
    exact SrcCompInv_modifyN_relax _ _ _ (fun m => ⟨rfl, Or.inl rfl⟩) h
  | emitErrorA e =>
    exact SrcCompInv_modifyN_relax _ _ _ (fun m => ⟨rfl, Or.inl rfl⟩) h

theorem applyCtxActions_hasN (env : Env) (self : NodeId) :
    ∀ (acts : List CtxAction) (g : Graph) (y : NodeId),
      hasN g y = true → hasN (applyCtxActions env self g acts).1 y = true := by
  intro acts
  induction acts with
  | nil => intro g y hy; exact hy
  | cons a rest ih =>
    intro g y hy
    rw [applyCtxActions]
    cases ha : applyCtxAction env g self a with
    | mk g1 e =>
      have h1 : hasN g1 y = true := by
        have := applyCtxAction_hasN env g self a y hy
        rw [ha] at this
        exact this
      cases e with
      | some err => exact h1
      | none => exact ih g1 y h1

theorem applyCtxActions_src (env : Env) (self : NodeId) :
    ∀ (acts : List CtxAction) (g : Graph) (y : NodeId),
      srcSet (applyCtxActions env self g acts).1 y = srcSet g y := by
  intro acts
  induction acts with
  | nil => intro g y; rfl
  | cons a rest ih =>
    intro g y
    rw [applyCtxActions]
    cases ha : applyCtxAction env g self a with
    | mk g1 e =>
      have h1 : srcSet g1 y = srcSet g y := by
        have := applyCtxAction_src env g self a y
        rw [ha] at this
        exact this
      cases e with
      | some err => exact h1
      | none => rw [ih g1 y]; exact h1

theorem applyCtxActions_srcComp (env : Env) (self : NodeId) :
    ∀ (acts : List CtxAction) (g : Graph),
      SrcCompInv g → SrcCompInv (applyCtxActions env self g acts).1 := by
  intro acts
  induction acts with
  | nil => intro g h; exact h
  | cons a rest ih =>
    intro g h
    rw [applyCtxActions]
    cases ha : applyCtxAction env g self a with
    | mk g1 e =>
      have h1 : SrcCompInv g1 := by
        have := applyCtxAction_srcComp env g self a h
        rw [ha] at this
        exact this
      cases e with
      | some err => exact h1
      | none => exact ih g1 h1

theorem runChain_hasN (env : Env) (self : NodeId) :
    ∀ (steps : List TStep) (g : Graph) (code : String) (sm : Option String)
      (y : NodeId), hasN g y = true →
      hasN (runChain env self g code sm steps).1 y = true := by
  intro steps
  induction steps with
  | nil => intro g code sm y hy; exact hy
  | cons st rest ih =>
    intro g code sm y hy
    rw [runChain]
    cases ha : applyCtxActions env self g st.actions with
    | mk g1 e =>
      have h1 : hasN g1 y = true := by
        have := applyCtxActions_hasN env self st.actions g y hy
        rw [ha] at this
        exact this
      cases e with
      | some err => exact h1
      | none =>
        dsimp only
        cases st.result with
        | error m => exact h1
        | ok tc =>
          dsimp only
          cases ((getN g1 self).map (fun n => n.errors)).getD [] with
          | cons e0 r0 => exact h1
          | nil => exact ih g1 tc st.sourceMap y h1

theorem runChain_src (env : Env) (self : NodeId) :
    ∀ (steps : List TStep) (g : Graph) (code : String) (sm : Option String)
      (y : NodeId),
      srcSet (runChain env self g code sm steps).1 y = srcSet g y := by
  intro steps
  induction steps with
  | nil => intro g code sm y; rfl
  | cons st rest ih =>
    intro g code sm y
    rw [runChain]
    cases ha : applyCtxActions env self g st.actions with
    | mk g1 e =>
      have h1 : srcSet g1 y = srcSet g y := by
        have := applyCtxActions_src env self st.actions g y
        rw [ha] at this
        exact this
      cases e with
      | some err => exact h1
      | none =>
        dsimp only
        cases st.result with
        | error m => exact h1
        | ok tc =>
          dsimp only
          cases ((getN g1 self).map (fun n => n.errors)).getD [] with
          | cons e0 r0 => exact h1
          | nil =>
            dsimp only
            rw [ih g1 tc st.sourceMap y]
            exact h1

theorem foldl_addDependency_hasN (env : Env) (x : NodeId) :
    ∀ (l : List String) (g : Graph) (y : NodeId),
      hasN (l.foldl (fun acc r => addDependency env acc x r false) g) y =
        hasN g y := by
  intro l
  induction l with
  | nil => intro g y; rfl
  | cons r rest ih =>
    intro g y
    rw [List.foldl_cons, ih, addDependency_hasN]

theorem foldl_addDependency_src (env : Env) (x : NodeId) :
    ∀ (l : List String) (g : Graph) (y : NodeId),
      srcSet (l.foldl (fun acc r => addDependency env acc x r false) g) y =
        srcSet g y := by
  intro l
  induction l with
  | nil => intro g y; rfl
  | cons r rest ih =>
    intro g y
    rw [List.foldl_cons, ih, addDependency_src]

theorem foldl_addDependency_srcComp (env : Env) (x : NodeId)
    (l : List String) (g : Graph) (h : SrcCompInv g) :
    SrcCompInv (l.foldl (fun acc r => addDependency env acc x r false) g) :=
  foldl_pres SrcCompInv (fun acc r => addDependency env acc x r false)
    (fun b t hb => addDependency_srcComp env b x t false hb) l g h

theorem clearDeps_hasN (g : Graph) (x y : NodeId) (l : List NodeId) :
    hasN (modifyN (l.foldl (fun acc t => modifyN acc t (fun m =>
        { m with initiators := lsDel m.initiators x })) g) x (fun m =>
        { m with dependencies := [], errors := [], warnings := [] })) y =
      hasN g y := by
  rw [hasN_modifyN, foldl_hasN _ (fun h t y => hasN_modifyN h t y _)]

theorem clearDeps_src (g : Graph) (x y : NodeId) (l : List NodeId) :
    srcSet (modifyN (l.foldl (fun acc t => modifyN acc t (fun m =>
        { m with initiators := lsDel m.initiators x })) g) x (fun m =>
        { m with dependencies := [], errors := [], warnings := [] })) y =
      srcSet g y := by
  rw [srcSet_modifyN_keep]
  · have : ∀ (l2 : List NodeId) (h : Graph),
        srcSet (l2.foldl (fun acc t => modifyN acc t (fun m =>
          { m with initiators := lsDel m.initiators x })) h) y = srcSet h y := by
      intro l2
      induction l2 with
      | nil => intro h; rfl
      | cons t rest ih =>
        intro h
        rw [List.foldl_cons, ih, srcSet_modifyN_keep]
        intro m; rfl
    exact this l g
  · intro m; rfl

theorem clearDeps_srcComp (g : Graph) (x : NodeId) (l : List NodeId)
    (h : SrcCompInv g) :
    SrcCompInv (modifyN (l.foldl (fun acc t => modifyN acc t (fun m =>
        { m with initiators := lsDel m.initiators x })) g) x (fun m =>
        { m with dependencies := [], errors := [], warnings := [] })) := by
  apply SrcCompInv_modifyN_relax
  · intro m; exact ⟨rfl, Or.inl rfl⟩
  · apply foldl_pres SrcCompInv
    · intro b t hb
      apply SrcCompInv_modifyN_relax
      · intro m; exact ⟨rfl, Or.inl rfl⟩
      · exact hb
    · exact h

theorem fanout_err_isSome (rec : Graph → NodeId → TranspileRes) :
    ∀ (l : List NodeId) (acc : TranspileRes), acc.err.isSome = true →
      ((l.foldl (fun acc t =>
        let r := rec acc.g t
        (⟨r.g, acc.err <|> r.err, acc.work + r.work⟩ : TranspileRes)) acc).err).isSome
        = true := by
  intro l
  induction l with
  | nil => intro acc h; exact h
  | cons t rest ih =>
    intro acc h
    rw [List.foldl_cons]
    apply ih
    cases hacc : acc.err with
    | some e => simp [hacc]
    | none => rw [hacc] at h; simp at h

theorem fanout_err_none (rec : Graph → NodeId → TranspileRes)
    (l : List NodeId) (acc : TranspileRes)
    (h : ((l.foldl (fun acc t =>
      let r := rec acc.g t
      (⟨r.g, acc.err <|> r.err, acc.work + r.work⟩ : TranspileRes)) acc).err) = none) :
    acc.err = none := by
  cases hacc : acc.err with
  | none => rfl
  | some e =>
    have h2 := fanout_err_isSome rec l acc (by rw [hacc]; rfl)
    rw [h] at h2
    simp at h2

theorem fanout_pres_ok (rec : Graph → NodeId → TranspileRes)
    (P : Graph → Prop)
    (hrec : ∀ g t, (rec g t).err = none → P g → P (rec g t).g) :
    ∀ (l : List NodeId) (acc : TranspileRes),
      ((l.foldl (fun acc t =>
        let r := rec acc.g t
        (⟨r.g, acc.err <|> r.err, acc.work + r.work⟩ : TranspileRes)) acc).err) = none →
      P acc.g →
      P ((l.foldl (fun acc t =>
        let r := rec acc.g t
        (⟨r.g, acc.err <|> r.err, acc.work + r.work⟩ : TranspileRes)) acc).g) := by
  intro l
  induction l with
  | nil => intro acc h hp; exact hp
  | cons t rest ih =>
    intro acc h hp
    rw [List.foldl_cons] at h ⊢
    have hacc2 : (acc.err <|> (rec acc.g t).err) = none :=
      fanout_err_none rec rest _ h
    have hr : (rec acc.g t).err = none := by
      cases hae : acc.err with
      | some e => rw [hae] at hacc2; simp at hacc2
      | none => rw [hae] at hacc2; simpa using hacc2
    exact ih _ h (hrec acc.g t hr hp)

theorem fanout_pres (rec : Graph → NodeId → TranspileRes)
    (P : Graph → Prop)
    (hrec : ∀ g t, P g → P (rec g t).g) :
    ∀ (l : List NodeId) (acc : TranspileRes), P acc.g →
      P ((l.foldl (fun acc t =>
        let r := rec acc.g t
        (⟨r.g, acc.err <|> r.err, acc.work + r.work⟩ : TranspileRes)) acc).g) := by
  intro l
  induction l with
  | nil => intro acc hp; exact hp
  | cons t rest ih =>
    intro acc hp
    rw [List.foldl_cons]
    exact ih _ (hrec acc.g t hp)

theorem asyncFold_pres (x : NodeId) (P : Graph → Prop)
    (hadd : ∀ g t, P g → P (addDepEdge g x t)) :
    ∀ (l : List AsyncDep) (g : Graph), P g →
      P (l.foldl (fun acc d =>
        match d with
        | AsyncDep.resolved t => addDepEdge acc x t
        | AsyncDep.rejected => acc) g) := by
  intro l
  induction l with
  | nil => intro g hp; exact hp
  | cons d rest ih =>
    intro g hp
    rw [List.foldl_cons]
    apply ih
    cases d with
    | resolved t => exact hadd g t hp
    | rejected => exact hp

theorem transpileAsyncStage_hasN (gf : Graph) (x : NodeId)
    (path code : String) (sm : Option String) (y : NodeId)
    (hy : hasN gf y = true) :
    hasN (transpileAsyncStage gf x path code sm) y = true := by
  simp only [transpileAsyncStage]
  rw [hasN_modifyN]
  apply asyncFold_pres x (fun g => hasN g y = true)
    (fun g t hp => by rw [addDepEdge_hasN]; exact hp)
  rw [hasN_modifyN]
  exact hy

theorem srcSet_modifyN_setSome (g : Graph) (x : NodeId) (f : TMNode → TMNode)
    (hf : ∀ m, ((f m).source).isSome = true) (y : NodeId)
    (hy : srcSet g y = true) : srcSet (modifyN g x f) y = true := by
  unfold srcSet at hy ⊢
  rw [getN_modifyN]
  by_cases hxy : y = x
  · rw [if_pos hxy]
    cases hg : getN g y with
    | none => rw [hg] at hy; simp at hy
    | some m => simp [hf]
  · rw [if_neg hxy]; exact hy

theorem srcSet_modifyN_self_set (g : Graph) (x : NodeId) (f : TMNode → TMNode)
    (hf : ∀ m, ((f m).source).isSome = true)
    (hx : hasN g x = true) : srcSet (modifyN g x f) x = true := by
  unfold srcSet
  rw [getN_modifyN_self]
  cases hg : getN g x with
  | none => rw [hasN, hg] at hx; simp at hx
  | some m => simp [hf]

theorem transpileAsyncStage_src_mono (gf : Graph) (x : NodeId)
    (path code : String) (sm : Option String) (y : NodeId)
    (hy : srcSet gf y = true) :
    srcSet (transpileAsyncStage gf x path code sm) y = true := by
  simp only [transpileAsyncStage]
  rw [srcSet_modifyN_keep]
  · apply asyncFold_pres x (fun g => srcSet g y = true)
      (fun g t hp => by rw [addDepEdge_src]; exact hp)
    apply srcSet_modifyN_setSome
    · intro m; rfl
    · exact hy
  · intro m; rfl

theorem transpileAsyncStage_src_self (gf : Graph) (x : NodeId)
    (path code : String) (sm : Option String)
    (hx : hasN gf x = true) :
    srcSet (transpileAsyncStage gf x path code sm) x = true := by
  simp only [transpileAsyncStage]
  rw [srcSet_modifyN_keep]
  · apply asyncFold_pres x (fun g => srcSet g x = true)
      (fun g t hp => by rw [addDepEdge_src]; exact hp)
    apply srcSet_modifyN_self_set
    · intro m; rfl
    · exact hx
  · intro m; rfl

theorem transpileAsyncStage_srcComp (gf : Graph) (x : NodeId)
    (path code : String) (sm : Option String)
    (h : SrcCompInv gf) :
    SrcCompInv (transpileAsyncStage gf x path code sm) := by
  simp only [transpileAsyncStage]
  apply SrcCompInv_modifyN_relax
  · intro m; exact ⟨rfl, Or.inl rfl⟩
  · apply asyncFold_pres x SrcCompInv
      (fun g t hp => addDepEdge_srcComp _ _ _ hp)
    apply SrcCompInv_modifyN_at
    · intro m hm hs; simp at hs
    · exact h

theorem transpileFinish_hasN (rec : Graph → NodeId → TranspileRes)
    (hrec : ∀ g t y, hasN g y = true → hasN (rec g t).g y = true)
    (gf : Graph) (x : NodeId) (path code : String) (sm : Option String)
    (w : Nat) (y : NodeId) (hy : hasN gf y = true) :
    hasN (transpileFinish rec gf x path code sm w).g y = true := by
  simp only [transpileFinish]
  apply fanout_pres rec (fun g => hasN g y = true)
    (fun g t hp => hrec g t y hp)
  exact transpileAsyncStage_hasN gf x path code sm y hy

theorem transpileFinish_src_mono (rec : Graph → NodeId → TranspileRes)
    (hrec : ∀ g t y, (rec g t).err = none → srcSet g y = true →
      srcSet (rec g t).g y = true)
    (gf : Graph) (x : NodeId) (path code : String) (sm : Option String)
    (w : Nat)
    (hok : (transpileFinish rec gf x path code sm w).err = none)
    (y : NodeId) (hy : srcSet gf y = true) :
    srcSet (transpileFinish rec gf x path code sm w).g y = true := by
  simp only [transpileFinish] at hok ⊢
  apply fanout_pres_ok rec (fun g => srcSet g y = true)
    (fun g t hr hp => hrec g t y hr hp) _ _ hok
  exact transpileAsyncStage_src_mono gf x path code sm y hy

theorem transpileFinish_src_self (rec : Graph → NodeId → TranspileRes)
    (hrec : ∀ g t y, (rec g t).err = none → srcSet g y = true →
      srcSet (rec g t).g y = true)
    (gf : Graph) (x : NodeId) (path code : String) (sm : Option String)
    (w : Nat)
    (hok : (transpileFinish rec gf x path code sm w).err = none)
    (hx : hasN gf x = true) :
    srcSet (transpileFinish rec gf x path code sm w).g x = true := by
  simp only [transpileFinish] at hok ⊢
  apply fanout_pres_ok rec (fun g => srcSet g x = true)
    (fun g t hr hp => hrec g t x hr hp) _ _ hok
  exact transpileAsyncStage_src_self gf x path code sm hx

theorem transpileFinish_srcComp (rec : Graph → NodeId → TranspileRes)
    (hrec : ∀ g t, (rec g t).err = none → SrcCompInv g →
      SrcCompInv (rec g t).g)
    (gf : Graph) (x : NodeId) (path code : String) (sm : Option String)
    (w : Nat)
    (hok : (transpileFinish rec gf x path code sm w).err = none)
    (h : SrcCompInv gf) :
    SrcCompInv (transpileFinish rec gf x path code sm w).g := by
  simp only [transpileFinish] at hok ⊢
  apply fanout_pres_ok rec SrcCompInv hrec _ _ hok
  exact transpileAsyncStage_srcComp gf x path code sm h

theorem runChain_srcComp (env : Env) (self : NodeId) :
    ∀ (steps : List TStep) (g : Graph) (code : String) (sm : Option String),
      SrcCompInv g → SrcCompInv (runChain env self g code sm steps).1 := by
  intro steps
  induction steps with
  | nil => intro g code sm h; exact h
  | cons st rest ih =>
    intro g code sm h
    rw [runChain]
    cases ha : applyCtxActions env self g st.actions with
    | mk g1 e =>
      have h1 : SrcCompInv g1 := by
        have := applyCtxActions_srcComp env self st.actions g h
        rw [ha] at this
        exact this
      cases e with
      | some err => exact h1
      | none =>
        dsimp only
        cases st.result with
        | error m => exact h1
        | ok tc =>
          dsimp only
          cases ((getN g1 self).map (fun n => n.errors)).getD [] with
          | cons e0 r0 => exact h1
          | nil => exact ih g1 tc st.sourceMap h1

theorem transpile_hasN_mono (fuel : Nat) :
    ∀ (env : Env) (g : Graph) (x y : NodeId), hasN g y = true →
      hasN (transpile fuel env g x).g y = true := by
  induction fuel with
  | zero => intro env g x y hy; exact hy
  | succ fuel ih =>
    intro env g x y hy
    cases hx : getN g x with
    | none => simp only [transpile, hx]; exact hy
    | some n =>
      by_cases hs : n.source.isSome = true
      · simp only [transpile, hx, hs, ite_true]; exact hy
      · cases hrq : n.module.requires with
        | some reqs =>
          simp only [transpile, hx, hs, hrq, Bool.false_eq_true, ite_false]
          apply transpileFinish_hasN _ (fun g t y h2 => ih env g t y h2)
          rw [foldl_addDependency_hasN, clearDeps_hasN]
          exact hy
        | none =>
          cases hrc : runChain env x (modifyN (n.dependencies.foldl
              (fun acc t => modifyN acc t (fun m =>
                { m with initiators := lsDel m.initiators x })) g) x
              (fun m =>
                { m with dependencies := [], errors := [], warnings := [] }))
              n.module.code none (env.steps x) with
          | mk g3 p2 =>
            have hg3 : hasN g3 y = true := by
              have h2 := runChain_hasN env x (env.steps x) (modifyN (n.dependencies.foldl
                (fun acc t => modifyN acc t (fun m =>
                  { m with initiators := lsDel m.initiators x })) g) x
                (fun m =>
                  { m with dependencies := [], errors := [], warnings := [] })) n.module.code
                none y (by rw [clearDeps_hasN]; exact hy)
              rw [hrc] at h2
              exact h2
            cases p2 with
            | mk w2 res =>
              cases res with
              | error e =>
                simp only [transpile, hx, hs, hrq, hrc, Bool.false_eq_true,
                  ite_false]
                rw [resetTranspilation_hasN]
                exact hg3
              | ok pcs =>
                cases pcs with
                | mk code sm =>
                  simp only [transpile, hx, hs, hrq, hrc, Bool.false_eq_true,
                    ite_false]
                  apply transpileFinish_hasN _ (fun g t y h2 => ih env g t y h2)
                  exact hg3

theorem transpile_src_mono (fuel : Nat) :
    ∀ (env : Env) (g : Graph) (x : NodeId),
      (transpile fuel env g x).err = none →
      ∀ y, srcSet g y = true → srcSet (transpile fuel env g x).g y = true := by
  induction fuel with
  | zero =>
    intro env g x hok
    simp only [transpile] at hok
    exact Option.noConfusion hok
  | succ fuel ih =>
    intro env g x hok y hy
    cases hx : getN g x with
    | none => simp only [transpile, hx]; exact hy
    | some n =>
      by_cases hs : n.source.isSome = true
      · simp only [transpile, hx, hs, ite_true]; exact hy
      · cases hrq : n.module.requires with
        | some reqs =>
          simp only [transpile, hx, hs, hrq, Bool.false_eq_true,
            ite_false] at hok ⊢
          apply transpileFinish_src_mono _ (fun g t y hr h2 => ih env g t hr y h2)
            _ _ _ _ _ _ hok
          rw [foldl_addDependency_src, clearDeps_src]
          exact hy
        | none =>
          cases hrc : runChain env x (modifyN (n.dependencies.foldl
              (fun acc t => modifyN acc t (fun m =>
                { m with initiators := lsDel m.initiators x })) g) x
              (fun m =>
                { m with dependencies := [], errors := [], warnings := [] }))
              n.module.code none (env.steps x) with
          | mk g3 p2 =>
            have hg3 : srcSet g3 y = true := by
              have h2 := runChain_src env x (env.steps x) (modifyN (n.dependencies.foldl
                (fun acc t => modifyN acc t (fun m =>
                  { m with initiators := lsDel m.initiators x })) g) x
                (fun m =>
                  { m with dependencies := [], errors := [], warnings := [] })) n.module.code
                none y
              rw [hrc] at h2
              rw [h2, clearDeps_src]
              exact hy
            cases p2 with
            | mk w2 res =>
              cases res with
              | error e =>
                simp [transpile, hx, hs, hrq, hrc] at hok
              | ok pcs =>
                cases pcs with
                | mk code sm =>
                  simp only [transpile, hx, hs, hrq, hrc, Bool.false_eq_true,
                    ite_false] at hok ⊢
                  apply transpileFinish_src_mono _
                    (fun g t y hr h2 => ih env g t hr y h2) _ _ _ _ _ _ hok
                  exact hg3

theorem transpile_src_self (fuel : Nat) (env : Env) (g : Graph) (x : NodeId)
    (hok : (transpile (fuel+1) env g x).err = none)
    (hx2 : hasN g x = true) :
    srcSet (transpile (fuel+1) env g x).g x = true := by
  cases hx : getN g x with
  | none => rw [hasN, hx] at hx2; simp at hx2
  | some n =>
    by_cases hs : n.source.isSome = true
    · simp only [transpile, hx, hs, ite_true]
      rw [srcSet, hx]
      simpa using hs
    · cases hrq : n.module.requires with
      | some reqs =>
        simp only [transpile, hx, hs, hrq, Bool.false_eq_true,
          ite_false] at hok ⊢
        apply transpileFinish_src_self _
          (fun g t y hr h2 => transpile_src_mono fuel env g t hr y h2)
          _ _ _ _ _ _ hok
        rw [foldl_addDependency_hasN, clearDeps_hasN]
        exact hx2
      | none =>
        cases hrc : runChain env x (modifyN (n.dependencies.foldl
            (fun acc t => modifyN acc t (fun m =>
              { m with initiators := lsDel m.initiators x })) g) x
            (fun m =>
              { m with dependencies := [], errors := [], warnings := [] }))
            n.module.code none (env.steps x) with
        | mk g3 p2 =>
          have hg3 : hasN g3 x = true := by
            have h2 := runChain_hasN env x (env.steps x) (modifyN (n.dependencies.foldl
                (fun acc t => modifyN acc t (fun m =>
                  { m with initiators := lsDel m.initiators x })) g) x
                (fun m =>
                  { m with dependencies := [], errors := [], warnings := [] })) n.module.code
              none x (by rw [clearDeps_hasN]; exact hx2)
            rw [hrc] at h2
            exact h2
          cases p2 with
          | mk w2 res =>
            cases res with
            | error e =>
              simp [transpile, hx, hs, hrq, hrc] at hok
            | ok pcs =>
              cases pcs with
              | mk code sm =>
                simp only [transpile, hx, hs, hrq, hrc, Bool.false_eq_true,
                  ite_false] at hok ⊢
                apply transpileFinish_src_self _
                  (fun g t y hr h2 => transpile_src_mono fuel env g t hr y h2)
                  _ _ _ _ _ _ hok
                exact hg3

theorem transpile_srcComp (fuel : Nat) :
    ∀ (env : Env) (g : Graph) (x : NodeId),
      (transpile fuel env g x).err = none →
      SrcCompInv g → SrcCompInv (transpile fuel env g x).g := by
  induction fuel with
  | zero =>
    intro env g x hok
    simp only [transpile] at hok
    exact Option.noConfusion hok
  | succ fuel ih =>
    intro env g x hok hc
    cases hx : getN g x with
    | none => simp only [transpile, hx]; exact hc
    | some n =>
      by_cases hs : n.source.isSome = true
      · simp only [transpile, hx, hs, ite_true]; exact hc
      · cases hrq : n.module.requires with
        | some reqs =>
          simp only [transpile, hx, hs, hrq, Bool.false_eq_true,
            ite_false] at hok ⊢
          apply transpileFinish_srcComp _ (fun g t hr h2 => ih env g t hr h2)
            _ _ _ _ _ _ hok
          exact foldl_addDependency_srcComp env x reqs _
            (clearDeps_srcComp g x _ hc)
        | none =>
          cases hrc : runChain env x (modifyN (n.dependencies.foldl
              (fun acc t => modifyN acc t (fun m =>
                { m with initiators := lsDel m.initiators x })) g) x
              (fun m =>
                { m with dependencies := [], errors := [], warnings := [] }))
              n.module.code none (env.steps x) with
          | mk g3 p2 =>
            have hg3 : SrcCompInv g3 := by
              have h2 := runChain_srcComp env x (env.steps x) (modifyN (n.dependencies.foldl
                (fun acc t => modifyN acc t (fun m =>
                  { m with initiators := lsDel m.initiators x })) g) x
                (fun m =>
                  { m with dependencies := [], errors := [], warnings := [] })) n.module.code
                none (clearDeps_srcComp g x n.dependencies hc)
              rw [hrc] at h2
              exact h2
            cases p2 with
            | mk w2 res =>
              cases res with
              | error e =>
                simp [transpile, hx, hs, hrq, hrc] at hok
              | ok pcs =>
                cases pcs with
                | mk code sm =>
                  simp only [transpile, hx, hs, hrq, hrc, Bool.false_eq_true,
                    ite_false] at hok ⊢
                  apply transpileFinish_srcComp _
                    (fun g t hr h2 => ih env g t hr h2) _ _ _ _ _ _ hok
                  exact hg3

theorem resetTranspilation_self_hasN (fuel : Nat) (g : Graph) (x : NodeId)
    (h : hasN g x = true) :
    (getN (resetTranspilation (fuel+1) g x) x).map
      (fun m => (m.source, m.dependencies, m.asyncDependencies)) =
      some (none, [], []) := by
  cases hx : getN g x with
  | none => rw [hasN, hx] at h; simp at h
  | some n => exact resetTranspilation_self fuel g x n hx

theorem transpile_cached (fuel : Nat) (env : Env) (g : Graph) (x : NodeId)
    (n : TMNode) (src : ModuleSource)
    (hx : getN g x = some n) (hsrc : n.source = some src) :
    transpile (fuel+1) env g x = ⟨g, none, 0⟩ := by
  simp [transpile, hx, hsrc]

/-- C4: transpile is idempotent while source is non-null: a node whose
source is set makes transpile return at once, with the graph unchanged
and zero transpiler invocations; consequently a second transpile right
after a successful one performs no transformer work and leaves the node
unchanged. -/
theorem c4_transpile_idempotent :
    (∀ (fuel : Nat) (env : Env) (g : Graph) (x : NodeId) (n : TMNode)
      (src : ModuleSource), getN g x = some n → n.source = some src →
      transpile (fuel+1) env g x = ⟨g, none, 0⟩) ∧
    (∀ (fuel fuel2 : Nat) (env : Env) (g : Graph) (x : NodeId),
      hasN g x = true → (transpile (fuel+1) env g x).err = none →
      transpile (fuel2+1) env (transpile (fuel+1) env g x).g x =
        ⟨(transpile (fuel+1) env g x).g, none, 0⟩) := by
  constructor
  · intro fuel env g x n src hx hsrc
    exact transpile_cached fuel env g x n src hx hsrc
  · intro fuel fuel2 env g x hx hok
    have hsrc := transpile_src_self fuel env g x hok hx
    unfold srcSet at hsrc
    cases hn : getN (transpile (fuel+1) env g x).g x with
    | none => rw [hn] at hsrc; simp at hsrc
    | some n2 =>
      rw [hn] at hsrc
      simp at hsrc
      cases hs2 : n2.source with
      | none => rw [hs2] at hsrc; simp at hsrc
      | some src2 =>
        exact transpile_cached fuel2 env _ x n2 src2 hn hs2

/-- Witness for C4 at a concrete transpiled node. -/
theorem c4_transpile_idempotent_witness :
    (getN gSrc "/s.js:" = some nSrc ∧
      nSrc.source = some ⟨"/s.js", "s", none⟩) ∧
      transpile 3 envTriv gSrc "/s.js:" = ⟨gSrc, none, 0⟩ :=
  ⟨⟨by decide, by decide⟩,
    c4_transpile_idempotent.1 2 envTriv gSrc "/s.js:" nSrc ⟨"/s.js", "s", none⟩
      (by decide) (by decide)⟩

/-- C6: when a transpiler of the chain throws, or emits an error that is
then thrown as the first recorded error, transpile resets the node's
transpilation (source cleared, dependencies and pending async
dependencies emptied), tags the error with fileName (the node's path)
and tModule (the node itself), and returns that error, aborting the walk
after a single transpiler invocation. -/
theorem c6_transpiler_error_path (fuel : Nat) (env : Env) (g : Graph)
    (x : NodeId) (n : TMNode) (m tc : String) (sm : Option String)
    (rest : List TStep)
    (hx : getN g x = some n) (hsrc : n.source = none)
    (hreq : n.module.requires = none)
    (hsteps : env.steps x = ⟨[], .error m, sm⟩ :: rest ∨
      env.steps x = ⟨[CtxAction.emitErrorA m], .ok tc, sm⟩ :: rest) :
    (transpile (fuel+2) env g x).err =
      some ⟨m, some n.module.path, some x⟩ ∧
    (transpile (fuel+2) env g x).work = 1 ∧
    ((getN (transpile (fuel+2) env g x).g x).map
      (fun m2 => (m2.source, m2.dependencies, m2.asyncDependencies))) =
      some (none, [], []) := by
  cases hsteps with
  | inl hsteps =>
    refine ⟨?_, ?_, ?_⟩
    · simp [transpile, hx, hsrc, hreq, hsteps, runChain, applyCtxActions]
    · simp [transpile, hx, hsrc, hreq, hsteps, runChain, applyCtxActions]
    · simp only [transpile, hx, hsrc, hreq, hsteps, runChain,
        applyCtxActions, Option.isSome_none, Bool.false_eq_true, ite_false]
      apply resetTranspilation_self_hasN
      rw [clearDeps_hasN]
      rw [hasN, hx]
      rfl
  | inr hsteps =>
    have hG1 : hasN (n.dependencies.foldl (fun acc t => modifyN acc t
        (fun m2 => { m2 with initiators := lsDel m2.initiators x })) g) x
        = true := by
      rw [foldl_hasN _ (fun h t y => hasN_modifyN h t y _)]
      rw [hasN, hx]
      rfl
    cases hg1 : getN (n.dependencies.foldl (fun acc t => modifyN acc t
        (fun m2 => { m2 with initiators := lsDel m2.initiators x })) g) x with
    | none => rw [hasN, hg1] at hG1; simp at hG1
    | some m1 =>
      have hrc2 : runChain env x (modifyN (n.dependencies.foldl
          (fun acc t => modifyN acc t (fun m2 =>
            { m2 with initiators := lsDel m2.initiators x })) g) x
          (fun m2 =>
            { m2 with dependencies := [], errors := [], warnings := [] }))
          n.module.code none (env.steps x) =
          (modifyN (modifyN (n.dependencies.foldl
            (fun acc t => modifyN acc t (fun m2 =>
              { m2 with initiators := lsDel m2.initiators x })) g) x
            (fun m2 =>
              { m2 with dependencies := [], errors := [], warnings := [] })) x
            (fun m2 => { m2 with errors := m2.errors ++
              [(⟨m, none, none⟩ : TError)] }), 1,
            .error (⟨m, none, none⟩ : TError)) := by
        rw [hsteps]
        simp [runChain, applyCtxActions, applyCtxAction, getN_modifyN_self,
          hg1]
      refine ⟨?_, ?_, ?_⟩
      · simp [transpile, hx, hsrc, hreq, hrc2]
      · simp [transpile, hx, hsrc, hreq, hrc2]
      · simp only [transpile, hx, hsrc, hreq, hrc2, Option.isSome_none,
          Bool.false_eq_true, ite_false]
        apply resetTranspilation_self_hasN
        rw [hasN_modifyN, hasN_modifyN]
        rw [foldl_hasN _ (fun h t y => hasN_modifyN h t y _)]
        rw [hasN, hx]
        rfl

/-- Witness for C6 at a concrete node with a throwing transpiler. -/
theorem c6_transpiler_error_path_witness :
    (getN gErr "/e.js:" = some nErr ∧ nErr.source = none ∧
      nErr.module.requires = none ∧
      envErr.steps "/e.js:" = [⟨[], .error "boom", none⟩]) ∧
    ((transpile 3 envErr gErr "/e.js:").err =
      some ⟨"boom", some "/e.js", some "/e.js:"⟩ ∧
    (transpile 3 envErr gErr "/e.js:").work = 1 ∧
    ((getN (transpile 3 envErr gErr "/e.js:").g "/e.js:").map
      (fun m2 => (m2.source, m2.dependencies, m2.asyncDependencies))) =
      some (none, [], [])) :=
  ⟨⟨by decide, rfl, rfl, by simp [envErr]⟩,
    c6_transpiler_error_path 1 envErr gErr "/e.js:" nErr "boom" "" none []
      (by decide) rfl rfl (Or.inl (by simp [envErr]))⟩

/-- C8 (code bug): serialize is supposed, per its own comment, to record
the resolved async-dependency targets synchronously, but the pushes sit
in then-callbacks that run only after serialize has returned: the record
it returns carries an empty asyncDependencies array, and the ids of the
resolved targets (rejected promises are dropped) arrive only in later
microtasks. -/
theorem c8_serialize_async_deferred :
    (∀ n : TMNode,
      (serialize n).1.asyncDependencies = [] ∧
      (serialize n).2 = n.asyncDependencies.filterMap (fun d =>
        match d with
        | AsyncDep.resolved t => some t
        | AsyncDep.rejected => none)) ∧
    ((serialize nAsync).1.asyncDependencies = [] ∧
      (serializeSettled nAsync).asyncDependencies = ["/dep.js:"]) :=
  ⟨fun n => ⟨rfl, rfl⟩, rfl, rfl⟩

/-- C3 (code bug): the serializer round trip restores the module, the
source, the entry mark, dependencies, initiators and
transpilationDependencies, but TranspiledModule.load has no loop for
transpilationInitiators, so they come back empty and the compile-time
edge pair is no longer symmetric. -/
theorem c3_roundtrip_drops_transpilation_initiators :
    ((getN gRT "/b.js:").map (fun n => n.transpilationInitiators)) =
      some ["/a.js:"] ∧
    ((getN (roundTrip gRT) "/b.js:").map
      (fun n => n.transpilationInitiators)) = some [] ∧
    ((getN (roundTrip gRT) "/a.js:").map
      (fun n => n.transpilationDependencies)) = some ["/b.js:"] ∧
    ((getN (roundTrip gRT) "/a.js:").map (fun n => n.dependencies)) =
      some ["/b.js:"] ∧
    ((getN (roundTrip gRT) "/b.js:").map
      (fun n => (n.initiators, n.source, n.isEntry))) =
      some (["/a.js:"], some ⟨"/b.js", "bb", none⟩, true) ∧
    ((getN (roundTrip gRT) "/b.js:").map (fun n => n.module)) =
      some { path := "/b.js", code := "b" } := by
  decide


/-! Evaluate: cache path, reload list, and the persistence of the
compilation record across a throwing unit. -/

/-- A node with cached compilation and changed unset is served from the
cache: evaluate returns the exports with the state untouched. -/
theorem evaluate_cached (fuel : Nat) (env : Env) (s : EvalState) (x : NodeId)
    (parents : List NodeId) (n : TMNode) (src : ModuleSource)
    (c : Compilation) (hx : getN s.g x = some n) (hsrc : n.source = some src)
    (hc : n.compilation = some c) (hchg : n.changed = false) :
    evaluate (fuel+1) env s x parents = (s, .ok c.exports) := by
  simp [evaluate, hx, hsrc, hc, hchg]

/-- Running a unit that performs no require never touches the reload
list. -/
theorem runInstrs_reloads (env : Env)
    (req : String → EvalState → EvalState × Except TError Exports)
    (self : NodeId) :
    ∀ (instrs : List Instr) (s : EvalState), noRequireB instrs = true →
      (runInstrs env req self s instrs).1.reloads = s.reloads := by
  intro instrs
  induction instrs with
  | nil => intro s h; rfl
  | cons i rest ih =>
    intro s h
    simp only [noRequireB, List.all_cons, Bool.and_eq_true] at h
    cases i with
    | setExport k v => rw [runInstrs]; rw [ih _ h.2]
    | requireInto k sp f => simp at h
    | requireDiscard sp => simp at h
    | acceptSelf => rw [runInstrs]; rw [ih _ h.2]
    | acceptPath p =>
      rw [runInstrs]
      cases hs : getN s.g self with
      | none => rfl
      | some n =>
        dsimp only
        cases hr : env.resolve p n.module.path with
        | found t =>
          dsimp only
          rw [ih _ h.2]
        | notFoundDependency pk => rfl
        | otherError m => rfl
    | throwErr m => rfl

theorem evaluate_hmr_reload (fuel : Nat) (env : Env) (s : EvalState) (x : NodeId)
    (parents : List NodeId) (n : TMNode) (src : ModuleSource)
    (hx : getN s.g x = some n) (hsrc : n.source = some src)
    (hflag : s.webpackHMR = true) (hcomp : n.compilation = none)
    (hentry : n.isEntry = true) (hhmr : n.hmrEnabled = .off) :
    evaluate (fuel+1) env s x parents =
      ({ s with reloads := s.reloads ++ [x] }, .ok []) := by
  simp [evaluate, hx, hsrc, hflag, hcomp, hentry, hhmr]

theorem evaluate_no_reload (fuel : Nat) (env : Env) (s : EvalState) (x : NodeId)
    (parents : List NodeId) (n : TMNode) (src : ModuleSource)
    (hx : getN s.g x = some n) (hsrc : n.source = some src)
    (hnoreq : noRequireB (env.sem src.compiledCode) = true)
    (hother : ¬(n.compilation = none ∧ n.isEntry = true ∧
      n.hmrEnabled = Hmr.off)) :
    (evaluate (fuel+1) env s x parents).1.reloads = s.reloads := by
  have hguard : (s.webpackHMR && n.compilation.isNone && n.isEntry &&
      decide (n.hmrEnabled = Hmr.off)) = false := by
    by_contra hg
    rw [Bool.not_eq_false] at hg
    simp only [Bool.and_eq_true, decide_eq_true_eq,
      Option.isNone_iff_eq_none] at hg
    exact hother ⟨hg.1.1.2, hg.1.2, hg.2⟩
  by_cases hcached : (n.compilation.isSome && !n.changed) = true
  · simp [evaluate, hx, hsrc, hguard, hcached]
  · simp only [evaluate, hx, hsrc, hguard, Bool.false_eq_true, if_false,
      hcached]
    split
    · rename_i s2 e heq
      have h4 := congrArg (fun p => p.1.reloads) heq
      dsimp only at h4
      rw [runInstrs_reloads env _ x _ _ hnoreq] at h4
      exact h4.symm
    · rename_i s2 u heq
      have h4 := congrArg (fun p => p.1.reloads) heq
      dsimp only at h4
      rw [runInstrs_reloads env _ x _ _ hnoreq] at h4
      exact h4.symm

theorem PcAt_modifyN_compMap (x y : NodeId) (st : EvalState)
    (f : Exports → Exports) (h : PcAt x st) :
    PcAt x { st with g := modifyN st.g y (fun n =>
      { n with compilation := n.compilation.map (fun c =>
          (⟨f c.exports⟩ : Compilation)) }) } := by
  obtain ⟨m, hm, hs, hc, hch⟩ := h
  obtain ⟨c, hcm⟩ := Option.isSome_iff_exists.mp hc
  by_cases hxy : x = y
  · subst hxy
    have hg : getN (modifyN st.g x (fun n =>
        { n with compilation := n.compilation.map (fun c =>
            (⟨f c.exports⟩ : Compilation)) })) x =
        some { m with compilation := some (⟨f c.exports⟩ : Compilation) } := by
      rw [getN_modifyN_self, hm]
      dsimp only [Option.map]
      rw [hcm]
    exact ⟨_, hg, hs, rfl, hch⟩
  · exact ⟨m, by
      show getN (modifyN st.g y _) x = _
      rw [getN_modifyN_ne _ _ _ _ hxy]; exact hm, hs, hc, hch⟩

theorem PcAt_modifyN_hmr (x y : NodeId) (st : EvalState) (h2 : Hmr)
    (wh : Bool) (h : PcAt x st) :
    PcAt x { st with webpackHMR := wh, g := modifyN st.g y (fun n =>
      { n with hmrEnabled := h2 }) } := by
  obtain ⟨m, hm, hs, hc, hch⟩ := h
  by_cases hxy : x = y
  · subst hxy
    have hg : getN (modifyN st.g x (fun n =>
        { n with hmrEnabled := h2 })) x =
        some { m with hmrEnabled := h2 } := by
      rw [getN_modifyN_self, hm]
      rfl
    exact ⟨_, hg, hs, hc, hch⟩
  · exact ⟨m, by
      show getN (modifyN st.g y _) x = _
      rw [getN_modifyN_ne _ _ _ _ hxy]; exact hm, hs, hc, hch⟩

theorem runInstrs_PcAt (env : Env)
    (req : String → EvalState → EvalState × Except TError Exports)
    (self x : NodeId)
    (hreq : ∀ spec st, PcAt x st → PcAt x (req spec st).1) :
    ∀ (instrs : List Instr) (s : EvalState), PcAt x s →
      PcAt x (runInstrs env req self s instrs).1 := by
  intro instrs
  induction instrs with
  | nil => intro s h; exact h
  | cons i rest ih =>
    intro s h
    cases i with
    | setExport k v =>
      rw [runInstrs]
      exact ih _ (PcAt_modifyN_compMap x self s (fun e2 => setKV e2 k v) h)
    | requireInto k sp f =>
      rw [runInstrs]
      cases hr : req sp s with
      | mk s1 r =>
        have h1 : PcAt x s1 := by
          have := hreq sp s h
          rw [hr] at this
          exact this
        cases r with
        | error e => exact h1
        | ok ex =>
          dsimp only
          exact ih _ (PcAt_modifyN_compMap x self s1 (fun e2 =>
            setKV e2 k ((((ex.find? (fun p => p.1 = f)).map
              Prod.snd)).getD 0)) h1)
    | requireDiscard sp =>
      rw [runInstrs]
      cases hr : req sp s with
      | mk s1 r =>
        have h1 : PcAt x s1 := by
          have := hreq sp s h
          rw [hr] at this
          exact this
        cases r with
        | error e => exact h1
        | ok ex => exact ih _ h1
    | acceptSelf =>
      rw [runInstrs]
      exact ih _ (PcAt_modifyN_hmr x self s Hmr.selfAccept true h)
    | acceptPath p =>
      rw [runInstrs]
      cases hs : getN s.g self with
      | none => exact h
      | some n =>
        dsimp only
        cases hr : env.resolve p n.module.path with
        | found t =>
          dsimp only
          exact ih _ (PcAt_modifyN_hmr x t s Hmr.callback true h)
        | notFoundDependency pk => exact h
        | otherError m => exact h
    | throwErr m => exact h

theorem evaluate_PcAt (x : NodeId) :
    ∀ (fuel : Nat) (env : Env) (s : EvalState) (y : NodeId)
      (parents : List NodeId), PcAt x s →
      PcAt x (evaluate fuel env s y parents).1 := by
  intro fuel
  induction fuel with
  | zero => intro env s y parents h; exact h
  | succ fuel ih =>
    intro env s y parents h
    rw [evaluate]
    cases hy : getN s.g y with
    | none => exact h
    | some n =>
      dsimp only
      cases hsrc : n.source with
      | none => exact h
      | some src =>
        dsimp only
        by_cases hguard : (s.webpackHMR && n.compilation.isNone &&
            n.isEntry && decide (n.hmrEnabled = Hmr.off)) = true
        · rw [if_pos hguard]
          obtain ⟨m, hm, hs, hc, hch⟩ := h
          exact ⟨m, hm, hs, hc, hch⟩
        · rw [if_neg hguard]
          by_cases hcached : (n.compilation.isSome && !n.changed) = true
          · rw [if_pos hcached]
            exact h
          · rw [if_neg hcached]
            have h1 : PcAt x { s with
                g := modifyN s.g y (fun m =>
                  { m with compilation := some (n.compilation.getD ⟨[]⟩) }),
                evalWork := s.evalWork + 1 } := by
              obtain ⟨m, hm, hs, hc, hch⟩ := h
              by_cases hxy : x = y
              · subst hxy
                have hg : getN (modifyN s.g x (fun m2 => { m2 with compilation := some (n.compilation.getD ⟨[]⟩) })) x = some { m with compilation := some (n.compilation.getD ⟨[]⟩) } := by
                  rw [getN_modifyN_self, hm]
                  rfl
                exact ⟨_, hg, hs, rfl, hch⟩
              · exact ⟨m, by
                  show getN (modifyN s.g y _) x = _
                  rw [getN_modifyN_ne _ _ _ _ hxy]; exact hm, hs, hc, hch⟩
            have hreq : ∀ spec st, PcAt x st → PcAt x
                ((fun spec st =>
                  let aliasedPath := env.aliasOf spec
                  if bareSpec aliasedPath && !(aliasedPath.contains '!') &&
                      (aliasedPath.startsWith "babel-runtime" ||
                       aliasedPath.startsWith "codesandbox-api") then
                    (st, Except.ok (env.externalVal aliasedPath))
                  else
                    match env.resolve aliasedPath n.module.path with
                    | Resolution.found t =>
                      match getN st.g t with
                      | none => (st, Except.error
                          ⟨"unknown module", none, none⟩)
                      | some tn =>
                        if tn.module = n.module then
                          (st, Except.error ⟨n.module.path ++
                            " is importing itself", none, none⟩)
                        else evaluate fuel env st t (parents ++ [y])
                    | Resolution.notFoundDependency pk =>
                      (st, Except.error
                        ⟨"module-not-found " ++ pk, none, none⟩)
                    | Resolution.otherError m =>
                      (st, Except.error ⟨m, none, none⟩)) spec st).1 := by
              intro spec st hst
              dsimp only
              by_cases hb : (bareSpec (env.aliasOf spec) &&
                  !((env.aliasOf spec).contains '!') &&
                  ((env.aliasOf spec).startsWith "babel-runtime" ||
                   (env.aliasOf spec).startsWith "codesandbox-api")) = true
              · rw [if_pos hb]; exact hst
              · rw [if_neg hb]
                cases hres : env.resolve (env.aliasOf spec) n.module.path with
                | found t =>
                  dsimp only
                  cases hg : getN st.g t with
                  | none => exact hst
                  | some tn =>
                    dsimp only
                    by_cases hm2 : tn.module = n.module
                    · rw [if_pos hm2]; exact hst
                    · rw [if_neg hm2]; exact ih env st t (parents ++ [y]) hst
                | notFoundDependency pk => exact hst
                | otherError m => exact hst
            have h2 := runInstrs_PcAt env _ y x hreq
              (env.sem src.compiledCode) _ h1
            split
            · rename_i s2 e heq
              rw [heq] at h2
              exact h2
            · rename_i s2 u heq
              rw [heq] at h2
              exact h2


theorem evaluate_error_nonatomic (fuel : Nat) (env : Env) (s : EvalState)
    (x : NodeId) (parents : List NodeId) (n : TMNode) (src : ModuleSource)
    (hx : getN s.g x = some n) (hsrc : n.source = some src)
    (hwh : s.webpackHMR = false) (hcomp : n.compilation = none)
    (hch : n.changed = false) :
    (∀ e, (evaluate (fuel+1) env s x parents).2 = Except.error e →
      e.tModule.isSome = true) ∧
    PcAt x (evaluate (fuel+1) env s x parents).1 := by
  have hguard : ¬((s.webpackHMR && n.compilation.isNone && n.isEntry &&
      decide (n.hmrEnabled = Hmr.off)) = true) := by
    rw [hwh]; simp
  have hcached : ¬((n.compilation.isSome && !n.changed) = true) := by
    rw [hcomp]; simp
  rw [evaluate, hx]
  dsimp only
  rw [hsrc]
  dsimp only
  rw [if_neg hguard, if_neg hcached]
  have h1 : PcAt x { s with
      g := modifyN s.g x (fun m =>
        { m with compilation := some (n.compilation.getD ⟨[]⟩) }),
      evalWork := s.evalWork + 1 } := by
    have hg : getN (modifyN s.g x (fun m2 => { m2 with compilation := some (n.compilation.getD ⟨[]⟩) })) x = some { n with compilation := some (n.compilation.getD ⟨[]⟩) } := by
      rw [getN_modifyN_self, hx]
      rfl
    exact ⟨_, hg, by show n.source.isSome = true; rw [hsrc]; rfl, rfl, hch⟩
  have hreq : ∀ spec st, PcAt x st → PcAt x
      ((fun spec st =>
        let aliasedPath := env.aliasOf spec
        if bareSpec aliasedPath && !(aliasedPath.contains '!') &&
            (aliasedPath.startsWith "babel-runtime" ||
             aliasedPath.startsWith "codesandbox-api") then
          (st, Except.ok (env.externalVal aliasedPath))
        else
          match env.resolve aliasedPath n.module.path with
          | Resolution.found t =>
            match getN st.g t with
            | none => (st, Except.error
                ⟨"unknown module", none, none⟩)
            | some tn =>
              if tn.module = n.module then
                (st, Except.error ⟨n.module.path ++
                  " is importing itself", none, none⟩)
              else evaluate fuel env st t (parents ++ [x])
          | Resolution.notFoundDependency pk =>
            (st, Except.error
              ⟨"module-not-found " ++ pk, none, none⟩)
          | Resolution.otherError m =>
            (st, Except.error ⟨m, none, none⟩)) spec st).1 := by
    intro spec st hst
    dsimp only
    by_cases hb : (bareSpec (env.aliasOf spec) &&
        !((env.aliasOf spec).contains '!') &&
        ((env.aliasOf spec).startsWith "babel-runtime" ||
         (env.aliasOf spec).startsWith "codesandbox-api")) = true
    · rw [if_pos hb]; exact hst
    · rw [if_neg hb]
      cases hres : env.resolve (env.aliasOf spec) n.module.path with
      | found t =>
        dsimp only
        cases hg : getN st.g t with
        | none => exact hst
        | some tn =>
          dsimp only
          by_cases hm2 : tn.module = n.module
          · rw [if_pos hm2]; exact hst
          · rw [if_neg hm2]
            exact evaluate_PcAt x fuel env st t (parents ++ [x]) hst
      | notFoundDependency pk => exact hst
      | otherError m => exact hst
  have h2 := runInstrs_PcAt env _ x x hreq (env.sem src.compiledCode) _ h1
  constructor
  · intro e
    split
    · rename_i s2 e0 heq
      intro he
      dsimp only at he
      injection he with h5
      subst h5
      rfl
    · rename_i s2 u heq
      intro he
      exact Except.noConfusion he
  · split
    · rename_i s2 e0 heq
      rw [heq] at h2
      exact h2
    · rename_i s2 u heq
      rw [heq] at h2
      exact h2

/-- C5: a node with a cached compilation and changed unset returns the
cached exports with the state untouched (no evaluator or linker work);
and the cyclic two-module graph evaluates to completion, the re-entered
module receiving the in-progress exports, each unit running once. -/
theorem c5_cached_and_cycle :
    (∀ (fuel : Nat) (env : Env) (s : EvalState) (x : NodeId)
      (parents : List NodeId) (n : TMNode) (src : ModuleSource)
      (c : Compilation), getN s.g x = some n → n.source = some src →
      n.compilation = some c → n.changed = false →
      evaluate (fuel+1) env s x parents = (s, Except.ok c.exports)) ∧
    ((evaluate 5 envA sA "/a.js:" []).2 = Except.ok [("a", 1), ("b", 2)] ∧
     (evaluate 5 envA sA "/a.js:" []).1.evalWork = 2) :=
  ⟨fun fuel env s x parents n src c hx hsrc hc hchg =>
    evaluate_cached fuel env s x parents n src c hx hsrc hc hchg,
   ⟨rfl, rfl⟩⟩

theorem c5_cached_and_cycle_witness :
    evaluate 1 envTriv s5w "/w.js:" [] = (s5w, Except.ok [("w", 3)]) :=
  c5_cached_and_cycle.1 0 envTriv s5w "/w.js:" [] n5w ⟨"/w.js", "w", none⟩
    ⟨[("w", 3)]⟩ rfl rfl rfl rfl

/-- C7: under the manager webpackHMR flag, evaluate on an entry without
compilation that is not HMR-accepting requests a full page reload and
returns an empty export record; on a node not matching that guard (here
with a unit that performs no require) evaluate requests no reload. -/
theorem c7_hmr_reload_guard :
    (∀ (fuel : Nat) (env : Env) (s : EvalState) (x : NodeId)
      (parents : List NodeId) (n : TMNode) (src : ModuleSource),
      getN s.g x = some n → n.source = some src → s.webpackHMR = true →
      n.compilation = none → n.isEntry = true → n.hmrEnabled = Hmr.off →
      evaluate (fuel+1) env s x parents =
        ({ s with reloads := s.reloads ++ [x] }, Except.ok [])) ∧
    (∀ (fuel : Nat) (env : Env) (s : EvalState) (x : NodeId)
      (parents : List NodeId) (n : TMNode) (src : ModuleSource),
      getN s.g x = some n → n.source = some src →
      noRequireB (env.sem src.compiledCode) = true →
      ¬(n.compilation = none ∧ n.isEntry = true ∧ n.hmrEnabled = Hmr.off) →
      (evaluate (fuel+1) env s x parents).1.reloads = s.reloads) :=
  ⟨evaluate_hmr_reload, evaluate_no_reload⟩

theorem c7_hmr_reload_guard_witness :
    evaluate 1 envTriv s7 "/m7.js:" [] =
      ({ s7 with reloads := s7.reloads ++ ["/m7.js:"] }, Except.ok []) ∧
    (evaluate 1 envTriv s7b "/m7b.js:" []).1.reloads = s7b.reloads :=
  ⟨c7_hmr_reload_guard.1 0 envTriv s7 "/m7.js:" [] n7 ⟨"/m7.js", "m", none⟩
    rfl rfl rfl rfl rfl rfl,
   c7_hmr_reload_guard.2 0 envTriv s7b "/m7b.js:" [] n7b
    ⟨"/m7b.js", "m", none⟩ rfl rfl rfl (by decide)⟩

/-- C10: when the unit throws during evaluate, the error leaves evaluate
tagged with tModule, yet the node keeps its initialised compilation
record with changed unset, so any later evaluate returns that record's
partially populated exports with the state untouched; the concrete run
shows the partial export surviving the error and being served from the
cache without further evaluator work. -/
theorem c10_evaluation_not_atomic :
    (∀ (fuel : Nat) (env : Env) (s : EvalState) (x : NodeId)
      (parents : List NodeId) (n : TMNode) (src : ModuleSource),
      getN s.g x = some n → n.source = some src → s.webpackHMR = false →
      n.compilation = none → n.changed = false →
      (∀ e, (evaluate (fuel+1) env s x parents).2 = Except.error e →
        e.tModule.isSome = true) ∧
      (∃ m c2, getN (evaluate (fuel+1) env s x parents).1.g x = some m ∧
        m.compilation = some c2 ∧ m.changed = false ∧
        ∀ (fuel2 : Nat) (parents2 : List NodeId),
          evaluate (fuel2+1) env (evaluate (fuel+1) env s x parents).1 x
            parents2 =
          ((evaluate (fuel+1) env s x parents).1, Except.ok c2.exports))) ∧
    ((evaluate 2 env10 s10 "/x10.js:" []).2 =
        Except.error ⟨"boom", none, some "/x10.js:"⟩ ∧
     evaluate 1 env10 (evaluate 2 env10 s10 "/x10.js:" []).1 "/x10.js:" [] =
        ((evaluate 2 env10 s10 "/x10.js:" []).1, Except.ok [("a", 1)]) ∧
     (evaluate 2 env10 s10 "/x10.js:" []).1.evalWork = 1) := by
  constructor
  · intro fuel env s x parents n src hx hsrc hwh hcomp hch
    obtain ⟨htag, hpc⟩ := evaluate_error_nonatomic fuel env s x parents n
      src hx hsrc hwh hcomp hch
    refine ⟨htag, ?_⟩
    obtain ⟨m, hm, hs2, hc2, hch2⟩ := hpc
    obtain ⟨src2, hsrc2⟩ := Option.isSome_iff_exists.mp hs2
    obtain ⟨c2, hc2e⟩ := Option.isSome_iff_exists.mp hc2
    exact ⟨m, c2, hm, hc2e, hch2, fun fuel2 parents2 =>
      evaluate_cached fuel2 env _ x parents2 m src2 c2 hm hsrc2 hc2e hch2⟩
  · exact ⟨rfl, rfl, rfl⟩

theorem c10_evaluation_not_atomic_witness :
    (∀ e, (evaluate 1 env10 s10 "/x10.js:" []).2 = Except.error e →
      e.tModule.isSome = true) ∧
    (∃ m c2, getN (evaluate 1 env10 s10 "/x10.js:" []).1.g "/x10.js:" =
        some m ∧
      m.compilation = some c2 ∧ m.changed = false ∧
      ∀ (fuel2 : Nat) (parents2 : List NodeId),
        evaluate (fuel2+1) env10 (evaluate 1 env10 s10 "/x10.js:" []).1
          "/x10.js:" parents2 =
        ((evaluate 1 env10 s10 "/x10.js:" []).1,
          Except.ok c2.exports)) :=
  c10_evaluation_not_atomic.1 0 env10 s10 "/x10.js:" [] n10
    ⟨"/x10.js", "X", none⟩ rfl rfl rfl rfl rfl



/-! SrcCompInv across evaluate, and the C2 verdict. -/

/-- Mapping the exports inside an optional compilation record keeps the
source-null-implies-compilation-null invariant. -/
theorem SrcCompInv_modifyN_compMap (g : Graph) (y : NodeId)
    (f : Exports → Exports) (h : SrcCompInv g) :
    SrcCompInv (modifyN g y (fun n =>
      { n with compilation := n.compilation.map (fun c =>
          (⟨f c.exports⟩ : Compilation)) })) := by
  refine SrcCompInv_modifyN_at g y _ ?_ h
  intro m hm hs
  have hs2 : m.source = none := hs
  have hc := h y m hm hs2
  show m.compilation.map _ = none
  rw [hc]
  rfl

theorem SrcCompInv_modifyN_hmr (g : Graph) (y : NodeId) (h2 : Hmr)
    (h : SrcCompInv g) :
    SrcCompInv (modifyN g y (fun n => { n with hmrEnabled := h2 })) :=
  SrcCompInv_modifyN_relax g y _ (fun m => ⟨rfl, Or.inl rfl⟩) h

theorem runInstrs_srcComp (env : Env)
    (req : String → EvalState → EvalState × Except TError Exports)
    (self : NodeId)
    (hreq : ∀ spec st, SrcCompInv st.g → SrcCompInv (req spec st).1.g) :
    ∀ (instrs : List Instr) (s : EvalState), SrcCompInv s.g →
      SrcCompInv (runInstrs env req self s instrs).1.g := by
  intro instrs
  induction instrs with
  | nil => intro s h; exact h
  | cons i rest ih =>
    intro s h
    cases i with
    | setExport k v =>
      rw [runInstrs]
      exact ih _ (SrcCompInv_modifyN_compMap s.g self
        (fun e2 => setKV e2 k v) h)
    | requireInto k sp f =>
      rw [runInstrs]
      cases hr : req sp s with
      | mk s1 r =>
        have h1 : SrcCompInv s1.g := by
          have := hreq sp s h
          rw [hr] at this
          exact this
        cases r with
        | error e => exact h1
        | ok ex =>
          dsimp only
          exact ih _ (SrcCompInv_modifyN_compMap s1.g self (fun e2 =>
            setKV e2 k ((((ex.find? (fun p => p.1 = f)).map
              Prod.snd)).getD 0)) h1)
    | requireDiscard sp =>
      rw [runInstrs]
      cases hr : req sp s with
      | mk s1 r =>
        have h1 : SrcCompInv s1.g := by
          have := hreq sp s h
          rw [hr] at this
          exact this
        cases r with
        | error e => exact h1
        | ok ex => exact ih _ h1
    | acceptSelf =>
      rw [runInstrs]
      exact ih _ (SrcCompInv_modifyN_hmr s.g self Hmr.selfAccept h)
    | acceptPath p =>
      rw [runInstrs]
      cases hs : getN s.g self with
      | none => exact h
      | some n =>
        dsimp only
        cases hr : env.resolve p n.module.path with
        | found t =>
          dsimp only
          exact ih _ (SrcCompInv_modifyN_hmr s.g t Hmr.callback h)
        | notFoundDependency pk => exact h
        | otherError m => exact h
    | throwErr m => exact h

theorem evaluate_srcComp :
    ∀ (fuel : Nat) (env : Env) (s : EvalState) (y : NodeId)
      (parents : List NodeId), SrcCompInv s.g →
      SrcCompInv (evaluate fuel env s y parents).1.g := by
  intro fuel
  induction fuel with
  | zero => intro env s y parents h; exact h
  | succ fuel ih =>
    intro env s y parents h
    rw [evaluate]
    cases hy : getN s.g y with
    | none => exact h
    | some n =>
      dsimp only
      cases hsrc : n.source with
      | none => exact h
      | some src =>
        dsimp only
        by_cases hguard : (s.webpackHMR && n.compilation.isNone &&
            n.isEntry && decide (n.hmrEnabled = Hmr.off)) = true
        · rw [if_pos hguard]
          exact h
        · rw [if_neg hguard]
          by_cases hcached : (n.compilation.isSome && !n.changed) = true
          · rw [if_pos hcached]
            exact h
          · rw [if_neg hcached]
            have h1 : SrcCompInv ({ s with g := modifyN s.g y (fun m => { m with compilation := some (n.compilation.getD ⟨[]⟩) }), evalWork := s.evalWork + 1 } : EvalState).g := by
              show SrcCompInv (modifyN s.g y (fun m => { m with compilation := some (n.compilation.getD ⟨[]⟩) }))
              refine SrcCompInv_modifyN_at s.g y _ ?_ h
              intro m hm hs2
              have hmn : m = n := by
                rw [hy] at hm
                injection hm with h5
                exact h5.symm
              subst hmn
              have hs3 : m.source = none := hs2
              rw [hsrc] at hs3
              exact Option.noConfusion hs3
            have hreq : ∀ spec st, SrcCompInv st.g → SrcCompInv
                ((fun spec st =>
                  let aliasedPath := env.aliasOf spec
                  if bareSpec aliasedPath && !(aliasedPath.contains '!') &&
                      (aliasedPath.startsWith "babel-runtime" ||
                       aliasedPath.startsWith "codesandbox-api") then
                    (st, Except.ok (env.externalVal aliasedPath))
                  else
                    match env.resolve aliasedPath n.module.path with
                    | Resolution.found t =>
                      match getN st.g t with
                      | none => (st, Except.error
                          ⟨"unknown module", none, none⟩)
                      | some tn =>
                        if tn.module = n.module then
                          (st, Except.error ⟨n.module.path ++
                            " is importing itself", none, none⟩)
                        else evaluate fuel env st t (parents ++ [y])
                    | Resolution.notFoundDependency pk =>
                      (st, Except.error
                        ⟨"module-not-found " ++ pk, none, none⟩)
                    | Resolution.otherError m =>
                      (st, Except.error ⟨m, none, none⟩)) spec st).1.g := by
              intro spec st hst
              dsimp only
              by_cases hb : (bareSpec (env.aliasOf spec) &&
                  !((env.aliasOf spec).contains '!') &&
                  ((env.aliasOf spec).startsWith "babel-runtime" ||
                   (env.aliasOf spec).startsWith "codesandbox-api")) = true
              · rw [if_pos hb]; exact hst
              · rw [if_neg hb]
                cases hres : env.resolve (env.aliasOf spec)
                    n.module.path with
                | found t =>
                  dsimp only
                  cases hg : getN st.g t with
                  | none => exact hst
                  | some tn =>
                    dsimp only
                    by_cases hm2 : tn.module = n.module
                    · rw [if_pos hm2]; exact hst
                    · rw [if_neg hm2]
                      exact ih env st t (parents ++ [y]) hst
                | notFoundDependency pk => exact hst
                | otherError m => exact hst
            have h2 := runInstrs_srcComp env _ y hreq
              (env.sem src.compiledCode) _ h1
            split
            · rename_i s2 e0 heq
              rw [heq] at h2
              exact h2
            · rename_i s2 u heq
              rw [heq] at h2
              exact h2


theorem resetTranspilation_nocomp (fuel : Nat) (g : Graph) (x : NodeId)
    (h : NoComp g) : NoComp (resetTranspilation fuel g x) := by
  intro a na ha
  have hp := resetTranspilation_comp fuel g x a
  rw [ha] at hp
  cases hm : getN g a with
  | none => rw [hm] at hp; exact Option.noConfusion hp
  | some m =>
    rw [hm] at hp
    injection hp with h5
    have h6 : na.compilation = m.compilation := h5
    rw [h6]
    exact h a m hm

/-- C2 (counterexample): the error path of transpile on /a2.js resets
the transpilation of its initiator /b2.js, clearing that node's source
while its cached compilation record survives, so a node with source null
and compilation non-null exists afterwards. -/
theorem c2_source_null_counterexample :
    SrcCompInv gC2 ∧
    (transpile 3 envC2 gC2 "/a2.js:").err.isSome = true ∧
    ((getN (transpile 3 envC2 gC2 "/a2.js:").g "/b2.js:").map
      (fun m => (m.source, m.compilation))) =
      some (none, some ⟨[("k", 7)]⟩) ∧
    ¬SrcCompInv (transpile 3 envC2 gC2 "/a2.js:").g := by
  have hfact : ((getN (transpile 3 envC2 gC2 "/a2.js:").g "/b2.js:").map
      (fun m => (m.source, m.compilation))) =
      some (none, some ⟨[("k", 7)]⟩) := by decide
  refine ⟨SrcCompInv_of_B gC2 (by decide), by decide, hfact, ?_⟩
  intro h
  cases hg : getN (transpile 3 envC2 gC2 "/a2.js:").g "/b2.js:" with
  | none => rw [hg] at hfact; exact Option.noConfusion hfact
  | some m =>
    rw [hg] at hfact
    injection hfact with h5
    have hsrc : m.source = none := congrArg Prod.fst h5
    have hcomp : m.compilation = some ⟨[("k", 7)]⟩ :=
      congrArg Prod.snd h5
    have := h "/b2.js:" m hg hsrc
    rw [this] at hcomp
    exact Option.noConfusion hcomp

/-- C2 (amended): a successful transpile, evaluate and resetCompilation
each preserve the source-null-implies-compilation-null invariant;
resetTranspilation (hence the error path of transpile, reset and update,
which run it) leaves every node's compilation record untouched while it
clears sources, so across those operations the invariant survives only
on graphs holding no cached compilation. -/
theorem c2_amended_source_null :
    (∀ (fuel : Nat) (env : Env) (g : Graph) (x : NodeId),
      (transpile fuel env g x).err = none →
      SrcCompInv g → SrcCompInv (transpile fuel env g x).g) ∧
    (∀ (fuel : Nat) (env : Env) (s : EvalState) (x : NodeId)
      (parents : List NodeId),
      SrcCompInv s.g → SrcCompInv (evaluate fuel env s x parents).1.g) ∧
    (∀ (fuel : Nat) (g : Graph) (x : NodeId),
      SrcCompInv g → SrcCompInv (resetCompilation fuel g x)) ∧
    (∀ (fuel : Nat) (g : Graph) (x y : NodeId),
      (getN (resetTranspilation fuel g x) y).map (fun m => m.compilation) =
        (getN g y).map (fun m => m.compilation)) ∧
    (∀ (fuel : Nat) (g : Graph) (x : NodeId),
      NoComp g → NoComp (resetTranspilation fuel g x)) :=
  ⟨fun fuel env g x hok h => transpile_srcComp fuel env g x hok h,
   fun fuel env s x parents h => evaluate_srcComp fuel env s x parents h,
   fun fuel g x h => resetCompilation_srcComp fuel g x h,
   fun fuel g x y => resetTranspilation_comp fuel g x y,
   fun fuel g x h => resetTranspilation_nocomp fuel g x h⟩

theorem c2_amended_source_null_witness :
    SrcCompInv (transpile 1 envTriv gSrc "/s.js:").g ∧
    SrcCompInv (evaluate 2 env10 s10 "/x10.js:" []).1.g ∧
    SrcCompInv (resetCompilation 2 gC2 "/b2.js:") ∧
    NoComp (resetTranspilation 2 gErr "/e.js:") :=
  ⟨c2_amended_source_null.1 1 envTriv gSrc "/s.js:" rfl
    (SrcCompInv_of_B gSrc (by decide)),
   c2_amended_source_null.2.1 2 env10 s10 "/x10.js:" []
    (SrcCompInv_of_B s10.g (by decide)),
   c2_amended_source_null.2.2.1 2 gC2 "/b2.js:"
    (SrcCompInv_of_B gC2 (by decide)),
   c2_amended_source_null.2.2.2.2 2 gErr "/e.js:"
    (NoComp_of_B gErr (by decide))⟩


/-! Edge-pair symmetry: preservation of the well-formedness bundle by
every public operation, and the serializer round trip (claim C1). -/

theorem contains_of_hasN (g : Graph) (x : NodeId) (h : hasN g x = true) :
    (g.map Prod.fst).contains x = true := by
  rw [← hasN_eq_contains]; exact h

theorem hasN_of_contains (g : Graph) (x : NodeId)
    (h : (g.map Prod.fst).contains x = true) : hasN g x = true := by
  rw [hasN_eq_contains]; exact h

theorem GInv_modifyN_gen (g : Graph) (x : NodeId) (f : TMNode → TMNode)
    (hf : ∀ m, (f m).dependencies = m.dependencies ∧
      (f m).initiators = m.initiators ∧
      (f m).transpilationDependencies = m.transpilationDependencies ∧
      (f m).transpilationInitiators = m.transpilationInitiators)
    (hasy : ∀ m t, getN g x = some m →
      AsyncDep.resolved t ∈ (f m).asyncDependencies →
      AsyncDep.resolved t ∈ m.asyncDependencies ∨ hasN g t = true)
    (h : GInv g) : GInv (modifyN g x f) := by
  obtain ⟨hd, ht, hc, hk⟩ := h
  have ext : ∀ w nw2, getN (modifyN g x f) w = some nw2 →
      ∃ nw, getN g w = some nw ∧ nw2.dependencies = nw.dependencies ∧
        nw2.initiators = nw.initiators ∧
        nw2.transpilationDependencies = nw.transpilationDependencies ∧
        nw2.transpilationInitiators = nw.transpilationInitiators ∧
        (∀ t, AsyncDep.resolved t ∈ nw2.asyncDependencies →
          AsyncDep.resolved t ∈ nw.asyncDependencies ∨ hasN g t = true) := by
    intro w nw2 hw
    rw [getN_modifyN] at hw
    by_cases hwx : w = x
    · rw [if_pos hwx] at hw
      subst hwx
      cases hg : getN g w with
      | none => rw [hg] at hw; exact Option.noConfusion hw
      | some nw =>
        rw [hg] at hw
        injection hw with h1
        subst h1
        exact ⟨nw, rfl, (hf nw).1, (hf nw).2.1, (hf nw).2.2.1,
          (hf nw).2.2.2, fun t htm => hasy nw t hg htm⟩
    · rw [if_neg hwx] at hw
      exact ⟨nw2, hw, rfl, rfl, rfl, rfl, fun t htm => Or.inl htm⟩
  refine ⟨?_, ?_, ?_, ?_⟩
  · intro u v nu2 nv2 hu hv
    obtain ⟨nu, hgu, hdu, hiu, _, _, _⟩ := ext u nu2 hu
    obtain ⟨nv, hgv, hdv, hiv, _, _, _⟩ := ext v nv2 hv
    rw [hdu, hiv]
    exact hd u v nu nv hgu hgv
  · intro u v nu2 nv2 hu hv
    obtain ⟨nu, hgu, _, _, htdu, htiu, _⟩ := ext u nu2 hu
    obtain ⟨nv, hgv, _, _, htdv, htiv, _⟩ := ext v nv2 hv
    rw [htdu, htiv]
    exact ht u v nu nv hgu hgv
  · intro u nu2 hu
    obtain ⟨nu, hgu, hdu, hiu, htdu, htiu, hau⟩ := ext u nu2 hu
    obtain ⟨c1, c2, c3, c4, c5⟩ := hc u nu hgu
    rw [hdu, hiu, htdu, htiu]
    refine ⟨fun b hb => ?_, fun b hb => ?_, fun b hb => ?_,
      fun b hb => ?_, fun t htm => ?_⟩
    · rw [hasN_modifyN]; exact c1 b hb
    · rw [hasN_modifyN]; exact c2 b hb
    · rw [hasN_modifyN]; exact c3 b hb
    · rw [hasN_modifyN]; exact c4 b hb
    · rw [hasN_modifyN]
      rcases hau t htm with hold | hnew
      · exact c5 t hold
      · exact hnew
  · unfold KeysOk
    rw [modifyN_keys]
    exact hk

theorem GInv_modifyN_keep (g : Graph) (x : NodeId) (f : TMNode → TMNode)
    (hf : ∀ m, (f m).dependencies = m.dependencies ∧
      (f m).initiators = m.initiators ∧
      (f m).transpilationDependencies = m.transpilationDependencies ∧
      (f m).transpilationInitiators = m.transpilationInitiators ∧
      (f m).asyncDependencies = m.asyncDependencies)
    (h : GInv g) : GInv (modifyN g x f) :=
  GInv_modifyN_gen g x f (fun m => ⟨(hf m).1, (hf m).2.1, (hf m).2.2.1,
    (hf m).2.2.2.1⟩)
    (fun m t _ htm => Or.inl (by rw [← (hf m).2.2.2.2]; exact htm)) h

theorem allOff_modifyN_keep (g : Graph) (x : NodeId) (f : TMNode → TMNode)
    (hf : ∀ m, (f m).hmrEnabled = m.hmrEnabled)
    (h : allOff g) : allOff (modifyN g x f) :=
  allOff_of_hmr_eq g (modifyN g x f)
    (fun y => getN_map_modifyN (fun m => m.hmrEnabled) g x f hf y) h

theorem addDepEdge_mem (g : Graph) (a b u w : NodeId) (nu2 : TMNode)
    (hu : getN (addDepEdge g a b) u = some nu2) :
    ∃ nu, getN g u = some nu ∧
      (w ∈ nu2.dependencies ↔ (w ∈ nu.dependencies ∨ (u = a ∧ w = b))) ∧
      (w ∈ nu2.initiators ↔ (w ∈ nu.initiators ∨ (u = b ∧ w = a))) ∧
      nu2.transpilationDependencies = nu.transpilationDependencies ∧
      nu2.transpilationInitiators = nu.transpilationInitiators ∧
      nu2.asyncDependencies = nu.asyncDependencies := by
  simp only [addDepEdge] at hu
  rw [getN_modifyN] at hu
  by_cases hub : u = b
  · rw [if_pos hub] at hu
    rw [getN_modifyN] at hu
    by_cases hua : u = a
    · rw [if_pos hua] at hu
      cases hg : getN g u with
      | none => rw [hg] at hu; exact Option.noConfusion hu
      | some nu =>
        rw [hg] at hu
        simp only [Option.map_some'] at hu
        injection hu with h1
        subst h1
        refine ⟨nu, rfl, ?_, ?_, rfl, rfl, rfl⟩
        · show w ∈ lsAdd nu.dependencies b ↔ _
          rw [mem_lsAdd]
          constructor
          · rintro (h2 | h2)
            · exact Or.inl h2
            · exact Or.inr ⟨hua, h2⟩
          · rintro (h2 | ⟨h2, h3⟩)
            · exact Or.inl h2
            · exact Or.inr h3
        · show w ∈ lsAdd nu.initiators a ↔ _
          rw [mem_lsAdd]
          constructor
          · rintro (h2 | h2)
            · exact Or.inl h2
            · exact Or.inr ⟨hub, h2⟩
          · rintro (h2 | ⟨h2, h3⟩)
            · exact Or.inl h2
            · exact Or.inr h3
    · rw [if_neg hua] at hu
      cases hg : getN g u with
      | none => rw [hg] at hu; exact Option.noConfusion hu
      | some nu =>
        rw [hg] at hu
        simp only [Option.map_some'] at hu
        injection hu with h1
        subst h1
        refine ⟨nu, rfl, ?_, ?_, rfl, rfl, rfl⟩
        · show w ∈ nu.dependencies ↔ _
          constructor
          · exact fun h2 => Or.inl h2
          · rintro (h2 | ⟨h2, h3⟩)
            · exact h2
            · exact absurd h2 hua
        · show w ∈ lsAdd nu.initiators a ↔ _
          rw [mem_lsAdd]
          constructor
          · rintro (h2 | h2)
            · exact Or.inl h2
            · exact Or.inr ⟨hub, h2⟩
          · rintro (h2 | ⟨h2, h3⟩)
            · exact Or.inl h2
            · exact Or.inr h3
  · rw [if_neg hub] at hu
    rw [getN_modifyN] at hu
    by_cases hua : u = a
    · rw [if_pos hua] at hu
      cases hg : getN g u with
      | none => rw [hg] at hu; exact Option.noConfusion hu
      | some nu =>
        rw [hg] at hu
        simp only [Option.map_some'] at hu
        injection hu with h1
        subst h1
        refine ⟨nu, rfl, ?_, ?_, rfl, rfl, rfl⟩
        · show w ∈ lsAdd nu.dependencies b ↔ _
          rw [mem_lsAdd]
          constructor
          · rintro (h2 | h2)
            · exact Or.inl h2
            · exact Or.inr ⟨hua, h2⟩
          · rintro (h2 | ⟨h2, h3⟩)
            · exact Or.inl h2
            · exact Or.inr h3
        · show w ∈ nu.initiators ↔ _
          constructor
          · exact fun h2 => Or.inl h2
          · rintro (h2 | ⟨h2, h3⟩)
            · exact h2
            · exact absurd h2 hub
    · rw [if_neg hua] at hu
      refine ⟨nu2, hu, ?_, ?_, rfl, rfl, rfl⟩
      · constructor
        · exact fun h2 => Or.inl h2
        · rintro (h2 | ⟨h2, h3⟩)
          · exact h2
          · exact absurd h2 hua
      · constructor
        · exact fun h2 => Or.inl h2
        · rintro (h2 | ⟨h2, h3⟩)
          · exact h2
          · exact absurd h2 hub


theorem addDepEdge_keys (g : Graph) (a b : NodeId) :
    (addDepEdge g a b).map Prod.fst = g.map Prod.fst := by
  simp only [addDepEdge]
  rw [modifyN_keys, modifyN_keys]

theorem addDepEdge_GInv (g : Graph) (a b : NodeId) (ha : hasN g a = true)
    (hb : hasN g b = true) (h : GInv g) : GInv (addDepEdge g a b) := by
  obtain ⟨hd, ht, hc, hk⟩ := h
  refine ⟨?_, ?_, ?_, ?_⟩
  · intro u v nu2 nv2 hu hv
    obtain ⟨nu, hgu, hdu, _, _, _, _⟩ := addDepEdge_mem g a b u v nu2 hu
    obtain ⟨nv, hgv, _, hiv, _, _, _⟩ := addDepEdge_mem g a b v u nv2 hv
    rw [hdu, hiv]
    rw [hd u v nu nv hgu hgv]
    constructor
    · rintro (h2 | ⟨h2, h3⟩)
      · exact Or.inl h2
      · exact Or.inr ⟨h3, h2⟩
    · rintro (h2 | ⟨h2, h3⟩)
      · exact Or.inl h2
      · exact Or.inr ⟨h3, h2⟩
  · intro u v nu2 nv2 hu hv
    obtain ⟨nu, hgu, _, _, htdu, _, _⟩ := addDepEdge_mem g a b u v nu2 hu
    obtain ⟨nv, hgv, _, _, _, htiv, _⟩ := addDepEdge_mem g a b v u nv2 hv
    rw [htdu, htiv]
    exact ht u v nu nv hgu hgv
  · intro u nu2 hu
    have hdom : ∀ y, hasN (addDepEdge g a b) y = hasN g y :=
      fun y => addDepEdge_hasN g a b y
    obtain ⟨nu, hgu, _, _, htdu, htiu, hau⟩ :=
      addDepEdge_mem g a b u u nu2 hu
    obtain ⟨c1, c2, c3, c4, c5⟩ := hc u nu hgu
    refine ⟨fun v hv => ?_, fun v hv => ?_, fun v hv => ?_,
      fun v hv => ?_, fun t htm => ?_⟩
    · obtain ⟨_, hgu2, hdu, _, _, _, _⟩ := addDepEdge_mem g a b u v nu2 hu
      rw [hgu] at hgu2
      injection hgu2 with h9
      subst h9
      rw [hdom]
      rcases hdu.mp hv with h2 | ⟨h2, h3⟩
      · exact c1 v h2
      · rw [h3]; exact hb
    · obtain ⟨_, hgu2, _, hiu, _, _, _⟩ := addDepEdge_mem g a b u v nu2 hu
      rw [hgu] at hgu2
      injection hgu2 with h9
      subst h9
      rw [hdom]
      rcases hiu.mp hv with h2 | ⟨h2, h3⟩
      · exact c2 v h2
      · rw [h3]; exact ha
    · rw [hdom, htdu] at *
      exact c3 v (htdu ▸ hv)
    · rw [hdom]
      exact c4 v (htiu ▸ hv)
    · rw [hdom]
      exact c5 t (hau ▸ htm)
  · unfold KeysOk
    rw [addDepEdge_keys]
    exact hk

theorem addTranspEdge_mem (g : Graph) (a b u w : NodeId) (nu2 : TMNode)
    (hu : getN (addTranspEdge g a b) u = some nu2) :
    ∃ nu, getN g u = some nu ∧
      (w ∈ nu2.transpilationDependencies ↔
        (w ∈ nu.transpilationDependencies ∨ (u = a ∧ w = b))) ∧
      (w ∈ nu2.transpilationInitiators ↔
        (w ∈ nu.transpilationInitiators ∨ (u = b ∧ w = a))) ∧
      nu2.dependencies = nu.dependencies ∧
      nu2.initiators = nu.initiators ∧
      nu2.asyncDependencies = nu.asyncDependencies := by
  simp only [addTranspEdge] at hu
  rw [getN_modifyN] at hu
  by_cases hub : u = b
  · rw [if_pos hub] at hu
    rw [getN_modifyN] at hu
    by_cases hua : u = a
    · rw [if_pos hua] at hu
      cases hg : getN g u with
      | none => rw [hg] at hu; exact Option.noConfusion hu
      | some nu =>
        rw [hg] at hu
        simp only [Option.map_some'] at hu
        injection hu with h1
        subst h1
        refine ⟨nu, rfl, ?_, ?_, rfl, rfl, rfl⟩
        · show w ∈ lsAdd nu.transpilationDependencies b ↔ _
          rw [mem_lsAdd]
          constructor
          · rintro (h2 | h2)
            · exact Or.inl h2
            · exact Or.inr ⟨hua, h2⟩
          · rintro (h2 | ⟨h2, h3⟩)
            · exact Or.inl h2
            · exact Or.inr h3
        · show w ∈ lsAdd nu.transpilationInitiators a ↔ _
          rw [mem_lsAdd]
          constructor
          · rintro (h2 | h2)
            · exact Or.inl h2
            · exact Or.inr ⟨hub, h2⟩
          · rintro (h2 | ⟨h2, h3⟩)
            · exact Or.inl h2
            · exact Or.inr h3
    · rw [if_neg hua] at hu
      cases hg : getN g u with
      | none => rw [hg] at hu; exact Option.noConfusion hu
      | some nu =>
        rw [hg] at hu
        simp only [Option.map_some'] at hu
        injection hu with h1
        subst h1
        refine ⟨nu, rfl, ?_, ?_, rfl, rfl, rfl⟩
        · show w ∈ nu.transpilationDependencies ↔ _
          constructor
          · exact fun h2 => Or.inl h2
          · rintro (h2 | ⟨h2, h3⟩)
            · exact h2
            · exact absurd h2 hua
        · show w ∈ lsAdd nu.transpilationInitiators a ↔ _
          rw [mem_lsAdd]
          constructor
          · rintro (h2 | h2)
            · exact Or.inl h2
            · exact Or.inr ⟨hub, h2⟩
          · rintro (h2 | ⟨h2, h3⟩)
            · exact Or.inl h2
            · exact Or.inr h3
  · rw [if_neg hub] at hu
    rw [getN_modifyN] at hu
    by_cases hua : u = a
    · rw [if_pos hua] at hu
      cases hg : getN g u with
      | none => rw [hg] at hu; exact Option.noConfusion hu
      | some nu =>
        rw [hg] at hu
        simp only [Option.map_some'] at hu
        injection hu with h1
        subst h1
        refine ⟨nu, rfl, ?_, ?_, rfl, rfl, rfl⟩
        · show w ∈ lsAdd nu.transpilationDependencies b ↔ _
          rw [mem_lsAdd]
          constructor
          · rintro (h2 | h2)
            · exact Or.inl h2
            · exact Or.inr ⟨hua, h2⟩
          · rintro (h2 | ⟨h2, h3⟩)
            · exact Or.inl h2
            · exact Or.inr h3
        · show w ∈ nu.transpilationInitiators ↔ _
          constructor
          · exact fun h2 => Or.inl h2
          · rintro (h2 | ⟨h2, h3⟩)
            · exact h2
            · exact absurd h2 hub
    · rw [if_neg hua] at hu
      refine ⟨nu2, hu, ?_, ?_, rfl, rfl, rfl⟩
      · constructor
        · exact fun h2 => Or.inl h2
        · rintro (h2 | ⟨h2, h3⟩)
          · exact h2
          · exact absurd h2 hua
      · constructor
        · exact fun h2 => Or.inl h2
        · rintro (h2 | ⟨h2, h3⟩)
          · exact h2
          · exact absurd h2 hub

theorem addTranspEdge_keys (g : Graph) (a b : NodeId) :
    (addTranspEdge g a b).map Prod.fst = g.map Prod.fst := by
  simp only [addTranspEdge]
  rw [modifyN_keys, modifyN_keys]

theorem addTranspEdge_GInv (g : Graph) (a b : NodeId) (ha : hasN g a = true)
    (hb : hasN g b = true) (h : GInv g) : GInv (addTranspEdge g a b) := by
  obtain ⟨hd, ht, hc, hk⟩ := h
  refine ⟨?_, ?_, ?_, ?_⟩
  · intro u v nu2 nv2 hu hv
    obtain ⟨nu, hgu, _, _, hdu, _, _⟩ := addTranspEdge_mem g a b u v nu2 hu
    obtain ⟨nv, hgv, _, _, _, hiv, _⟩ := addTranspEdge_mem g a b v u nv2 hv
    rw [hdu, hiv]
    exact hd u v nu nv hgu hgv
  · intro u v nu2 nv2 hu hv
    obtain ⟨nu, hgu, htdu, _, _, _, _⟩ := addTranspEdge_mem g a b u v nu2 hu
    obtain ⟨nv, hgv, _, htiv, _, _, _⟩ := addTranspEdge_mem g a b v u nv2 hv
    rw [htdu, htiv]
    rw [ht u v nu nv hgu hgv]
    constructor
    · rintro (h2 | ⟨h2, h3⟩)
      · exact Or.inl h2
      · exact Or.inr ⟨h3, h2⟩
    · rintro (h2 | ⟨h2, h3⟩)
      · exact Or.inl h2
      · exact Or.inr ⟨h3, h2⟩
  · intro u nu2 hu
    have hdom : ∀ y, hasN (addTranspEdge g a b) y = hasN g y :=
      fun y => addTranspEdge_hasN g a b y
    obtain ⟨nu, hgu, _, _, hdu, hiu, hau⟩ :=
      addTranspEdge_mem g a b u u nu2 hu
    obtain ⟨c1, c2, c3, c4, c5⟩ := hc u nu hgu
    refine ⟨fun v hv => ?_, fun v hv => ?_, fun v hv => ?_,
      fun v hv => ?_, fun t htm => ?_⟩
    · rw [hdom]
      exact c1 v (hdu ▸ hv)
    · rw [hdom]
      exact c2 v (hiu ▸ hv)
    · obtain ⟨_, hgu2, htdu, _, _, _, _⟩ := addTranspEdge_mem g a b u v nu2 hu
      rw [hgu] at hgu2
      injection hgu2 with h9
      subst h9
      rw [hdom]
      rcases htdu.mp hv with h2 | ⟨h2, h3⟩
      · exact c3 v h2
      · rw [h3]; exact hb
    · obtain ⟨_, hgu2, _, htiu2, _, _, _⟩ := addTranspEdge_mem g a b u v nu2 hu
      rw [hgu] at hgu2
      injection hgu2 with h9
      subst h9
      rw [hdom]
      rcases htiu2.mp hv with h2 | ⟨h2, h3⟩
      · exact c4 v h2
      · rw [h3]; exact ha
    · rw [hdom]
      exact c5 t (hau ▸ htm)
  · unfold KeysOk
    rw [addTranspEdge_keys]
    exact hk


theorem GInv_append_fresh (g : Graph) (i : NodeId) (fresh : TMNode)
    (hi : hasN g i = false)
    (hf : fresh.dependencies = [] ∧ fresh.initiators = [] ∧
      fresh.transpilationDependencies = [] ∧
      fresh.transpilationInitiators = [] ∧ fresh.asyncDependencies = [])
    (h : GInv g) : GInv (g ++ [(i, fresh)]) := by
  obtain ⟨hd, ht, hc, hk⟩ := h
  have ext : ∀ w nw, getN (g ++ [(i, fresh)]) w = some nw →
      getN g w = some nw ∨ (w = i ∧ nw = fresh) := by
    intro w nw hw
    cases hg : getN g w with
    | some m =>
      rw [getN_append_left _ _ _ _ hg] at hw
      exact Or.inl hw
    | none =>
      rw [getN_append_right _ _ _ hg] at hw
      simp only [getN, getN_nil] at hw
      by_cases hiw : i = w
      · rw [if_pos hiw] at hw
        injection hw with h2
        exact Or.inr ⟨hiw.symm, h2.symm⟩
      · rw [if_neg hiw] at hw
        exact Option.noConfusion hw
  have hasN_new : ∀ y, hasN g y = true → hasN (g ++ [(i, fresh)]) y = true :=
    fun y hy => hasN_append_mono g _ y hy
  have hnotedge : ∀ u nu, getN g u = some nu →
      (i ∉ nu.dependencies ∧ i ∉ nu.initiators ∧
       i ∉ nu.transpilationDependencies ∧ i ∉ nu.transpilationInitiators) := by
    intro u nu hgu
    obtain ⟨c1, c2, c3, c4, _⟩ := hc u nu hgu
    refine ⟨fun h2 => ?_, fun h2 => ?_, fun h2 => ?_, fun h2 => ?_⟩
    · rw [c1 i h2] at hi; exact Bool.noConfusion hi
    · rw [c2 i h2] at hi; exact Bool.noConfusion hi
    · rw [c3 i h2] at hi; exact Bool.noConfusion hi
    · rw [c4 i h2] at hi; exact Bool.noConfusion hi
  refine ⟨?_, ?_, ?_, ?_⟩
  · intro u v nu nv hu hv
    rcases ext u nu hu with hgu | ⟨hui, hnu⟩
    · rcases ext v nv hv with hgv | ⟨hvi, hnv⟩
      · exact hd u v nu nv hgu hgv
      · rw [hnv, hf.2.1]
        constructor
        · intro h2
          rw [hvi] at h2
          exact absurd h2 (hnotedge u nu hgu).1
        · intro h2
          exact absurd h2 (List.not_mem_nil u)
    · rw [hnu, hf.1]
      rcases ext v nv hv with hgv | ⟨hvi, hnv⟩
      · constructor
        · intro h2
          exact absurd h2 (List.not_mem_nil v)
        · intro h2
          rw [hui] at h2
          exact absurd h2 (hnotedge v nv hgv).2.1
      · rw [hnv, hf.2.1]
        constructor
        · intro h2
          exact absurd h2 (List.not_mem_nil v)
        · intro h2
          exact absurd h2 (List.not_mem_nil u)
  · intro u v nu nv hu hv
    rcases ext u nu hu with hgu | ⟨hui, hnu⟩
    · rcases ext v nv hv with hgv | ⟨hvi, hnv⟩
      · exact ht u v nu nv hgu hgv
      · rw [hnv, hf.2.2.2.1]
        constructor
        · intro h2
          rw [hvi] at h2
          exact absurd h2 (hnotedge u nu hgu).2.2.1
        · intro h2
          exact absurd h2 (List.not_mem_nil u)
    · rw [hnu, hf.2.2.1]
      rcases ext v nv hv with hgv | ⟨hvi, hnv⟩
      · constructor
        · intro h2
          exact absurd h2 (List.not_mem_nil v)
        · intro h2
          rw [hui] at h2
          exact absurd h2 (hnotedge v nv hgv).2.2.2
      · rw [hnv, hf.2.2.2.1]
        constructor
        · intro h2
          exact absurd h2 (List.not_mem_nil v)
        · intro h2
          exact absurd h2 (List.not_mem_nil u)
  · intro u nu hu
    rcases ext u nu hu with hgu | ⟨hui, hnu⟩
    · obtain ⟨c1, c2, c3, c4, c5⟩ := hc u nu hgu
      exact ⟨fun b hb => hasN_new b (c1 b hb),
        fun b hb => hasN_new b (c2 b hb),
        fun b hb => hasN_new b (c3 b hb),
        fun b hb => hasN_new b (c4 b hb),
        fun t htm => hasN_new t (c5 t htm)⟩
    · rw [hnu, hf.1, hf.2.1, hf.2.2.1, hf.2.2.2.1, hf.2.2.2.2]
      exact ⟨fun b hb => absurd hb (List.not_mem_nil b),
        fun b hb => absurd hb (List.not_mem_nil b),
        fun b hb => absurd hb (List.not_mem_nil b),
        fun b hb => absurd hb (List.not_mem_nil b),
        fun t htm => absurd htm (List.not_mem_nil _)⟩
  · unfold KeysOk
    rw [List.map_append]
    rw [List.nodup_append]
    refine ⟨hk, List.nodup_singleton i, ?_⟩
    intro y hy hy2
    simp only [List.map_cons, List.map_nil, List.mem_singleton] at hy2
    subst hy2
    have := hasN_of_contains g y (by
      rw [List.contains_eq_any_beq]
      rw [List.any_eq_true]
      exact ⟨y, hy, by simp⟩)
    rw [hi] at this
    exact Bool.noConfusion this

theorem allOff_append_fresh (g : Graph) (i : NodeId) (fresh : TMNode)
    (hf : fresh.hmrEnabled = Hmr.off) (h : allOff g) :
    allOff (g ++ [(i, fresh)]) := by
  intro a na ha
  cases hg : getN g a with
  | some m =>
    rw [getN_append_left _ _ _ _ hg] at ha
    injection ha with h2
    subst h2
    exact h a m hg
  | none =>
    rw [getN_append_right _ _ _ hg] at ha
    simp only [getN, getN_nil] at ha
    by_cases hia : i = a
    · rw [if_pos hia] at ha
      injection ha with h2
      subst h2
      exact hf
    · rw [if_neg hia] at ha
      exact Option.noConfusion ha

theorem addTranspiledModule_GInv (g : Graph) (m : Module) (q : String)
    (h : GInv g) : GInv (addTranspiledModule g m q).1 := by
  simp only [addTranspiledModule]
  cases hq : getN g (mkId m.path q) with
  | some n => exact h
  | none =>
    refine GInv_append_fresh g (mkId m.path q) _ ?_ ⟨rfl, rfl, rfl, rfl, rfl⟩ h
    rw [hasN, hq]
    rfl

theorem addTranspiledModule_allOff (g : Graph) (m : Module) (q : String)
    (h : allOff g) : allOff (addTranspiledModule g m q).1 := by
  simp only [addTranspiledModule]
  cases hq : getN g (mkId m.path q) with
  | some n => exact h
  | none => exact allOff_append_fresh g _ _ rfl h

theorem addTranspiledModule_self_hasN (g : Graph) (m : Module) (q : String) :
    hasN (addTranspiledModule g m q).1 (addTranspiledModule g m q).2 = true := by
  simp only [addTranspiledModule]
  cases hq : getN g (mkId m.path q) with
  | some n => simp only [hasN, hq]; rfl
  | none =>
    simp only [hasN]
    rw [getN_append_right _ _ _ hq]
    simp [getN]

theorem emitModule_GInv (g : Graph) (self : NodeId) (p c : String)
    (d : Option String) (h : GInv g) : GInv (emitModule g self p c d).1 := by
  cases hs : getN g self with
  | none => simp only [emitModule, hs]; exact h
  | some n =>
    simp only [emitModule, hs]
    refine addDepEdge_GInv _ _ _ ?_ ?_ ?_
    · rw [hasN_modifyN]
      refine addTranspiledModule_hasN _ _ _ _ ?_
      rw [hasN, hs]
      rfl
    · rw [hasN_modifyN]
      exact addTranspiledModule_self_hasN g _ _
    · refine GInv_modifyN_keep _ _ _ (fun m2 => ⟨rfl, rfl, rfl, rfl, rfl⟩) ?_
      exact addTranspiledModule_GInv g _ _ h

theorem emitModule_allOff (g : Graph) (self : NodeId) (p c : String)
    (d : Option String) (h : allOff g) : allOff (emitModule g self p c d).1 := by
  cases hs : getN g self with
  | none => simp only [emitModule, hs]; exact h
  | some n =>
    simp only [emitModule, hs]
    simp only [addDepEdge]
    refine allOff_modifyN_keep _ _ _ (fun m2 => rfl) ?_
    refine allOff_modifyN_keep _ _ _ (fun m2 => rfl) ?_
    refine allOff_modifyN_keep _ _ _ (fun m2 => rfl) ?_
    exact addTranspiledModule_allOff g _ _ h


theorem foldl_pres_mem {α β : Type} (P : β → Prop) (step : β → α → β) :
    ∀ (l : List α), (∀ b t, t ∈ l → P b → P (step b t)) →
      ∀ b, P b → P (l.foldl step b) := by
  intro l
  induction l with
  | nil => intro h b hb; exact hb
  | cons t rest ih =>
    intro h b hb
    exact ih (fun b2 t2 ht2 hb2 => h b2 t2 (List.mem_cons_of_mem t ht2) hb2)
      _ (h b t (List.mem_cons_self t rest) hb)

theorem EnvValid_mono (env : Env) (g g2 : Graph)
    (hmono : ∀ y, hasN g y = true → hasN g2 y = true)
    (h : EnvValid env g) : EnvValid env g2 :=
  ⟨fun s f t h2 => hmono t (h.1 s f t h2),
   fun d f t h2 => hmono t (h.2.1 d f t h2),
   fun p f t h2 => hmono t (h.2.2 p f t h2)⟩

theorem addDependency_GInv (env : Env) (g : Graph) (self : NodeId)
    (dp : String) (abs : Bool) (hEV : EnvValid env g) (h : GInv g) :
    GInv (addDependency env g self dp abs) := by
  by_cases hb : (dp.startsWith "babel-runtime" ||
      dp.startsWith "codesandbox-api") = true
  · simp only [addDependency, hb, if_pos]
    exact h
  · simp only [addDependency, hb, Bool.false_eq_true, if_false]
    cases hs : getN g self with
    | none => exact h
    | some n =>
      dsimp only
      cases hr : env.resolve dp (if abs then "/" else n.module.path) with
      | found t =>
        refine addDepEdge_GInv g self t ?_ (hEV.1 _ _ _ hr) h
        rw [hasN, hs]
        rfl
      | notFoundDependency pk =>
        refine GInv_modifyN_gen g self _ (fun m => ⟨rfl, rfl, rfl, rfl⟩)
          ?_ h
        intro m t hm htm
        rw [List.mem_append] at htm
        rcases htm with hold | hnew
        · exact Or.inl hold
        · rw [List.mem_singleton] at hnew
          exact Or.inr (hEV.2.2 _ _ _ hnew.symm)
      | otherError m2 => exact h

theorem addDependency_allOff (env : Env) (g : Graph) (self : NodeId)
    (dp : String) (abs : Bool) (h : allOff g) :
    allOff (addDependency env g self dp abs) := by
  by_cases hb : (dp.startsWith "babel-runtime" ||
      dp.startsWith "codesandbox-api") = true
  · simp only [addDependency, hb, if_pos]
    exact h
  · simp only [addDependency, hb, Bool.false_eq_true, if_false]
    cases hs : getN g self with
    | none => exact h
    | some n =>
      dsimp only
      cases hr : env.resolve dp (if abs then "/" else n.module.path) with
      | found t =>
        simp only [addDepEdge]
        exact allOff_modifyN_keep _ _ _ (fun m => rfl)
          (allOff_modifyN_keep _ _ _ (fun m => rfl) h)
      | notFoundDependency pk =>
        exact allOff_modifyN_keep _ _ _ (fun m => rfl) h
      | otherError m2 => exact h

theorem addTranspilationDependency_GInv (env : Env) (g : Graph)
    (self : NodeId) (dp : String) (abs : Bool) (hEV : EnvValid env g)
    (h : GInv g) : GInv (addTranspilationDependency env g self dp abs).1 := by
  cases hs : getN g self with
  | none => simp only [addTranspilationDependency, hs]; exact h
  | some n =>
    simp only [addTranspilationDependency, hs]
    cases hr : env.resolve dp (if abs then "/" else n.module.path) with
    | found t =>
      refine addTranspEdge_GInv g self t ?_ (hEV.1 _ _ _ hr) h
      rw [hasN, hs]
      rfl
    | notFoundDependency pk => exact h
    | otherError m2 => exact h

theorem addTranspilationDependency_allOff (env : Env) (g : Graph)
    (self : NodeId) (dp : String) (abs : Bool) (h : allOff g) :
    allOff (addTranspilationDependency env g self dp abs).1 := by
  cases hs : getN g self with
  | none => simp only [addTranspilationDependency, hs]; exact h
  | some n =>
    simp only [addTranspilationDependency, hs]
    cases hr : env.resolve dp (if abs then "/" else n.module.path) with
    | found t =>
      simp only [addTranspEdge]
      exact allOff_modifyN_keep _ _ _ (fun m => rfl)
        (allOff_modifyN_keep _ _ _ (fun m => rfl) h)
    | notFoundDependency pk => exact h
    | otherError m2 => exact h

theorem addDependenciesInDirectory_GInv (env : Env) (g : Graph)
    (self : NodeId) (dir : String) (abs : Bool) (hEV : EnvValid env g)
    (h : GInv g) : GInv (addDependenciesInDirectory env g self dir abs) := by
  cases hs : getN g self with
  | none => simp only [addDependenciesInDirectory, hs]; exact h
  | some n =>
    simp only [addDependenciesInDirectory, hs]
    have step : ∀ (acc : Graph) (t : NodeId),
        t ∈ env.resolveDir dir (if abs then "/" else n.module.path) →
        (GInv acc ∧ (∀ y, hasN acc y = hasN g y)) →
        (GInv (addDepEdge acc self t) ∧
          (∀ y, hasN (addDepEdge acc self t) y = hasN g y)) := by
      intro acc t ht ⟨hacc, hdom⟩
      constructor
      · refine addDepEdge_GInv acc self t ?_ ?_ hacc
        · rw [hdom, hasN, hs]; rfl
        · rw [hdom]; exact hEV.2.1 _ _ _ ht
      · intro y
        rw [addDepEdge_hasN]
        exact hdom y
    exact (foldl_pres_mem _ _ _ step g ⟨h, fun y => rfl⟩).1

theorem addDependenciesInDirectory_allOff (env : Env) (g : Graph)
    (self : NodeId) (dir : String) (abs : Bool) (h : allOff g) :
    allOff (addDependenciesInDirectory env g self dir abs) := by
  cases hs : getN g self with
  | none => simp only [addDependenciesInDirectory, hs]; exact h
  | some n =>
    simp only [addDependenciesInDirectory, hs]
    refine foldl_pres allOff _ ?_ _ _ h
    intro acc t hacc
    simp only [addDepEdge]
    exact allOff_modifyN_keep _ _ _ (fun m => rfl)
      (allOff_modifyN_keep _ _ _ (fun m => rfl) hacc)

theorem emitFile_GInv (g : Graph) (self : NodeId) (nm c : String)
    (sm : Option String) (h : GInv g) : GInv (emitFile g self nm c sm) :=
  GInv_modifyN_keep _ _ _ (fun m => ⟨rfl, rfl, rfl, rfl, rfl⟩) h

theorem applyCtxAction_GInv (env : Env) (g : Graph) (self : NodeId)
    (a : CtxAction) (hEV : EnvValid env g) (h : GInv g) :
    GInv (applyCtxAction env g self a).1 := by
  cases a with
  | emitModuleA p c d => exact emitModule_GInv _ _ _ _ _ h
  | emitFileA nm c sm => exact emitFile_GInv _ _ _ _ _ h
  | addDependencyA p abs =>
    simp only [applyCtxAction]
    exact addDependency_GInv env g self p abs hEV h
  | addTranspilationDependencyA p abs =>
    exact addTranspilationDependency_GInv env g self p abs hEV h
  | addDependenciesInDirectoryA d abs =>
    exact addDependenciesInDirectory_GInv env g self d abs hEV h
  | emitWarningA w =>
    exact GInv_modifyN_keep _ _ _ (fun m => ⟨rfl, rfl, rfl, rfl, rfl⟩) h
  | emitErrorA e =>
    exact GInv_modifyN_keep _ _ _ (fun m => ⟨rfl, rfl, rfl, rfl, rfl⟩) h

theorem applyCtxAction_allOff (env : Env) (g : Graph) (self : NodeId)
    (a : CtxAction) (h : allOff g) :
    allOff (applyCtxAction env g self a).1 := by
  cases a with
  | emitModuleA p c d => exact emitModule_allOff _ _ _ _ _ h
  | emitFileA nm c sm =>
    exact allOff_modifyN_keep _ _ _ (fun m => rfl) h
  | addDependencyA p abs =>
    simp only [applyCtxAction]
    exact addDependency_allOff env g self p abs h
  | addTranspilationDependencyA p abs =>
    exact addTranspilationDependency_allOff env g self p abs h
  | addDependenciesInDirectoryA d abs =>
    exact addDependenciesInDirectory_allOff env g self d abs h
  | emitWarningA w =>
    exact allOff_modifyN_keep _ _ _ (fun m => rfl) h
  | emitErrorA e =>
    exact allOff_modifyN_keep _ _ _ (fun m => rfl) h

theorem applyCtxAction_SInv (env : Env) (g : Graph) (self : NodeId)
    (a : CtxAction) (h : SInv env g) :
    SInv env (applyCtxAction env g self a).1 :=
  ⟨applyCtxAction_GInv env g self a h.2.2 h.1,
   applyCtxAction_allOff env g self a h.2.1,
   EnvValid_mono env g _ (fun y hy => applyCtxAction_hasN env g self a y hy)
     h.2.2⟩

theorem applyCtxActions_SInv (env : Env) (self : NodeId) :
    ∀ (acts : List CtxAction) (g : Graph), SInv env g →
      SInv env (applyCtxActions env self g acts).1 := by
  intro acts
  induction acts with
  | nil => intro g h; exact h
  | cons a rest ih =>
    intro g h
    rw [applyCtxActions]
    cases ha : applyCtxAction env g self a with
    | mk g1 e =>
      have h1 : SInv env g1 := by
        have := applyCtxAction_SInv env g self a h
        rw [ha] at this
        exact this
      cases e with
      | some err => exact h1
      | none => exact ih g1 h1

theorem runChain_SInv (env : Env) (self : NodeId) :
    ∀ (steps : List TStep) (g : Graph) (code : String) (sm : Option String),
      SInv env g → SInv env (runChain env self g code sm steps).1 := by
  intro steps
  induction steps with
  | nil => intro g code sm h; exact h
  | cons st rest ih =>
    intro g code sm h
    rw [runChain]
    cases ha : applyCtxActions env self g st.actions with
    | mk g1 e =>
      have h1 : SInv env g1 := by
        have := applyCtxActions_SInv env self st.actions g h
        rw [ha] at this
        exact this
      cases e with
      | some err => exact h1
      | none =>
        dsimp only
        cases st.result with
        | error m => exact h1
        | ok tc =>
          dsimp only
          cases ((getN g1 self).map (fun n => n.errors)).getD [] with
          | cons e0 r0 => exact h1
          | nil => exact ih g1 tc st.sourceMap h1


theorem delInit_idem (x : NodeId) (m : TMNode) :
    ({ { m with initiators := lsDel m.initiators x } with
        initiators := lsDel (lsDel m.initiators x) x } : TMNode) =
    { m with initiators := lsDel m.initiators x } := by
  rw [lsDel_idem]

theorem getN_foldl_delInit (x : NodeId) :
    ∀ (l : List NodeId) (g : Graph) (y : NodeId),
      getN (l.foldl (fun acc t => modifyN acc t (fun m =>
        { m with initiators := lsDel m.initiators x })) g) y =
      if y ∈ l then (getN g y).map (fun m =>
        { m with initiators := lsDel m.initiators x }) else getN g y := by
  intro l
  induction l with
  | nil => intro g y; simp
  | cons t rest ih =>
    intro g y
    rw [List.foldl_cons, ih]
    by_cases hyt : y = t
    · subst hyt
      rw [getN_modifyN_self]
      by_cases hyr : y ∈ rest
      · rw [if_pos hyr, if_pos (List.mem_cons_self y rest)]
        cases hg : getN g y with
        | none => rfl
        | some m =>
          simp only [Option.map_some']
          exact congrArg some (delInit_idem x m)
      · rw [if_neg hyr, if_pos (List.mem_cons_self y rest)]
    · rw [getN_modifyN_ne _ _ _ _ hyt]
      by_cases hyr : y ∈ rest
      · rw [if_pos hyr, if_pos (List.mem_cons_of_mem t hyr)]
      · rw [if_neg hyr, if_neg (fun h2 => ?_)]
        rcases List.mem_cons.mp h2 with h3 | h3
        · exact hyt h3
        · exact hyr h3

theorem clearDeps_keys (g : Graph) (x : NodeId) (f2 : TMNode → TMNode)
    (deps : List NodeId) :
    (modifyN (deps.foldl (fun acc t => modifyN acc t (fun m =>
      { m with initiators := lsDel m.initiators x })) g) x f2).map Prod.fst =
    g.map Prod.fst := by
  rw [modifyN_keys]
  exact foldl_keys _ (fun h t => modifyN_keys h t _) deps g

theorem GInv_clearDeps (g : Graph) (x : NodeId) (f2 : TMNode → TMNode)
    (hf2 : ∀ m, (f2 m).dependencies = [] ∧ (f2 m).initiators = m.initiators ∧
      (f2 m).transpilationDependencies = m.transpilationDependencies ∧
      (f2 m).transpilationInitiators = m.transpilationInitiators ∧
      ((f2 m).asyncDependencies = m.asyncDependencies ∨
        (f2 m).asyncDependencies = []))
    (deps : List NodeId)
    (hdeps : deps = ((getN g x).map (fun m => m.dependencies)).getD [])
    (h : GInv g) :
    GInv (modifyN (deps.foldl (fun acc t => modifyN acc t (fun m =>
      { m with initiators := lsDel m.initiators x })) g) x f2) := by
  have hkeys := clearDeps_keys g x f2 deps
  have hdom : ∀ y, hasN (modifyN (deps.foldl (fun acc t => modifyN acc t
      (fun m => { m with initiators := lsDel m.initiators x })) g) x f2) y =
      hasN g y := by
    intro y
    rw [hasN_eq_contains, hasN_eq_contains, hkeys]
  obtain ⟨hd, ht, hc, hk⟩ := h
  cases hx : getN g x with
  | none =>
    have hdeps2 : deps = [] := by rw [hdeps, hx]; rfl
    subst hdeps2
    refine GInv_of_edges_eq g _ hkeys ?_ ⟨hd, ht, hc, hk⟩
    intro y
    rw [List.foldl_nil, getN_modifyN]
    by_cases hyx : y = x
    · rw [if_pos hyx, hyx, hx]
      rfl
    · rw [if_neg hyx]
  | some nx =>
    have hdeps2 : deps = nx.dependencies := by rw [hdeps, hx]; rfl
    have ext : ∀ w nw2, getN (modifyN (deps.foldl (fun acc t => modifyN acc t
        (fun m => { m with initiators := lsDel m.initiators x })) g) x f2) w =
          some nw2 →
        ∃ nw, getN g w = some nw ∧
          nw2.dependencies = (if w = x then [] else nw.dependencies) ∧
          nw2.initiators = (if w ∈ deps then lsDel nw.initiators x
            else nw.initiators) ∧
          nw2.transpilationDependencies = nw.transpilationDependencies ∧
          nw2.transpilationInitiators = nw.transpilationInitiators ∧
          (∀ t, AsyncDep.resolved t ∈ nw2.asyncDependencies →
            AsyncDep.resolved t ∈ nw.asyncDependencies) := by
      intro w nw2 hw
      rw [getN_modifyN] at hw
      by_cases hwx : w = x
      · rw [if_pos hwx] at hw
        rw [getN_foldl_delInit] at hw
        by_cases hwd : w ∈ deps
        · rw [if_pos hwd] at hw
          cases hg : getN g w with
          | none => rw [hg] at hw; exact Option.noConfusion hw
          | some nw =>
            rw [hg] at hw
            simp only [Option.map_some'] at hw
            injection hw with h1
            subst h1
            refine ⟨nw, rfl, ?_, ?_, ?_, ?_, ?_⟩
            · rw [if_pos hwx]
              exact (hf2 _).1
            · rw [if_pos hwd]
              exact (hf2 _).2.1
            · exact (hf2 _).2.2.1
            · exact (hf2 _).2.2.2.1
            · intro t htm
              rcases (hf2 _).2.2.2.2 with ha | ha
              · rw [ha] at htm
                exact htm
              · rw [ha] at htm
                exact absurd htm (List.not_mem_nil _)
        · rw [if_neg hwd] at hw
          cases hg : getN g w with
          | none => rw [hg] at hw; exact Option.noConfusion hw
          | some nw =>
            rw [hg] at hw
            simp only [Option.map_some'] at hw
            injection hw with h1
            subst h1
            refine ⟨nw, rfl, ?_, ?_, ?_, ?_, ?_⟩
            · rw [if_pos hwx]
              exact (hf2 _).1
            · rw [if_neg hwd]
              exact (hf2 _).2.1
            · exact (hf2 _).2.2.1
            · exact (hf2 _).2.2.2.1
            · intro t htm
              rcases (hf2 _).2.2.2.2 with ha | ha
              · rw [ha] at htm
                exact htm
              · rw [ha] at htm
                exact absurd htm (List.not_mem_nil _)
      · rw [if_neg hwx] at hw
        rw [getN_foldl_delInit] at hw
        by_cases hwd : w ∈ deps
        · rw [if_pos hwd] at hw
          cases hg : getN g w with
          | none => rw [hg] at hw; exact Option.noConfusion hw
          | some nw =>
            rw [hg] at hw
            simp only [Option.map_some'] at hw
            injection hw with h1
            subst h1
            exact ⟨nw, rfl, by rw [if_neg hwx], by rw [if_pos hwd],
              rfl, rfl, fun t htm => htm⟩
        · rw [if_neg hwd] at hw
          exact ⟨nw2, hw, by rw [if_neg hwx], by rw [if_neg hwd],
            rfl, rfl, fun t htm => htm⟩
    refine ⟨?_, ?_, ?_, ?_⟩
    · intro u v nu2 nv2 hu hv
      obtain ⟨nu, hgu, hdu, _, _, _, _⟩ := ext u nu2 hu
      obtain ⟨nv, hgv, _, hiv, _, _, _⟩ := ext v nv2 hv
      rw [hdu, hiv]
      by_cases hux : u = x
      · rw [if_pos hux]
        by_cases hvd : v ∈ deps
        · rw [if_pos hvd]
          refine iff_of_false (List.not_mem_nil v) ?_
          intro h2
          exact ((mem_lsDel nv.initiators x u).mp h2).2 hux
        · rw [if_neg hvd]
          refine iff_of_false (List.not_mem_nil v) ?_
          intro h2
          rw [hux] at h2
          have := (hd x v nx nv hx hgv).mpr h2
          rw [← hdeps2] at this
          exact hvd this
      · rw [if_neg hux]
        by_cases hvd : v ∈ deps
        · rw [if_pos hvd, mem_lsDel]
          constructor
          · intro h2
            exact ⟨(hd u v nu nv hgu hgv).mp h2, hux⟩
          · intro h2
            exact (hd u v nu nv hgu hgv).mpr h2.1
        · rw [if_neg hvd]
          exact hd u v nu nv hgu hgv
    · intro u v nu2 nv2 hu hv
      obtain ⟨nu, hgu, _, _, htdu, _, _⟩ := ext u nu2 hu
      obtain ⟨nv, hgv, _, _, _, htiv, _⟩ := ext v nv2 hv
      rw [htdu, htiv]
      exact ht u v nu nv hgu hgv
    · intro u nu2 hu
      obtain ⟨nu, hgu, hdu, hiu, htdu, htiu, hau⟩ := ext u nu2 hu
      obtain ⟨c1, c2, c3, c4, c5⟩ := hc u nu hgu
      refine ⟨fun b hb => ?_, fun b hb => ?_, fun b hb => ?_,
        fun b hb => ?_, fun t htm => ?_⟩
      · rw [hdom]
        rw [hdu] at hb
        by_cases hux : u = x
        · rw [if_pos hux] at hb
          exact absurd hb (List.not_mem_nil b)
        · rw [if_neg hux] at hb
          exact c1 b hb
      · rw [hdom]
        rw [hiu] at hb
        by_cases hud : u ∈ deps
        · rw [if_pos hud] at hb
          exact c2 b ((mem_lsDel nu.initiators x b).mp hb).1
        · rw [if_neg hud] at hb
          exact c2 b hb
      · rw [hdom]
        rw [htdu] at hb
        exact c3 b hb
      · rw [hdom]
        rw [htiu] at hb
        exact c4 b hb
      · rw [hdom]
        exact c5 t (hau t htm)
    · unfold KeysOk
      rw [hkeys]
      exact hk


theorem resetTranspilation_allOff (fuel : Nat) (g : Graph) (x : NodeId)
    (h : allOff g) : allOff (resetTranspilation fuel g x) :=
  allOff_of_hmr_eq g _ (fun y => resetTranspilation_hmr fuel g x y) h

theorem resetCompilation_allOff (fuel : Nat) (g : Graph) (x : NodeId)
    (h : allOff g) : allOff (resetCompilation fuel g x) :=
  allOff_of_hmr_eq g _ (fun y => resetCompilation_hmr fuel g x y) h

theorem resetCompilation_GInv (fuel : Nat) (g : Graph) (x : NodeId)
    (h : GInv g) : GInv (resetCompilation fuel g x) :=
  GInv_of_edges_eq g _ (resetCompilation_keys fuel g x)
    (fun y => resetCompilation_edges fuel g x y) h

theorem resetTranspilation_GInv (fuel : Nat) :
    ∀ (g : Graph) (x : NodeId), allOff g → GInv g →
      GInv (resetTranspilation fuel g x) := by
  induction fuel with
  | zero => intro g x hOff hG; exact hG
  | succ fuel ih =>
    intro g x hOff hG
    cases hx : getN g x with
    | none => simpa [resetTranspilation, hx] using hG
    | some n =>
      have hmr : n.hmrEnabled = Hmr.off := hOff x n hx
      simp only [resetTranspilation, hx, hmr, if_pos]
      have hP1 := foldl_pres (fun g2 => allOff g2 ∧ GInv g2)
        (fun acc t => resetTranspilation fuel acc t)
        (fun b t hb => ⟨resetTranspilation_allOff fuel b t hb.1,
          ih b t hb.1 hb.2⟩)
        (n.transpilationInitiators.filter (fun t => srcSet g t)) g
        ⟨hOff, hG⟩
      have hG2 := GInv_modifyN_keep _ x
        (fun m => { m with source := none, errors := [], warnings := [] })
        (fun m => ⟨rfl, rfl, rfl, rfl, rfl⟩) hP1.2
      exact GInv_clearDeps _ x
        (fun m => { m with dependencies := [], asyncDependencies := [] })
        (fun m => ⟨rfl, rfl, rfl, rfl, Or.inr rfl⟩) _ rfl hG2

theorem reset_GInv (fuel : Nat) :
    ∀ (g : Graph) (x : NodeId), allOff g → GInv g →
      allOff (reset fuel g x) ∧ GInv (reset fuel g x) := by
  induction fuel with
  | zero => intro g x hOff hG; exact ⟨hOff, hG⟩
  | succ fuel ih =>
    intro g x hOff hG
    cases hx : getN g x with
    | none => simp only [reset, hx]; exact ⟨hOff, hG⟩
    | some n =>
      simp only [reset, hx]
      have h1 := foldl_pres (fun g2 => allOff g2 ∧ GInv g2)
        (fun acc c => reset fuel acc c)
        (fun b t hb => ih b t hb.1 hb.2) n.childModules g ⟨hOff, hG⟩
      have h2 : allOff (modifyN (n.childModules.foldl
          (fun acc c => reset fuel acc c) g) x (fun m =>
          { m with childModules := [], emittedAssets := [] })) ∧
          GInv (modifyN (n.childModules.foldl
          (fun acc c => reset fuel acc c) g) x (fun m =>
          { m with childModules := [], emittedAssets := [] })) :=
        ⟨allOff_modifyN_keep _ _ _ (fun m => rfl) h1.1,
         GInv_modifyN_keep _ _ _ (fun m => ⟨rfl, rfl, rfl, rfl, rfl⟩) h1.2⟩
      have h3 : allOff (resetCompilation (fuel+1) (modifyN
          (n.childModules.foldl (fun acc c => reset fuel acc c) g) x
          (fun m => { m with childModules := [], emittedAssets := [] })) x) ∧
          GInv (resetCompilation (fuel+1) (modifyN
          (n.childModules.foldl (fun acc c => reset fuel acc c) g) x
          (fun m => { m with childModules := [], emittedAssets := [] })) x) :=
        ⟨resetCompilation_allOff _ _ _ h2.1, resetCompilation_GInv _ _ _ h2.2⟩
      have h4 := And.intro
        (resetTranspilation_allOff (fuel+1) _ x h3.1)
        (resetTranspilation_GInv (fuel+1) _ x h3.1 h3.2)
      exact ⟨allOff_modifyN_keep _ _ _ (fun m => rfl) h4.1,
        GInv_modifyN_keep _ _ _ (fun m => ⟨rfl, rfl, rfl, rfl, rfl⟩) h4.2⟩

theorem update_GInv (fuel : Nat) (g : Graph) (x : NodeId) (m : Module)
    (hOff : allOff g) (hG : GInv g) : GInv (update fuel g x m) := by
  cases hx : getN g x with
  | none => simp only [update, hx]; exact hG
  | some n =>
    simp only [update, hx]
    exact (reset_GInv fuel (modifyN g x (fun n2 => { n2 with module := m })) x
      (allOff_modifyN_keep g x (fun n2 => { n2 with module := m })
        (fun m2 => rfl) hOff)
      (GInv_modifyN_keep g x (fun n2 => { n2 with module := m })
        (fun m2 => ⟨rfl, rfl, rfl, rfl, rfl⟩) hG)).2


theorem resetTranspilation_SInv (fuel : Nat) (env : Env) (g : Graph)
    (x : NodeId) (h : SInv env g) :
    SInv env (resetTranspilation fuel g x) :=
  ⟨resetTranspilation_GInv fuel g x h.2.1 h.1,
   resetTranspilation_allOff fuel g x h.2.1,
   EnvValid_mono env g _
     (fun y hy => by rw [resetTranspilation_hasN]; exact hy) h.2.2⟩

theorem addDependency_SInv (env : Env) (g : Graph) (self : NodeId)
    (dp : String) (abs : Bool) (h : SInv env g) :
    SInv env (addDependency env g self dp abs) :=
  ⟨addDependency_GInv env g self dp abs h.2.2 h.1,
   addDependency_allOff env g self dp abs h.2.1,
   EnvValid_mono env g _
     (fun y hy => by rw [addDependency_hasN]; exact hy) h.2.2⟩

theorem GInv_clearDeps2 (g : Graph) (x : NodeId) (n : TMNode)
    (hx : getN g x = some n) (h : GInv g) :
    GInv (modifyN (n.dependencies.foldl (fun acc t => modifyN acc t (fun m =>
      { m with initiators := lsDel m.initiators x })) g) x (fun m =>
      { m with dependencies := [], errors := [], warnings := [] })) :=
  GInv_clearDeps g x
    (fun m => { m with dependencies := [], errors := [], warnings := [] })
    (fun m => ⟨rfl, rfl, rfl, rfl, Or.inl rfl⟩)
    n.dependencies (by rw [hx]; rfl) h

theorem clearDeps2_SInv (env : Env) (g : Graph) (x : NodeId) (n : TMNode)
    (hx : getN g x = some n) (h : SInv env g) :
    SInv env (modifyN (n.dependencies.foldl (fun acc t => modifyN acc t
      (fun m => { m with initiators := lsDel m.initiators x })) g) x (fun m =>
      { m with dependencies := [], errors := [], warnings := [] })) := by
  refine ⟨GInv_clearDeps2 g x n hx h.1, ?_, ?_⟩
  · refine allOff_modifyN_keep _ _ _ (fun m => rfl) ?_
    refine foldl_pres allOff _ ?_ _ _ h.2.1
    intro b t hb
    exact allOff_modifyN_keep _ _ _ (fun m => rfl) hb
  · refine EnvValid_mono env g _ ?_ h.2.2
    intro y hy
    rw [clearDeps_hasN]
    exact hy

theorem asyncFold_pres_mem (x : NodeId) (P : Graph → Prop)
    (l : List AsyncDep)
    (hadd : ∀ g t, AsyncDep.resolved t ∈ l → P g → P (addDepEdge g x t)) :
    ∀ g, P g → P (l.foldl (fun acc d =>
      match d with
      | AsyncDep.resolved t => addDepEdge acc x t
      | AsyncDep.rejected => acc) g) := by
  induction l with
  | nil => intro g hp; exact hp
  | cons d rest ih =>
    intro g hp
    rw [List.foldl_cons]
    refine ih (fun g2 t ht hp2 =>
      hadd g2 t (List.mem_cons_of_mem d ht) hp2) _ ?_
    cases d with
    | resolved t => exact hadd g t (List.mem_cons_self ..) hp
    | rejected => exact hp

theorem transpileAsyncStage_SInv (env : Env) (gf : Graph) (x : NodeId)
    (path code : String) (sm : Option String) (h : SInv env gf) :
    SInv env (transpileAsyncStage gf x path code sm) := by
  simp only [transpileAsyncStage]
  have hgs : SInv env (modifyN gf x (fun m =>
      { m with source := some ⟨path, code ++ "\n//# sourceURL=" ++
        locationOrigin ++ path, sm⟩ })) :=
    ⟨GInv_modifyN_keep _ _ _ (fun m => ⟨rfl, rfl, rfl, rfl, rfl⟩) h.1,
     allOff_modifyN_keep _ _ _ (fun m => rfl) h.2.1,
     EnvValid_mono env gf _ (fun y hy => by rw [hasN_modifyN]; exact hy)
       h.2.2⟩
  set gs := modifyN gf x (fun m =>
    { m with source := some ⟨path, code ++ "\n//# sourceURL=" ++
      locationOrigin ++ path, sm⟩ }) with hgsdef
  have hfold : SInv env (((((getN gs x).map
      (fun m => m.asyncDependencies))).getD []).foldl (fun acc d =>
      match d with
      | AsyncDep.resolved t => addDepEdge acc x t
      | AsyncDep.rejected => acc) gs) ∧
      (∀ y, hasN (((((getN gs x).map
        (fun m => m.asyncDependencies))).getD []).foldl (fun acc d =>
        match d with
        | AsyncDep.resolved t => addDepEdge acc x t
        | AsyncDep.rejected => acc) gs) y = hasN gs y) := by
    refine asyncFold_pres_mem x (fun g2 => SInv env g2 ∧
      (∀ y, hasN g2 y = hasN gs y)) _ ?_ gs ⟨hgs, fun y => rfl⟩
    intro g2 t ht hp
    cases hgx : getN gs x with
    | none =>
      rw [hgx] at ht
      exact absurd ht (List.not_mem_nil _)
    | some nx =>
      rw [hgx] at ht
      have htn : hasN gs t = true :=
        (hgs.1.2.2.1 x nx hgx).2.2.2.2 t ht
      refine ⟨⟨addDepEdge_GInv g2 x t ?_ ?_ hp.1.1, ?_, ?_⟩, ?_⟩
      · rw [hp.2, hasN, hgx]
        rfl
      · rw [hp.2]
        exact htn
      · simp only [addDepEdge]
        exact allOff_modifyN_keep _ _ _ (fun m => rfl)
          (allOff_modifyN_keep _ _ _ (fun m => rfl) hp.1.2.1)
      · refine EnvValid_mono env g2 _ ?_ hp.1.2.2
        intro y hy
        rw [addDepEdge_hasN]
        exact hy
      · intro y
        rw [addDepEdge_hasN]
        exact hp.2 y
  exact ⟨GInv_modifyN_gen _ _ _ (fun m => ⟨rfl, rfl, rfl, rfl⟩)
      (fun m t _ htm => absurd htm (List.not_mem_nil _)) hfold.1.1,
    allOff_modifyN_keep _ _ _ (fun m => rfl) hfold.1.2.1,
    EnvValid_mono env _ _ (fun y hy => by rw [hasN_modifyN]; exact hy)
      hfold.1.2.2⟩

theorem transpileFinish_SInv (env : Env) (rec : Graph → NodeId → TranspileRes)
    (hrec : ∀ g t, SInv env g → SInv env (rec g t).g)
    (gf : Graph) (x : NodeId) (path code : String) (sm : Option String)
    (w : Nat) (h : SInv env gf) :
    SInv env (transpileFinish rec gf x path code sm w).g := by
  simp only [transpileFinish]
  apply fanout_pres rec (SInv env) hrec
  exact transpileAsyncStage_SInv env gf x path code sm h

theorem transpile_SInv (fuel : Nat) :
    ∀ (env : Env) (g : Graph) (x : NodeId), SInv env g →
      SInv env (transpile fuel env g x).g := by
  induction fuel with
  | zero => intro env g x h; exact h
  | succ fuel ih =>
    intro env g x h
    cases hx : getN g x with
    | none => simp only [transpile, hx]; exact h
    | some n =>
      by_cases hs : n.source.isSome = true
      · simp only [transpile, hx, hs, ite_true]; exact h
      · have hg2 := clearDeps2_SInv env g x n hx h
        cases hrq : n.module.requires with
        | some reqs =>
          simp only [transpile, hx, hs, hrq, Bool.false_eq_true, ite_false]
          apply transpileFinish_SInv env _ (fun g2 t h2 => ih env g2 t h2)
          exact foldl_pres (SInv env)
            (fun acc r => addDependency env acc x r false)
            (fun b t hb => addDependency_SInv env b x t false hb) reqs _ hg2
        | none =>
          cases hrc : runChain env x (modifyN (n.dependencies.foldl
              (fun acc t => modifyN acc t (fun m =>
                { m with initiators := lsDel m.initiators x })) g) x
              (fun m =>
                { m with dependencies := [], errors := [], warnings := [] }))
              n.module.code none (env.steps x) with
          | mk g3 p2 =>
            have hg3 : SInv env g3 := by
              have h2 := runChain_SInv env x (env.steps x)
                (modifyN (n.dependencies.foldl
                  (fun acc t => modifyN acc t (fun m =>
                    { m with initiators := lsDel m.initiators x })) g) x
                  (fun m =>
                    { m with dependencies := [], errors := [], warnings := [] })) n.module.code none hg2
              rw [hrc] at h2
              exact h2
            cases p2 with
            | mk w2 res =>
              cases res with
              | error e =>
                simp only [transpile, hx, hs, hrq, hrc, Bool.false_eq_true,
                  ite_false]
                exact resetTranspilation_SInv fuel env g3 x hg3
              | ok pcs =>
                cases pcs with
                | mk code sm =>
                  simp only [transpile, hx, hs, hrq, hrc, Bool.false_eq_true,
                    ite_false]
                  apply transpileFinish_SInv env _
                    (fun g2 t h2 => ih env g2 t h2)
                  exact hg3


theorem edgesEq_trans (g1 g2 g3 : Graph)
    (h12 : g2.map Prod.fst = g1.map Prod.fst ∧
      ∀ y, (getN g2 y).map edgeProj = (getN g1 y).map edgeProj)
    (h23 : g3.map Prod.fst = g2.map Prod.fst ∧
      ∀ y, (getN g3 y).map edgeProj = (getN g2 y).map edgeProj) :
    g3.map Prod.fst = g1.map Prod.fst ∧
      ∀ y, (getN g3 y).map edgeProj = (getN g1 y).map edgeProj :=
  ⟨h23.1.trans h12.1, fun y => (h23.2 y).trans (h12.2 y)⟩

theorem edgesEq_modifyN (g : Graph) (x : NodeId) (f : TMNode → TMNode)
    (hf : ∀ m, edgeProj (f m) = edgeProj m) :
    (modifyN g x f).map Prod.fst = g.map Prod.fst ∧
      ∀ y, (getN (modifyN g x f) y).map edgeProj =
        (getN g y).map edgeProj :=
  ⟨modifyN_keys g x f, fun y => getN_map_modifyN edgeProj g x f hf y⟩

theorem runInstrs_edges (env : Env)
    (req : String → EvalState → EvalState × Except TError Exports)
    (self : NodeId)
    (hreq : ∀ spec st, (req spec st).1.g.map Prod.fst = st.g.map Prod.fst ∧
      ∀ y, (getN (req spec st).1.g y).map edgeProj =
        (getN st.g y).map edgeProj) :
    ∀ (instrs : List Instr) (s : EvalState),
      (runInstrs env req self s instrs).1.g.map Prod.fst =
        s.g.map Prod.fst ∧
      ∀ y, (getN (runInstrs env req self s instrs).1.g y).map edgeProj =
        (getN s.g y).map edgeProj := by
  intro instrs
  induction instrs with
  | nil => intro s; exact ⟨rfl, fun y => rfl⟩
  | cons i rest ih =>
    intro s
    cases i with
    | setExport k v =>
      rw [runInstrs]
      refine edgesEq_trans s.g (modifyN s.g self (fun n =>
        { n with compilation := n.compilation.map (fun c =>
            (⟨setKV c.exports k v⟩ : Compilation)) })) _
        (edgesEq_modifyN _ _ _ (fun m => rfl)) (ih _)
    | requireInto k sp f =>
      rw [runInstrs]
      cases hr : req sp s with
      | mk s1 r =>
        have h1 := hreq sp s
        rw [hr] at h1
        cases r with
        | error e => exact h1
        | ok ex =>
          dsimp only
          refine edgesEq_trans s.g s1.g _ h1 ?_
          refine edgesEq_trans s1.g (modifyN s1.g self (fun n =>
            { n with compilation := n.compilation.map (fun c =>
                (⟨setKV c.exports k ((((ex.find? (fun p =>
                  p.1 = f)).map Prod.snd)).getD 0)⟩ : Compilation)) })) _
            (edgesEq_modifyN _ _ _ (fun m => rfl)) (ih _)
    | requireDiscard sp =>
      rw [runInstrs]
      cases hr : req sp s with
      | mk s1 r =>
        have h1 := hreq sp s
        rw [hr] at h1
        cases r with
        | error e => exact h1
        | ok ex => exact edgesEq_trans s.g s1.g _ h1 (ih s1)
    | acceptSelf =>
      rw [runInstrs]
      refine edgesEq_trans s.g (modifyN s.g self (fun n =>
        { n with hmrEnabled := Hmr.selfAccept })) _
        (edgesEq_modifyN _ _ _ (fun m => rfl)) (ih _)
    | acceptPath p =>
      rw [runInstrs]
      cases hs : getN s.g self with
      | none => exact ⟨rfl, fun y => rfl⟩
      | some n =>
        dsimp only
        cases hr : env.resolve p n.module.path with
        | found t =>
          dsimp only
          refine edgesEq_trans s.g (modifyN s.g t (fun m =>
            { m with hmrEnabled := Hmr.callback })) _
            (edgesEq_modifyN _ _ _ (fun m => rfl)) (ih _)
        | notFoundDependency pk => exact ⟨rfl, fun y => rfl⟩
        | otherError m => exact ⟨rfl, fun y => rfl⟩
    | throwErr m => exact ⟨rfl, fun y => rfl⟩

theorem evaluate_edges :
    ∀ (fuel : Nat) (env : Env) (s : EvalState) (y : NodeId)
      (parents : List NodeId),
      (evaluate fuel env s y parents).1.g.map Prod.fst =
        s.g.map Prod.fst ∧
      ∀ z, (getN (evaluate fuel env s y parents).1.g z).map edgeProj =
        (getN s.g z).map edgeProj := by
  intro fuel
  induction fuel with
  | zero => intro env s y parents; exact ⟨rfl, fun z => rfl⟩
  | succ fuel ih =>
    intro env s y parents
    rw [evaluate]
    cases hy : getN s.g y with
    | none => exact ⟨rfl, fun z => rfl⟩
    | some n =>
      dsimp only
      cases hsrc : n.source with
      | none => exact ⟨rfl, fun z => rfl⟩
      | some src =>
        dsimp only
        by_cases hguard : (s.webpackHMR && n.compilation.isNone &&
            n.isEntry && decide (n.hmrEnabled = Hmr.off)) = true
        · rw [if_pos hguard]
          exact ⟨rfl, fun z => rfl⟩
        · rw [if_neg hguard]
          by_cases hcached : (n.compilation.isSome && !n.changed) = true
          · rw [if_pos hcached]
            exact ⟨rfl, fun z => rfl⟩
          · rw [if_neg hcached]
            have h1 := edgesEq_modifyN s.g y (fun m =>
              { m with compilation := some (n.compilation.getD ⟨[]⟩) })
              (fun m => rfl)
            have hreq : ∀ spec st,
                ((fun spec st =>
                  let aliasedPath := env.aliasOf spec
                  if bareSpec aliasedPath && !(aliasedPath.contains '!') &&
                      (aliasedPath.startsWith "babel-runtime" ||
                       aliasedPath.startsWith "codesandbox-api") then
                    (st, Except.ok (env.externalVal aliasedPath))
                  else
                    match env.resolve aliasedPath n.module.path with
                    | Resolution.found t =>
                      match getN st.g t with
                      | none => (st, Except.error
                          ⟨"unknown module", none, none⟩)
                      | some tn =>
                        if tn.module = n.module then
                          (st, Except.error ⟨n.module.path ++
                            " is importing itself", none, none⟩)
                        else evaluate fuel env st t (parents ++ [y])
                    | Resolution.notFoundDependency pk =>
                      (st, Except.error
                        ⟨"module-not-found " ++ pk, none, none⟩)
                    | Resolution.otherError m =>
                      (st, Except.error ⟨m, none, none⟩)) spec st).1.g.map
                      Prod.fst = st.g.map Prod.fst ∧
                ∀ z, (getN ((fun spec st =>
                  let aliasedPath := env.aliasOf spec
                  if bareSpec aliasedPath && !(aliasedPath.contains '!') &&
                      (aliasedPath.startsWith "babel-runtime" ||
                       aliasedPath.startsWith "codesandbox-api") then
                    (st, Except.ok (env.externalVal aliasedPath))
                  else
                    match env.resolve aliasedPath n.module.path with
                    | Resolution.found t =>
                      match getN st.g t with
                      | none => (st, Except.error
                          ⟨"unknown module", none, none⟩)
                      | some tn =>
                        if tn.module = n.module then
                          (st, Except.error ⟨n.module.path ++
                            " is importing itself", none, none⟩)
                        else evaluate fuel env st t (parents ++ [y])
                    | Resolution.notFoundDependency pk =>
                      (st, Except.error
                        ⟨"module-not-found " ++ pk, none, none⟩)
                    | Resolution.otherError m =>
                      (st, Except.error ⟨m, none, none⟩)) spec st).1.g z).map
                        edgeProj = (getN st.g z).map edgeProj := by
              intro spec st
              dsimp only
              by_cases hb : (bareSpec (env.aliasOf spec) &&
                  !((env.aliasOf spec).contains '!') &&
                  ((env.aliasOf spec).startsWith "babel-runtime" ||
                   (env.aliasOf spec).startsWith "codesandbox-api")) = true
              · rw [if_pos hb]; exact ⟨rfl, fun z => rfl⟩
              · rw [if_neg hb]
                cases hres : env.resolve (env.aliasOf spec)
                    n.module.path with
                | found t =>
                  dsimp only
                  cases hg : getN st.g t with
                  | none => exact ⟨rfl, fun z => rfl⟩
                  | some tn =>
                    dsimp only
                    by_cases hm2 : tn.module = n.module
                    · rw [if_pos hm2]; exact ⟨rfl, fun z => rfl⟩
                    · rw [if_neg hm2]
                      exact ih env st t (parents ++ [y])
                | notFoundDependency pk => exact ⟨rfl, fun z => rfl⟩
                | otherError m => exact ⟨rfl, fun z => rfl⟩
            have h2 := runInstrs_edges env _ y hreq
              (env.sem src.compiledCode)
              { s with g := modifyN s.g y (fun m => { m with compilation := some (n.compilation.getD ⟨[]⟩) }), evalWork := s.evalWork + 1 }
            split
            · rename_i s2 e0 heq
              rw [heq] at h2
              exact edgesEq_trans _ _ _ h1 h2
            · rename_i s2 u heq
              rw [heq] at h2
              exact edgesEq_trans _ _ _ h1 h2

theorem evaluate_GInv (fuel : Nat) (env : Env) (s : EvalState) (y : NodeId)
    (parents : List NodeId) (h : GInv s.g) :
    GInv (evaluate fuel env s y parents).1.g :=
  GInv_of_edges_eq s.g _ (evaluate_edges fuel env s y parents).1
    (evaluate_edges fuel env s y parents).2 h


theorem load_eq (g : Graph) (x : NodeId) (data : SerializedTranspiledModule)
    (state : List NodeId) :
    load g x data state = modifyN g x (loadF data state) := rfl

theorem mem_foldl_lsAdd (y : NodeId) :
    ∀ (l2 l1 : List NodeId), y ∈ l2.foldl lsAdd l1 ↔ (y ∈ l1 ∨ y ∈ l2) := by
  intro l2
  induction l2 with
  | nil => intro l1; simp
  | cons a t ih =>
    intro l1
    rw [List.foldl_cons, ih, mem_lsAdd]
    constructor
    · rintro ((h | h) | h)
      · exact Or.inl h
      · exact Or.inr (h ▸ List.mem_cons_self ..)
      · exact Or.inr (List.mem_cons_of_mem a h)
    · rintro (h | h)
      · exact Or.inl (Or.inl h)
      · rcases List.mem_cons.mp h with h2 | h2
        · exact Or.inl (Or.inr h2)
        · exact Or.inr h2

theorem map_pair_keys {α β : Type} (f : NodeId × α → β) :
    ∀ (l : List (NodeId × α)),
      (l.map (fun p => (p.1, f p))).map Prod.fst = l.map Prod.fst := by
  intro l
  induction l with
  | nil => rfl
  | cons p t ih => simp only [List.map_cons, ih]

theorem serializeGraph_keys (g : Graph) :
    (serializeGraph g).map Prod.fst = g.map Prod.fst :=
  map_pair_keys (fun p => serializeSettled p.2) g

theorem serializeGraph_mem (g : Graph) (x : NodeId) (n : TMNode)
    (h : getN g x = some n) :
    (x, serializeSettled n) ∈ serializeGraph g := by
  have hm := getN_mem g x n h
  exact List.mem_map.mpr ⟨(x, n), hm, rfl⟩

theorem getN_map_pair (f : NodeId × SerializedTranspiledModule → TMNode) :
    ∀ (blob : List (NodeId × SerializedTranspiledModule)) (x : NodeId)
      (d : SerializedTranspiledModule), (blob.map Prod.fst).Nodup →
      (x, d) ∈ blob →
      getN (blob.map (fun p => (p.1, f p))) x = some (f (x, d)) := by
  intro blob
  induction blob with
  | nil => intro x d hn hm; exact absurd hm (List.not_mem_nil _)
  | cons p rest ih =>
    intro x d hn hm
    rw [List.map_cons, List.nodup_cons] at hn
    rw [List.map_cons, getN_cons]
    rcases List.mem_cons.mp hm with heq | hmem
    · rw [if_pos (by rw [← heq])]
      rw [← heq]
    · have hx : x ∈ rest.map Prod.fst :=
        List.mem_map.mpr ⟨(x, d), hmem, rfl⟩
      have hne : p.1 ≠ x := by
        intro he
        refine hn.1 ?_
        rw [he]
        exact hx
      rw [if_neg hne]
      exact ih x d hn.2 hmem

theorem getN_out_keys :
    ∀ (g : Graph) (y : NodeId), y ∉ g.map Prod.fst → getN g y = none := by
  intro g
  induction g with
  | nil => intro y h; rfl
  | cons p t ih =>
    intro y h
    rw [getN_cons]
    rw [List.map_cons] at h
    rw [if_neg (fun he => h (by rw [← he]; exact List.mem_cons_self ..))]
    exact ih y (fun h2 => h (List.mem_cons_of_mem _ h2))

theorem foldl_load_out (ids : List NodeId) :
    ∀ (blob : List (NodeId × SerializedTranspiledModule)) (g0 : Graph)
      (y : NodeId), y ∉ blob.map Prod.fst →
      getN (blob.foldl (fun g p => load g p.1 p.2 ids) g0) y = getN g0 y := by
  intro blob
  induction blob with
  | nil => intro g0 y h; rfl
  | cons p rest ih =>
    intro g0 y h
    rw [List.map_cons] at h
    rw [List.foldl_cons, ih _ y (fun h2 => h (List.mem_cons_of_mem _ h2))]
    rw [load_eq, getN_modifyN_ne]
    intro he
    exact h (by rw [he]; exact List.mem_cons_self ..)

theorem foldl_load_in (ids : List NodeId) :
    ∀ (blob : List (NodeId × SerializedTranspiledModule)) (g0 : Graph)
      (x : NodeId) (d : SerializedTranspiledModule),
      (blob.map Prod.fst).Nodup → (x, d) ∈ blob →
      getN (blob.foldl (fun g p => load g p.1 p.2 ids) g0) x =
        (getN g0 x).map (loadF d ids) := by
  intro blob
  induction blob with
  | nil => intro g0 x d hn hm; exact absurd hm (List.not_mem_nil _)
  | cons p rest ih =>
    intro g0 x d hn hm
    rw [List.map_cons, List.nodup_cons] at hn
    rw [List.foldl_cons]
    rcases List.mem_cons.mp hm with heq | hmem
    · have hx1 : p.1 = x := by rw [← heq]
      have hout : x ∉ rest.map Prod.fst := by
        rw [← hx1]
        exact hn.1
      rw [foldl_load_out ids rest _ x hout]
      rw [load_eq]
      have hp2 : p.2 = d := by rw [← heq]
      rw [hx1, hp2, getN_modifyN_self]
    · have hx : x ∈ rest.map Prod.fst :=
        List.mem_map.mpr ⟨(x, d), hmem, rfl⟩
      have hne : x ≠ p.1 := fun he => hn.1 (he ▸ hx)
      rw [ih _ x d hn.2 hmem, load_eq, getN_modifyN_ne _ _ _ _ hne]

theorem foldl_keys_any {α : Type} (step : Graph → α → Graph)
    (hstep : ∀ h t, (step h t).map Prod.fst = h.map Prod.fst) :
    ∀ (l : List α) (h : Graph),
      (l.foldl step h).map Prod.fst = h.map Prod.fst := by
  intro l
  induction l with
  | nil => intro h; rfl
  | cons t rest ih => intro h; rw [List.foldl_cons, ih, hstep]

theorem roundTrip_keys (g : Graph) :
    (roundTrip g).map Prod.fst = g.map Prod.fst := by
  simp only [roundTrip, deserialize]
  rw [foldl_keys_any _ (fun h p => by rw [load_eq, modifyN_keys])]
  rw [map_pair_keys, serializeGraph_keys]

theorem roundTrip_getN (g : Graph) (hk : KeysOk g) (x : NodeId) (n : TMNode)
    (hx : getN g x = some n) :
    getN (roundTrip g) x = some (loadF (serializeSettled n)
      ((serializeGraph g).map Prod.fst)
      { module := (serializeSettled n).module,
        query := (serializeSettled n).query }) := by
  simp only [roundTrip, deserialize]
  have hnodup : ((serializeGraph g).map Prod.fst).Nodup := by
    rw [serializeGraph_keys]
    exact hk
  have hmem := serializeGraph_mem g x n hx
  rw [foldl_load_in _ _ _ x (serializeSettled n) hnodup hmem]
  rw [getN_map_pair (fun p => { module := p.2.module, query := p.2.query })
    _ x (serializeSettled n) hnodup hmem]
  rfl

theorem roundTrip_DepSym (g : Graph) (h : GInv g) : DepSym (roundTrip g) := by
  obtain ⟨hd, _, _, hk⟩ := h
  intro a b na2 nb2 ha hb
  have hdom : ∀ y, hasN (roundTrip g) y = hasN g y := by
    intro y
    rw [hasN_eq_contains, hasN_eq_contains, roundTrip_keys]
  have hga : ∃ na, getN g a = some na := by
    have h2 : hasN g a = true := by
      rw [← hdom, hasN, ha]
      rfl
    rw [hasN] at h2
    cases hg : getN g a with
    | none => rw [hg] at h2; exact Bool.noConfusion h2
    | some na => exact ⟨na, rfl⟩
  have hgb : ∃ nb, getN g b = some nb := by
    have h2 : hasN g b = true := by
      rw [← hdom, hasN, hb]
      rfl
    rw [hasN] at h2
    cases hg : getN g b with
    | none => rw [hg] at h2; exact Bool.noConfusion h2
    | some nb => exact ⟨nb, rfl⟩
  obtain ⟨na, hna⟩ := hga
  obtain ⟨nb, hnb⟩ := hgb
  have ha2 := roundTrip_getN g hk a na hna
  have hb2 := roundTrip_getN g hk b nb hnb
  rw [ha] at ha2
  rw [hb] at hb2
  injection ha2 with ha3
  injection hb2 with hb3
  have hcontA : ((serializeGraph g).map Prod.fst).contains a = true := by
    rw [serializeGraph_keys, ← hasN_eq_contains, hasN, hna]
    rfl
  have hcontB : ((serializeGraph g).map Prod.fst).contains b = true := by
    rw [serializeGraph_keys, ← hasN_eq_contains, hasN, hnb]
    rfl
  have hdepA : b ∈ na2.dependencies ↔ b ∈ na.dependencies := by
    rw [ha3]
    show b ∈ ((((serializeSettled na).dependencies.filter (fun d =>
      ((serializeGraph g).map Prod.fst).contains d))).foldl lsAdd []) ↔ _
    rw [mem_foldl_lsAdd]
    constructor
    · rintro (h2 | h2)
      · exact absurd h2 (List.not_mem_nil b)
      · exact (List.mem_filter.mp h2).1
    · intro h2
      refine Or.inr (List.mem_filter.mpr ⟨h2, hcontB⟩)
  have hinitB : a ∈ nb2.initiators ↔ a ∈ nb.initiators := by
    rw [hb3]
    show a ∈ ((((serializeSettled nb).initiators.filter (fun d =>
      ((serializeGraph g).map Prod.fst).contains d))).foldl lsAdd []) ↔ _
    rw [mem_foldl_lsAdd]
    constructor
    · rintro (h2 | h2)
      · exact absurd h2 (List.not_mem_nil a)
      · exact (List.mem_filter.mp h2).1
    · intro h2
      refine Or.inr (List.mem_filter.mpr ⟨h2, hcontA⟩)
  rw [hdepA, hinitB]
  exact hd a b na nb hna hnb


/-- C1 (counterexample): the compile-time edge pair of gC1 is symmetric,
but after the serializer round trip (deserialization via load) the
/q.js node has lost its transpilationInitiators while /p.js still lists
it as a transpilationDependency, so the symmetry named by the claim does
not survive load. -/
theorem c1_edge_symmetry_counterexample :
    TranspSym gC1 ∧
    ((getN (roundTrip gC1) "/p.js:").map
      (fun m => m.transpilationDependencies)) = some ["/q.js:"] ∧
    ((getN (roundTrip gC1) "/q.js:").map
      (fun m => m.transpilationInitiators)) = some [] ∧
    ¬TranspSym (roundTrip gC1) := by
  have h1 : ((getN (roundTrip gC1) "/p.js:").map
      (fun m => m.transpilationDependencies)) = some ["/q.js:"] := by decide
  have h2 : ((getN (roundTrip gC1) "/q.js:").map
      (fun m => m.transpilationInitiators)) = some [] := by decide
  refine ⟨TranspSym_of_B gC1 (by decide), h1, h2, ?_⟩
  intro h
  cases hp : getN (roundTrip gC1) "/p.js:" with
  | none => rw [hp] at h1; exact Option.noConfusion h1
  | some np =>
    cases hq : getN (roundTrip gC1) "/q.js:" with
    | none => rw [hq] at h2; exact Option.noConfusion h2
    | some nq =>
      rw [hp] at h1
      rw [hq] at h2
      injection h1 with h1b
      injection h2 with h2b
      have h1c : np.transpilationDependencies = ["/q.js:"] := h1b
      have h2c : nq.transpilationInitiators = [] := h2b
      have h3 := (h "/p.js:" "/q.js:" np nq hp hq).mp
        (by rw [h1c]; exact List.mem_cons_self ..)
      rw [h2c] at h3
      exact absurd h3 (List.not_mem_nil _)

/-- C1 (amended): on a graph whose nodes are not HMR-accepting and whose
resolver oracle only names nodes the graph holds, every public operation
of the claim (transpile, evaluate, reset, resetTranspilation,
resetCompilation, update and the loader-context linking operations)
preserves the full well-formedness bundle: both edge-pair symmetries,
closedness of every edge, and uniqueness of the ids.  Deserialization
via load restores a symmetric runtime edge pair; the compile-time pair
is lost there (the counterexample), so only the runtime half of the
symmetry survives the round trip. -/
theorem c1_amended_edge_symmetry :
    (∀ (fuel : Nat) (env : Env) (g : Graph) (op : PublicOp),
      EnvValid env g → allOff g → GInv g → GInv (applyOp fuel env g op)) ∧
    (∀ g : Graph, GInv g → DepSym (roundTrip g)) := by
  constructor
  · intro fuel env g op hEV hOff hG
    cases op with
    | transpileOp x => exact (transpile_SInv fuel env g x ⟨hG, hOff, hEV⟩).1
    | evaluateOp x parents flag =>
      exact evaluate_GInv fuel env { g := g, webpackHMR := flag } x
        parents hG
    | resetOp x => exact (reset_GInv fuel g x hOff hG).2
    | resetTranspilationOp x =>
      exact resetTranspilation_GInv fuel g x hOff hG
    | resetCompilationOp x => exact resetCompilation_GInv fuel g x hG
    | updateOp x m => exact update_GInv fuel g x m hOff hG
    | emitModuleOp self p c d => exact emitModule_GInv g self p c d hG
    | addDependencyOp self dep abs =>
      exact addDependency_GInv env g self dep abs hEV hG
    | addTranspilationDependencyOp self dep abs =>
      exact addTranspilationDependency_GInv env g self dep abs hEV hG
    | addDependenciesInDirectoryOp self dir abs =>
      exact addDependenciesInDirectory_GInv env g self dir abs hEV hG
  · exact fun g hG => roundTrip_DepSym g hG

theorem c1_amended_edge_symmetry_witness :
    GInv (applyOp 3 envTriv gC1 (PublicOp.resetTranspilationOp "/p.js:")) ∧
    DepSym (roundTrip gC1) :=
  ⟨c1_amended_edge_symmetry.1 3 envTriv gC1
    (PublicOp.resetTranspilationOp "/p.js:")
    ⟨fun s f t h2 => Resolution.noConfusion h2,
     fun d f t ht => absurd ht (List.not_mem_nil t),
     fun p f t h2 => AsyncDep.noConfusion h2⟩
    (allOff_of_B gC1 (by decide))
    ⟨DepSym_of_B gC1 (by decide), TranspSym_of_B gC1 (by decide),
     Closed_of_B gC1 (by decide),
     show (gC1.map Prod.fst).Nodup by decide⟩,
   c1_amended_edge_symmetry.2 gC1
    ⟨DepSym_of_B gC1 (by decide), TranspSym_of_B gC1 (by decide),
     Closed_of_B gC1 (by decide),
     show (gC1.map Prod.fst).Nodup by decide⟩⟩

end Sandbox
